import Mathlib

/-!
# Virtual bistro: linked chain and station registry

A shallow embedding of `LinkedList.cpp`, `StationManager.cpp` and the scenario
of `main.cpp`.

Nodes live in an explicit heap (a list of cells indexed by address); a node
pointer is `Option Nat` with `none` for `nullptr`.  Every dereference of a null
or freed pointer is undefined behaviour in the source and is a `Fault` here, so
a result `Except.ok _` says that the run performed no such dereference.
`new` always hands out the first address never used before, `delete` marks the
cell as freed.  Loops that chase pointers take the number of rounds they may
run; running out of rounds is a `Fault` of its own.  The `int` fields and
`int` loop counters are modelled by `Int` and `Nat`; chains, queues and vectors
of `2^31` or more entries are outside the model.  The `int` quantities of the
backup pool are `Int` values on which the station manager computes with
`wrapInt`.
-/

namespace Bistro

/-- The ways in which a run can fail to return normally. -/
inductive Fault where
  /-- dereference of `nullptr` or of a node that was already deleted -/
  | undefinedBehaviour : Fault
  /-- a pointer-chasing loop did not finish within the given number of rounds -/
  | outOfFuel : Fault
  /-- the C++ exception `PrecondViolatedExcep(message)` -/
  | precondViolatedExcep (message : String) : Fault
  deriving DecidableEq, Repr

abbrev Exec := Except Fault

/-- Modelled from the spec: `Node.hpp` is not among the sources. A node holds
one element value and a link to the next node (or none, at the tail). -/
structure Node (T : Type) where
  item_ : T
  next_ : Option Nat
  deriving DecidableEq, Repr

/-- The node store: cell `a` is `some n` for a live node and `none` once freed. -/
abbrev Heap (T : Type) := List (Option (Node T))

section NodeOps
variable {T : Type}

/-- Dereference `p`. -/
def Heap.read (h : Heap T) : Option Nat → Exec (Node T)
  | none => .error .undefinedBehaviour
  | some a =>
    match h[a]? with
    | some (some n) => .ok n
    | _ => .error .undefinedBehaviour

/-- Replace the live node at `p` by its image under `f`. -/
def Heap.modify (h : Heap T) (p : Option Nat) (f : Node T → Node T) : Exec (Heap T) :=
  match p with
  | none => .error .undefinedBehaviour
  | some a => (h.read (some a)).map fun n => h.set a (some (f n))

/-- The expression `new Node<T>(...)`: a fresh cell at the first unused address. -/
def Heap.alloc (h : Heap T) (n : Node T) : Heap T × Option Nat :=
  (h ++ [some n], some h.length)

/-- The statement `delete p` (a no-op on `nullptr`). -/
def Heap.free (h : Heap T) (p : Option Nat) : Exec (Heap T) :=
  match p with
  | none => .ok h
  | some a => (h.read (some a)).map fun _ => h.set a none

/-- The call `p->getItem()`. -/
def getItem (h : Heap T) (p : Option Nat) : Exec T :=
  (h.read p).map Node.item_

/-- The call `p->getNext()`. -/
def getNext (h : Heap T) (p : Option Nat) : Exec (Option Nat) :=
  (h.read p).map Node.next_

/-- The call `p->setItem(x)`. -/
def setItem (h : Heap T) (p : Option Nat) (x : T) : Exec (Heap T) :=
  h.modify p fun n => { n with item_ := x }

/-- The call `p->setNext(q)`. -/
def setNext (h : Heap T) (p : Option Nat) (q : Option Nat) : Exec (Heap T) :=
  h.modify p fun n => { n with next_ := q }

end NodeOps

/-- The data members of `LinkedList<T>`. -/
structure LinkedList where
  head_ptr_ : Option Nat
  item_count_ : Int
  deriving DecidableEq, Repr

namespace LinkedList
variable {T : Type}

/-- Default constructor. -/
def new : LinkedList := ⟨none, 0⟩

def isEmpty (l : LinkedList) : Bool := decide (l.item_count_ = 0)

def getLength (l : LinkedList) : Int := l.item_count_

def getHeadNode (l : LinkedList) : Option Nat := l.head_ptr_

/-- The loop `for (skip = 0; skip < position; skip++) cur_ptr = cur_ptr->getNext();`
with `n` rounds left. -/
def getNodeAtLoop (h : Heap T) : Nat → Option Nat → Exec (Option Nat)
  | 0, cur_ptr => .ok cur_ptr
  | n + 1, cur_ptr => do
    let nx ← getNext h cur_ptr
    getNodeAtLoop h n nx

/-- `getNodeAt`: no range check, `max position 0` hops from the head. -/
def getNodeAt (h : Heap T) (l : LinkedList) (position : Int) : Exec (Option Nat) :=
  getNodeAtLoop h position.toNat l.head_ptr_

/-- `getPointerTo(size_t position)`: the comparison `position < item_count_`
converts `item_count_` to a 64-bit unsigned value. -/
def getPointerTo (h : Heap T) (l : LinkedList) (position : Nat) : Exec (Option Nat) :=
  if position < (l.item_count_ % 2 ^ 64).toNat then
    getNodeAtLoop h position l.head_ptr_
  else
    .ok none

def insert (h : Heap T) (l : LinkedList) (positions : Int) (new_entry : T) :
    Exec (Heap T × LinkedList × Bool) :=
  let able_to_insert := decide (positions ≥ 0) && decide (positions ≤ l.item_count_)
  if able_to_insert then
    let (h1, new_node_ptr) := h.alloc ⟨new_entry, none⟩
    if positions = 0 then do
      let h2 ← setNext h1 new_node_ptr l.head_ptr_
      pure (h2, ⟨new_node_ptr, l.item_count_ + 1⟩, able_to_insert)
    else do
      let prev_ptr ← getNodeAt h1 l (positions - 1)
      let nx ← getNext h1 prev_ptr
      let h2 ← setNext h1 new_node_ptr nx
      let h3 ← setNext h2 prev_ptr new_node_ptr
      pure (h3, ⟨l.head_ptr_, l.item_count_ + 1⟩, able_to_insert)
  else
    pure (h, l, able_to_insert)

def remove (h : Heap T) (l : LinkedList) (position : Int) :
    Exec (Heap T × LinkedList × Bool) :=
  let able_to_remove := decide (position ≥ 0) && decide (position < l.item_count_)
  if able_to_remove then
    if position = 0 then do
      let cur_ptr := l.head_ptr_
      let nx ← getNext h l.head_ptr_
      let h1 ← setNext h cur_ptr none
      let h2 ← h1.free cur_ptr
      pure (h2, ⟨nx, l.item_count_ - 1⟩, able_to_remove)
    else do
      let prev_ptr ← getNodeAt h l (position - 1)
      let cur_ptr ← getNext h prev_ptr
      let nx ← getNext h cur_ptr
      let h1 ← setNext h prev_ptr nx
      let h2 ← setNext h1 cur_ptr none
      let h3 ← h2.free cur_ptr
      pure (h3, ⟨l.head_ptr_, l.item_count_ - 1⟩, able_to_remove)
  else
    pure (h, l, able_to_remove)

/-- The loop `while (!isEmpty()) remove(0);` of `clear`, with `fuel` rounds allowed. -/
def clear : Nat → Heap T → LinkedList → Exec (Heap T × LinkedList)
  | 0, h, l => if l.isEmpty then pure (h, l) else .error .outOfFuel
  | fuel + 1, h, l =>
    if l.isEmpty then pure (h, l)
    else do
      let (h1, l1, _) ← remove h l 0
      clear fuel h1 l1

def getEntry (h : Heap T) (l : LinkedList) (position : Int) : Exec T :=
  let ableToGet := decide (position ≥ 0) && decide (position < l.item_count_)
  if ableToGet then do
    let nodePtr ← getNodeAt h l position
    getItem h nodePtr
  else
    let message := "getEntry() called with an empty list or "
    let message := message ++ "invalid position."
    .error (.precondViolatedExcep message)

/-- The `while (orig_chain_pointer != nullptr)` loop of the copy constructor,
with `fuel` rounds allowed. -/
def copyLoop : Nat → Heap T → Option Nat → Option Nat → Exec (Heap T × Option Nat)
  | _, h, none, new_chain_ptr => pure (h, new_chain_ptr)
  | 0, _, some _, _ => .error .outOfFuel
  | fuel + 1, h, some a, new_chain_ptr => do
    let next_item ← getItem h (some a)
    let (h1, new_node_ptr) := h.alloc ⟨next_item, none⟩
    let h2 ← setNext h1 new_chain_ptr new_node_ptr
    let new_chain_ptr ← getNext h2 new_chain_ptr
    let orig_chain_pointer ← getNext h2 (some a)
    copyLoop fuel h2 orig_chain_pointer new_chain_ptr

/-- Copy constructor `LinkedList(const LinkedList<T>& a_list)`. -/
def copy [Inhabited T] (fuel : Nat) (h : Heap T) (a_list : LinkedList) :
    Exec (Heap T × LinkedList) :=
  let item_count_ := a_list.item_count_
  let orig_chain_pointer := a_list.head_ptr_
  match orig_chain_pointer with
  | none => pure (h, ⟨none, item_count_⟩)
  | some _ => do
    let (h1, head_ptr_) := h.alloc ⟨default, none⟩
    let x ← getItem h1 orig_chain_pointer
    let h2 ← setItem h1 head_ptr_ x
    let new_chain_ptr := head_ptr_
    let orig_chain_pointer ← getNext h2 orig_chain_pointer
    let (h3, new_chain_ptr) ← copyLoop fuel h2 orig_chain_pointer new_chain_ptr
    let h4 ← setNext h3 new_chain_ptr none
    pure (h4, ⟨head_ptr_, item_count_⟩)

end LinkedList

open LinkedList

/-! ## Abstraction: the cells a chain visits -/

section Abstraction
variable {T : Type}

/-- `Seg h p cs q`: starting at pointer `p` and following `next_` links in heap
`h` one visits exactly the live cells `cs` (address and item, in order) and
arrives at pointer `q`. -/
def Seg (h : Heap T) : Option Nat → List (Nat × T) → Option Nat → Prop
  | p, [], q => p = q
  | p, c :: cs, q => p = some c.1 ∧ ∃ nx, h[c.1]? = some (some ⟨c.2, nx⟩) ∧ Seg h nx cs q

/-- `Chain h l cs`: the nodes reachable from `head_ptr_` are exactly the cells
`cs`, the last one has no successor, and `item_count_` is their number. -/
def Chain (h : Heap T) (l : LinkedList) (cs : List (Nat × T)) : Prop :=
  Seg h l.head_ptr_ cs none ∧ l.item_count_ = cs.length

/-- The chain invariant: `item_count_` equals the number of nodes reachable
from `head_ptr_`. -/
def Inv (h : Heap T) (l : LinkedList) : Prop := ∃ cs, Chain h l cs

/-- The element sequence of a chain, read through the public interface:
`getEntry(0), ..., getEntry(getLength() - 1)`. -/
def entries (h : Heap T) (l : LinkedList) : List (Exec T) :=
  (List.range l.getLength.toNat).map fun (i : Nat) => getEntry h l (i : Int)

end Abstraction

/-! ## Station registry

`StationManager` is a `LinkedList<KitchenStation*>`: its nodes hold station
pointers. The station records themselves are allocated by the caller and live
in a store of their own. -/

/-- The value `x` is one of the C++ type `int`, which is 32 bits wide. -/
def InInt (x : Int) : Prop := -2147483648 ≤ x ∧ x ≤ 2147483647

/-- The result the program computes for an `int` operation whose exact value is
`x`: the value itself when it is an `int`, and otherwise (signed overflow,
which the C++ standard leaves undefined) the value reduced to 32 bits in two's
complement, as the usual targets do. -/
def wrapInt (x : Int) : Int := Int.bmod x (2 ^ 32)

/-- Modelled from the spec: the header that declares `Ingredient` is not among
the sources. Its fields are the ones `StationManager.cpp` reads and the
constructor comment in `main.cpp` lists; the `double price`, which no modelled
function reads, is left out. -/
structure Ingredient where
  name : String
  quantity : Int
  required_quantity : Int
  deriving DecidableEq, Repr

/-- Modelled from the spec: `Dish.hpp` is not among the sources. A dish has a
name and the ingredients it requires, each with its required quantity. -/
structure Dish where
  name_ : String
  ingredients_ : List Ingredient
  deriving DecidableEq, Repr

/-- The caller-allocated dishes; a `Dish*` is `some a` for the dish at address
`a` and `none` for `nullptr`. -/
abbrev Dishes := List Dish

/-- Dereference a `Dish*`. -/
def Dish.read (ds : Dishes) : Option Nat → Exec Dish
  | none => .error .undefinedBehaviour
  | some a =>
    match ds[a]? with
    | some d => .ok d
    | none => .error .undefinedBehaviour

/-- The call `dish->getName()`. -/
def Dish.getName (ds : Dishes) (dish : Option Nat) : Exec String :=
  (Dish.read ds dish).map Dish.name_

/-- The call `dish->getIngredients()`. -/
def Dish.getIngredients (ds : Dishes) (dish : Option Nat) : Exec (List Ingredient) :=
  (Dish.read ds dish).map Dish.ingredients_

/-- Modelled from the spec: `KitchenStation.hpp` is not among the sources. A
station record carries a name, the key under which the registry looks it up,
the dishes assigned to it and its ingredient stock. -/
structure KitchenStation where
  name_ : String
  dishes_ : List (Option Nat) := []
  ingredients_stock_ : List Ingredient := []
  deriving DecidableEq, Repr

/-- The caller-allocated station records; the pointer `some a` designates the
record at address `a`, and `none` is `nullptr`. -/
abbrev Stations := List KitchenStation

/-- The call `station->getName()`. -/
def getName (st : Stations) (station : Option Nat) : Exec String :=
  match station with
  | none => .error .undefinedBehaviour
  | some a =>
    match st[a]? with
    | some s => .ok s.name_
    | none => .error .undefinedBehaviour

/-- Dereference a `KitchenStation*`. -/
def readStation (st : Stations) : Option Nat → Exec KitchenStation
  | none => .error .undefinedBehaviour
  | some a =>
    match st[a]? with
    | some s => .ok s
    | none => .error .undefinedBehaviour

/-- Store the record `s` in the station object `station` points to. -/
def writeStation (st : Stations) (station : Option Nat) (s : KitchenStation) : Stations :=
  match station with
  | none => st
  | some a => st.set a s

namespace KitchenStation

/-- Modelled from the spec: the ingredient-stock merge rule, "duplicates are
additive at the destination". The first entry with the ingredient's name gets
the quantity added; with no such entry the ingredient becomes a new last
entry. -/
def mergeStock : List Ingredient → Ingredient → List Ingredient
  | [], ingredient => [ingredient]
  | e :: rest, ingredient =>
    if e.name = ingredient.name then
      { e with quantity := e.quantity + ingredient.quantity } :: rest
    else
      e :: mergeStock rest ingredient

/-- Modelled from the spec: `KitchenStation::replenishStationIngredients` is
not among the sources; it adds the ingredient to the station's stock by the
merge rule. -/
def replenishStationIngredients (s : KitchenStation) (ingredient : Ingredient) :
    KitchenStation :=
  { s with ingredients_stock_ := mergeStock s.ingredients_stock_ ingredient }

/-- Does one of the dishes `assigned` carry the name `dish_name`? The first
one that does is returned. -/
def findDish (ds : Dishes) (dish_name : String) : List (Option Nat) → Exec (Option Dish)
  | [] => pure none
  | d :: rest => do
    let dish ← Dish.read ds d
    if dish.name_ = dish_name then pure (some dish) else findDish ds dish_name rest

/-- Modelled from the spec: `KitchenStation::assignDishToStation` is not
among the sources. Assignment is per station and name: a dish whose name is
already assigned is refused, any other dish joins the station's dishes. -/
def assignDishToStation (ds : Dishes) (s : KitchenStation) (dish : Option Nat) :
    Exec (KitchenStation × Bool) := do
  let name ← Dish.getName ds dish
  let found ← findDish ds name s.dishes_
  match found with
  | some _ => pure (s, false)
  | none => pure ({ s with dishes_ := s.dishes_ ++ [dish] }, true)

/-- Is `ingredient` in stock at its required quantity or more? -/
def hasEnough (stock : List Ingredient) (ingredient : Ingredient) : Bool :=
  match stock.find? fun e => e.name = ingredient.name with
  | some e => decide (e.quantity ≥ ingredient.required_quantity)
  | none => false

/-- Modelled from the spec: `KitchenStation::canCompleteOrder` is not among
the sources. A station can complete a dish iff a dish of that name is assigned
to it and every required ingredient is in stock at its required quantity or
more. -/
def canCompleteOrder (ds : Dishes) (s : KitchenStation) (dish_name : String) : Exec Bool := do
  let found ← findDish ds dish_name s.dishes_
  match found with
  | some dish => pure (dish.ingredients_.all fun i => hasEnough s.ingredients_stock_ i)
  | none => pure false

/-- Take `amount` off the first stock entry called `name`. -/
def deduct : List Ingredient → String → Int → List Ingredient
  | [], _, _ => []
  | e :: rest, name, amount =>
    if e.name = name then { e with quantity := e.quantity - amount } :: rest
    else e :: deduct rest name amount

/-- Deduct the required quantity of every ingredient of a dish, in order. -/
def deductAll (stock : List Ingredient) (ingredients : List Ingredient) : List Ingredient :=
  ingredients.foldl (fun stock i => deduct stock i.name i.required_quantity) stock

/-- Modelled from the spec: `KitchenStation::prepareDish` is not among the
sources. A station that can complete the dish deducts the required quantity of
every required ingredient from its stock and reports success; a station that
cannot is left as it is and reports failure. -/
def prepareDish (ds : Dishes) (s : KitchenStation) (dish_name : String) :
    Exec (KitchenStation × Bool) := do
  let can ← canCompleteOrder ds s dish_name
  if can then do
    let found ← findDish ds dish_name s.dishes_
    match found with
    | some dish =>
      pure ({ s with ingredients_stock_ := deductAll s.ingredients_stock_ dish.ingredients_ },
        true)
    | none => pure (s, false)
  else
    pure (s, false)

end KitchenStation

namespace StationManager

def addStation (h : Heap (Option Nat)) (l : LinkedList) (station : Option Nat) :
    Exec (Heap (Option Nat) × LinkedList × Bool) :=
  LinkedList.insert h l l.item_count_ station

/-- The loop `while (searchptr != nullptr)` of `findStation`, with `fuel`
rounds allowed. -/
def findStationLoop (st : Stations) (h : Heap (Option Nat)) (station_name : String) :
    Nat → Option Nat → Exec (Option Nat)
  | _, none => .ok none
  | 0, some _ => .error .outOfFuel
  | fuel + 1, some a => do
    let item ← getItem h (some a)
    let name ← getName st item
    if name = station_name then
      getItem h (some a)
    else do
      let searchptr ← getNext h (some a)
      findStationLoop st h station_name fuel searchptr

def findStation (fuel : Nat) (st : Stations) (h : Heap (Option Nat)) (l : LinkedList)
    (station_name : String) : Exec (Option Nat) :=
  findStationLoop st h station_name fuel l.getHeadNode

/-- The loop `for (int i = 0; i < item_count_; ++i)` of `removeStation`, with
`n` rounds left and the loop variable at `i`. -/
def removeStationLoop (st : Stations) (h : Heap (Option Nat)) (l : LinkedList)
    (station_name : String) : Nat → Int → Exec (Heap (Option Nat) × LinkedList × Bool)
  | 0, _ => pure (h, l, false)
  | n + 1, i => do
    let station ← getEntry h l i
    let name ← getName st station
    if name = station_name then
      LinkedList.remove h l i
    else
      removeStationLoop st h l station_name n (i + 1)

def removeStation (st : Stations) (h : Heap (Option Nat)) (l : LinkedList)
    (station_name : String) : Exec (Heap (Option Nat) × LinkedList × Bool) :=
  removeStationLoop st h l station_name l.item_count_.toNat 0

/-- The loop of `getStationIndex`, with `fuel` rounds allowed. -/
def getStationIndexLoop (st : Stations) (h : Heap (Option Nat)) (name : String) :
    Nat → Option Nat → Int → Exec Int
  | _, none, _ => pure (-1)
  | 0, some _, _ => .error .outOfFuel
  | fuel + 1, some a, index => do
    let item ← getItem h (some a)
    let nm ← getName st item
    if nm = name then
      pure index
    else do
      let searchptr ← getNext h (some a)
      getStationIndexLoop st h name fuel searchptr (index + 1)

def getStationIndex (fuel : Nat) (st : Stations) (h : Heap (Option Nat)) (l : LinkedList)
    (name : String) : Exec Int :=
  getStationIndexLoop st h name fuel l.getHeadNode 0

/-- The `while (searchptr != nullptr)` loop of `moveStationToFront`, with
`fuel` rounds allowed (the same allowance goes to `getStationIndex`). -/
def moveStationToFrontLoop (st : Stations) (h : Heap (Option Nat)) (l : LinkedList)
    (station_name : String) (fuel' : Nat) :
    Nat → Option Nat → Exec (Heap (Option Nat) × LinkedList × Bool)
  | _, none => pure (h, l, false)
  | 0, some _ => .error .outOfFuel
  | fuel + 1, some a => do
    let item ← getItem h (some a)
    let nm ← getName st item
    if nm = station_name then do
      let station ← getItem h (some a)
      let item' ← getItem h (some a)
      let nm' ← getName st item'
      let pos ← getStationIndex fuel' st h l nm'
      let (h1, l1, _) ← LinkedList.remove h l pos
      let (h2, l2, _) ← LinkedList.insert h1 l1 0 station
      pure (h2, l2, true)
    else do
      let searchptr ← getNext h (some a)
      moveStationToFrontLoop st h l station_name fuel' fuel searchptr

def moveStationToFront (fuel : Nat) (st : Stations) (h : Heap (Option Nat)) (l : LinkedList)
    (station_name : String) : Exec (Heap (Option Nat) × LinkedList × Bool) := do
  let found ← findStation fuel st h l station_name
  if found = none then
    pure (h, l, false)
  else do
    let item ← getItem h l.getHeadNode
    let nm ← getName st item
    if nm = station_name then
      pure (h, l, true)
    else
      moveStationToFrontLoop st h l station_name fuel fuel l.getHeadNode

/-- The loop `for (Dish* dish : station2->getDishes())` of `mergeStations`. -/
def assignAll (ds : Dishes) (station1 : Option Nat) : Stations → List (Option Nat) → Exec Stations
  | st, [] => pure st
  | st, dish :: rest => do
    let s ← readStation st station1
    let (s', _) ← s.assignDishToStation ds dish
    assignAll ds station1 (writeStation st station1 s') rest

/-- The loop `for (Ingredient ingredient : station2->getIngredientsStock())` of
`mergeStations`. -/
def replenishAll (station1 : Option Nat) : Stations → List Ingredient → Exec Stations
  | st, [] => pure st
  | st, ingredient :: rest => do
    let s ← readStation st station1
    replenishAll station1 (writeStation st station1 (s.replenishStationIngredients ingredient))
      rest

def mergeStations (fuel : Nat) (ds : Dishes) (st : Stations) (h : Heap (Option Nat))
    (l : LinkedList) (station_name1 station_name2 : String) :
    Exec (Stations × Heap (Option Nat) × LinkedList × Bool) := do
  let station1 ← findStation fuel st h l station_name1
  let station2 ← findStation fuel st h l station_name2
  if station1 ≠ none ∧ station2 ≠ none then do
    let s2 ← readStation st station2
    let st1 ← assignAll ds station1 st s2.dishes_
    let s2 ← readStation st1 station2
    let st2 ← replenishAll station1 st1 s2.ingredients_stock_
    let (h1, l1, _) ← removeStation st2 h l station_name2
    pure (st2, h1, l1, true)
  else
    pure (st, h, l, false)

def assignDishToStation (fuel : Nat) (ds : Dishes) (st : Stations) (h : Heap (Option Nat))
    (l : LinkedList) (station_name : String) (dish : Option Nat) : Exec (Stations × Bool) := do
  let station ← findStation fuel st h l station_name
  if station ≠ none then do
    let s ← readStation st station
    let (s', r) ← s.assignDishToStation ds dish
    pure (writeStation st station s', r)
  else
    pure (st, false)

def replenishIngredientAtStation (fuel : Nat) (st : Stations) (h : Heap (Option Nat))
    (l : LinkedList) (station_name : String) (ingredient : Ingredient) :
    Exec (Stations × Bool) := do
  let station ← findStation fuel st h l station_name
  if station ≠ none then do
    let s ← readStation st station
    pure (writeStation st station (s.replenishStationIngredients ingredient), true)
  else
    pure (st, false)

/-- The loop of the manager's `canCompleteOrder`, with `fuel` rounds allowed. -/
def canCompleteOrderLoop (ds : Dishes) (st : Stations) (h : Heap (Option Nat))
    (dish_name : String) : Nat → Option Nat → Exec Bool
  | _, none => pure false
  | 0, some _ => .error .outOfFuel
  | fuel + 1, some a => do
    let item ← getItem h (some a)
    let s ← readStation st item
    let can ← s.canCompleteOrder ds dish_name
    if can then
      pure true
    else do
      let searchptr ← getNext h (some a)
      canCompleteOrderLoop ds st h dish_name fuel searchptr

def canCompleteOrder (fuel : Nat) (ds : Dishes) (st : Stations) (h : Heap (Option Nat))
    (l : LinkedList) (dish_name : String) : Exec Bool :=
  canCompleteOrderLoop ds st h dish_name fuel l.getHeadNode

def prepareDishAtStation (fuel : Nat) (ds : Dishes) (st : Stations) (h : Heap (Option Nat))
    (l : LinkedList) (station_name dish_name : String) : Exec (Stations × Bool) := do
  let station ← findStation fuel st h l station_name
  if station ≠ none then do
    let s ← readStation st station
    let can ← s.canCompleteOrder ds dish_name
    if can then do
      let s ← readStation st station
      let (s', r) ← s.prepareDish ds dish_name
      pure (writeStation st station s', r)
    else
      pure (st, false)
  else
    pure (st, false)

/-- The overload `addDishToQueue(Dish* dish)`. -/
def addDishToQueue (dish_queue_ : List (Option Nat)) (dish : Option Nat) : List (Option Nat) :=
  if dish ≠ none then dish_queue_ ++ [dish] else dish_queue_

/-- The loop `for (size_t i = 0; i < getLength(); i++)` of `prepareNextDish`,
with `n` rounds left and the loop variable at `i`. -/
def prepareNextDishLoop (ds : Dishes) (h : Heap (Option Nat)) (l : LinkedList)
    (dish : Option Nat) : Nat → Int → Stations → Exec (Stations × Bool)
  | 0, _, st => pure (st, false)
  | n + 1, i, st => do
    let station ← getEntry h l i
    let s ← readStation st station
    let name ← Dish.getName ds dish
    let can ← s.canCompleteOrder ds name
    if can then do
      let s ← readStation st station
      let name ← Dish.getName ds dish
      let (s', r) ← s.prepareDish ds name
      if r then
        pure (writeStation st station s', true)
      else
        prepareNextDishLoop ds h l dish n (i + 1) (writeStation st station s')
    else
      prepareNextDishLoop ds h l dish n (i + 1) st

/-- `prepareNextDish`; the bound `getLength()` of its loop is converted to
`size_t` for the comparison with `i`. -/
def prepareNextDish (ds : Dishes) (st : Stations) (h : Heap (Option Nat)) (l : LinkedList)
    (dish_queue_ : List (Option Nat)) : Exec (Stations × List (Option Nat) × Bool) :=
  match dish_queue_ with
  | [] => pure (st, dish_queue_, false)
  | dish :: rest => do
    let (st', r) ← prepareNextDishLoop ds h l dish (l.getLength % 2 ^ 64).toNat 0 st
    if r then
      pure (st', rest, true)
    else
      pure (st', rest ++ [dish], false)

/-- The scan of `replenishStationIngredientFromBackup` over the backup pool,
from the entry the loop variable is at; the entries before it are untouched.
The difference written back is a difference of two `int`s. -/
def replenishScan (fuel : Nat) (st : Stations) (h : Heap (Option Nat)) (l : LinkedList)
    (station_name ingredient_name : String) (quantity : Int) :
    List Ingredient → Exec (Stations × List Ingredient × Bool)
  | [] => pure (st, [], false)
  | e :: rest =>
    if e.name = ingredient_name ∧ e.quantity ≥ quantity then do
      let (st', r) ← replenishIngredientAtStation fuel st h l station_name
        ⟨ingredient_name, quantity, 0⟩
      if r then
        let e' : Ingredient := { e with quantity := wrapInt (e.quantity - quantity) }
        if e'.quantity ≤ 0 then
          pure (st', rest, true)
        else
          pure (st', e' :: rest, true)
      else
        pure (st', e :: rest, false)
    else do
      let (st', rest', r) ← replenishScan fuel st h l station_name ingredient_name quantity rest
      pure (st', e :: rest', r)

def replenishStationIngredientFromBackup (fuel : Nat) (st : Stations) (h : Heap (Option Nat))
    (l : LinkedList) (backup_ingredients_ : List Ingredient)
    (station_name ingredient_name : String) (quantity : Int) :
    Exec (Stations × List Ingredient × Bool) := do
  let station ← findStation fuel st h l station_name
  if station = none then
    pure (st, backup_ingredients_, false)
  else
    replenishScan fuel st h l station_name ingredient_name quantity backup_ingredients_

def addBackupIngredients (_backup_ingredients_ : List Ingredient)
    (ingredients : List Ingredient) : List Ingredient × Bool :=
  (ingredients, true)

/-- The scan of `addBackupIngredient` over the backup pool; the sum is a sum of
two `int`s. -/
def addBackupIngredientScan : List Ingredient → Ingredient → List Ingredient
  | [], ingredient => [ingredient]
  | e :: rest, ingredient =>
    if e.name = ingredient.name then
      { e with quantity := wrapInt (e.quantity + ingredient.quantity) } :: rest
    else
      e :: addBackupIngredientScan rest ingredient

def addBackupIngredient (backup_ingredients_ : List Ingredient) (ingredient : Ingredient) :
    List Ingredient × Bool :=
  (addBackupIngredientScan backup_ingredients_ ingredient, true)

def clearBackupIngredients (_backup_ingredients_ : List Ingredient) : List Ingredient := []

/-- What `processAllDishes` works on: the station records, the backup pool,
the dish queue and the lines written to `std::cout` so far. -/
structure Pass where
  stations : Stations
  backup : List Ingredient
  queue : List (Option Nat)
  out : List String
  deriving DecidableEq, Repr

/-- The "assigned dish checker" loop of `processAllDishes`. -/
def assignedLoop (ds : Dishes) (dish : Option Nat) : List (Option Nat) → Exec Bool
  | [] => pure false
  | d :: rest => do
    let n ← Dish.getName ds d
    let name ← Dish.getName ds dish
    if n = name then pure true else assignedLoop ds dish rest

/-- The loop "replenishing ingredients from backup" of `processAllDishes` over
the ingredients of the dish. -/
def replenishLoop (fuel : Nat) (h : Heap (Option Nat)) (l : LinkedList) (station : Option Nat) :
    List Ingredient → Stations → List Ingredient → Bool → Exec (Stations × List Ingredient × Bool)
  | [], st, backup, replenished_dishes => pure (st, backup, replenished_dishes)
  | ingredient :: rest, st, backup, replenished_dishes => do
    let (backup1, _) := addBackupIngredient backup ingredient
    let station_name ← getName st station
    let (st1, backup2, r) ← replenishStationIngredientFromBackup fuel st h l backup1
      station_name ingredient.name ingredient.required_quantity
    replenishLoop fuel h l station rest st1 backup2 (if r then true else replenished_dishes)

/-- The condition `station->canCompleteOrder(name) && station->prepareDish(name)`
of `processAllDishes`: the station records afterwards and the value of the
condition. -/
def tryPrepare (ds : Dishes) (st : Stations) (station : Option Nat) (dname : String) :
    Exec (Stations × Bool) := do
  let s ← readStation st station
  let can ← s.canCompleteOrder ds dname
  if can then do
    let s ← readStation st station
    let (s', r) ← s.prepareDish ds dname
    pure (writeStation st station s', r)
  else
    pure (st, false)

/-- The body of the loop "iterates through stations" of `processAllDishes` for
the station at index `j`; the result says whether the dish was prepared there
(the `break`). -/
def visitStation (fuel : Nat) (ds : Dishes) (h : Heap (Option Nat)) (l : LinkedList)
    (dish : Option Nat) (j : Int) (w : Pass) : Exec (Pass × Bool) := do
  let station ← getEntry h l j
  let sname ← getName w.stations station
  let dname ← Dish.getName ds dish
  let w := { w with out := w.out ++ [sname ++ " attempting to prepare " ++ dname ++ "..."] }
  let s ← readStation w.stations station
  let assigned_dishes ← assignedLoop ds dish s.dishes_
  if assigned_dishes then do
    let (st1, done) ← tryPrepare ds w.stations station dname
    if done then
      pure ({ w with
        stations := st1
        out := w.out ++ [sname ++ ": Successfully prepared " ++ dname ++ "."]
        queue := w.queue.tail }, true)
    else do
      let out1 := w.out ++ [sname ++ ": Insufficient ingredients. Replenishing ingredients..."]
      let ingredients ← Dish.getIngredients ds dish
      let (st2, backup2, replenished_dishes) ←
        replenishLoop fuel h l station ingredients st1 w.backup false
      let (st3, done2) ←
        if replenished_dishes then tryPrepare ds st2 station dname else pure (st2, false)
      if done2 then
        pure ({ stations := st3, backup := backup2, queue := w.queue.tail,
                out := out1 ++ [sname ++ ": Ingredients replenished.",
                  sname ++ ": Successfully prepared " ++ dname ++ "."] }, true)
      else
        pure ({ stations := st3, backup := backup2, queue := w.queue,
                out := out1 ++
                  [sname ++ ": Unable to replenish ingredients. Failed to prepare " ++ dname ++
                    "."] }, false)
  else
    pure ({ w with
      out := w.out ++ [sname ++ ": Dish not available. Moving to next station..."] }, false)

/-- The loop "iterates through stations" of `processAllDishes` for one dish,
with `n` rounds left and the loop variable at `j`; the result says whether the
dish was prepared. -/
def stationLoop (fuel : Nat) (ds : Dishes) (h : Heap (Option Nat)) (l : LinkedList)
    (dish : Option Nat) : Nat → Int → Pass → Exec (Pass × Bool)
  | 0, _, w => pure (w, false)
  | n + 1, j, w => do
    let (w1, prepared_dishes) ← visitStation fuel ds h l dish j w
    if prepared_dishes then
      pure (w1, true)
    else
      stationLoop fuel ds h l dish n (j + 1) w1

/-- The loop "iterates through dish queues" of `processAllDishes`, with `n`
rounds left. -/
def dishLoop (fuel : Nat) (ds : Dishes) (h : Heap (Option Nat)) (l : LinkedList) :
    Nat → Pass → Exec Pass
  | 0, w => pure w
  | n + 1, w =>
    match w.queue with
    | [] => .error .undefinedBehaviour
    | dish :: _ => do
      let dname ← Dish.getName ds dish
      let w := { w with out := w.out ++ ["PREPARING DISH: " ++ dname] }
      let (w, prepared_dishes) ← stationLoop fuel ds h l dish l.getLength.toNat 0 w
      if prepared_dishes then
        dishLoop fuel ds h l n w
      else do
        let dname ← Dish.getName ds dish
        dishLoop fuel ds h l n { w with
          queue := w.queue.tail ++ [dish]
          out := w.out ++ [dname ++ " was not prepared."] }

/-- The function `processAllDishes`: the queue's size is read once, before the loop
(`int initial_queue_size = dish_queue_.size()`), and bounds its rounds. -/
def processAllDishes (fuel : Nat) (ds : Dishes) (h : Heap (Option Nat)) (l : LinkedList)
    (w : Pass) : Exec Pass := do
  let initial_queue_size := w.queue.length
  let w ← dishLoop fuel ds h l initial_queue_size w
  pure { w with out := w.out ++ ["All dishes have been processed."] }

end StationManager

/-! ## The program `main`

The scenario `main.cpp` builds and runs. -/

/-- The five dishes `main` allocates, in the order of their `new`; the dish
pointers `spaghetti_bol`, `veg_salad`, `seafood_pae`, `grill_chicken` and
`beef_well` are `some 0` to `some 4`. Each dish requires one ingredient, given
as `Ingredient(name, quantity, required_quantity, price)`. -/
def mainDishes : Dishes :=
  [⟨"Spaghetti Bolognese", [⟨"Pasta", 1, 2⟩]⟩, ⟨"Vegan Salad", [⟨"Salad", 2, 1⟩]⟩,
   ⟨"Seafood Paella", [⟨"Seafood", 1, 2⟩]⟩, ⟨"Grilled Chicken", [⟨"Grill", 2, 1⟩]⟩,
   ⟨"Beef Wellington", [⟨"Oven", 2, 1⟩]⟩]

/-- Modelled from the spec: the constructor `KitchenStation(name)` is not among
the sources; a new station has the given name, no dish and no stock. These are
the five stations `main` allocates; `pasta_stat`, `salad_stat`, `seafood_stat`,
`grill_stat` and `oven_stat` are `some 0` to `some 4`. -/
def mainStations : Stations :=
  [{ name_ := "Pasta Station" }, { name_ := "Salad Station" }, { name_ := "Seafood Station" },
   { name_ := "Grill Station" }, { name_ := "Oven Station" }]

/-- The calls of `main` on the stations and on the station manager before the
pass: the registry, and the state the pass starts from. The registry never
holds more than five nodes, which bounds the rounds of every look-up. -/
def mainSetup : Exec (Heap (Option Nat) × LinkedList × StationManager.Pass) := do
  let pasta : Ingredient := ⟨"Pasta", 1, 2⟩
  let salad : Ingredient := ⟨"Salad", 2, 1⟩
  let grill : Ingredient := ⟨"Grill", 2, 1⟩
  let oven : Ingredient := ⟨"Oven", 2, 1⟩
  let (backup, _) := StationManager.addBackupIngredient [] pasta
  let (backup, _) := StationManager.addBackupIngredient backup salad
  let (backup, _) := StationManager.addBackupIngredient backup oven
  let pasta_stat ← readStation mainStations (some 0)
  let st := writeStation mainStations (some 0) (pasta_stat.replenishStationIngredients pasta)
  let salad_stat ← readStation st (some 1)
  let st := writeStation st (some 1) (salad_stat.replenishStationIngredients salad)
  let oven_stat ← readStation st (some 4)
  let st := writeStation st (some 4) (oven_stat.replenishStationIngredients grill)
  let (h, l, _) ← StationManager.addStation [] LinkedList.new (some 0)
  let (h, l, _) ← StationManager.addStation h l (some 1)
  let (h, l, _) ← StationManager.addStation h l (some 2)
  let (h, l, _) ← StationManager.addStation h l (some 3)
  let (h, l, _) ← StationManager.addStation h l (some 4)
  let (st, _) ← StationManager.assignDishToStation 5 mainDishes st h l "Pasta Station" (some 0)
  let (st, _) ← StationManager.assignDishToStation 5 mainDishes st h l "Salad Station" (some 1)
  let (st, _) ← StationManager.assignDishToStation 5 mainDishes st h l "Seafood Station" (some 2)
  let (st, _) ← StationManager.assignDishToStation 5 mainDishes st h l "Grill Station" (some 3)
  let (st, _) ← StationManager.assignDishToStation 5 mainDishes st h l "Oven Station" (some 3)
  let queue := StationManager.addDishToQueue [] (some 0)
  let queue := StationManager.addDishToQueue queue (some 1)
  let queue := StationManager.addDishToQueue queue (some 2)
  let queue := StationManager.addDishToQueue queue (some 3)
  let queue := StationManager.addDishToQueue queue (some 4)
  pure (h, l, ⟨st, backup, queue, []⟩)

/-- The function `main`: the set-up above, then
`station_manager.processAllDishes()`. The result is the state the pass leaves,
with the lines written to `std::cout`. -/
def main : Exec StationManager.Pass := do
  let (h, l, w) ← mainSetup
  StationManager.processAllDishes 5 mainDishes h l w

/-! ## Abstraction: registries, stock, pools and passes -/

/-- A registry in good order: its count matches its nodes and every registered
pointer designates a station record. -/
def Registry (st : Stations) (h : Heap (Option Nat)) (l : LinkedList) : Prop :=
  ∃ cs, Chain h l cs ∧ ∀ c ∈ cs, ∃ a s, c.2 = some a ∧ st[a]? = some s

/-- The quantity a stock or pool holds of the ingredient `name`, summed over
its entries of that name. -/
def stockOf (stock : List Ingredient) (name : String) : Int :=
  ((stock.filter fun e => e.name = name).map Ingredient.quantity).sum

/-- Is a dish called `name` among the dishes `assigned`? -/
def hasDish (ds : Dishes) (assigned : List (Option Nat)) (name : String) : Prop :=
  ∃ d ∈ assigned, Dish.getName ds d = .ok name

/-- Every dish pointer held by a station designates a dish. -/
def DishesOk (ds : Dishes) (st : Stations) : Prop :=
  ∀ s ∈ st, ∀ d ∈ s.dishes_, ∃ dish, Dish.read ds d = .ok dish

/-- No two entries of a stock or pool carry the same ingredient name. -/
def UniqueNames (pool : List Ingredient) : Prop :=
  (pool.map Ingredient.name).Nodup

/-- The cells of a registry all hold pointers to station records. -/
def Listed (st : Stations) (cs : List (Nat × Option Nat)) : Prop :=
  ∀ c ∈ cs, ∃ a s, c.2 = some a ∧ st[a]? = some s

/-- Some registered station is called `name`. -/
def Named (st : Stations) (h : Heap (Option Nat)) (l : LinkedList) (name : String) : Prop :=
  ∃ p, Except.ok p ∈ entries h l ∧ getName st p = .ok name

/-- The station `p` points to can (`can = true`) or cannot (`can = false`)
complete the dish called `name`. -/
def Completes (ds : Dishes) (st : Stations) (name : String) (can : Bool)
    (p : Option Nat) : Prop :=
  ∃ a s, p = some a ∧ st[a]? = some s ∧ s.canCompleteOrder ds name = .ok can

/-- The station record after `replenishStationIngredients` with each of the
given ingredients in turn. -/
def replenishedWith (s : KitchenStation) (stock : List Ingredient) : KitchenStation :=
  stock.foldl (fun s i => s.replenishStationIngredients i) s

/-- The first pointer of the list whose station is called `name`, `none` when
there is none. -/
def lookupName (st : Stations) (name : String) : List (Option Nat) → Option Nat
  | [] => none
  | p :: rest =>
    match getName st p with
    | .ok n => if n = name then p else lookupName st name rest
    | .error _ => lookupName st name rest

/-- The backup pools that arise from the empty pool by the operations that
write the pool, `addBackupIngredients` being given lists without repeated
names only. The other parts of the state are arbitrary at every step. -/
inductive PoolReachable : List Ingredient → Prop
  | start : PoolReachable []
  | addOne {pool : List Ingredient} (ingredient : Ingredient) :
      PoolReachable pool → PoolReachable (StationManager.addBackupIngredient pool ingredient).1
  | addMany {pool : List Ingredient} (ingredients : List Ingredient) :
      UniqueNames ingredients → PoolReachable pool →
      PoolReachable (StationManager.addBackupIngredients pool ingredients).1
  | replenish {pool : List Ingredient} (fuel : Nat) (st : Stations) (h : Heap (Option Nat))
      (l : LinkedList) (sname iname : String) (q : Int) (st' : Stations)
      (pool' : List Ingredient) (r : Bool) :
      PoolReachable pool →
      StationManager.replenishStationIngredientFromBackup fuel st h l pool sname iname q =
        .ok (st', pool', r) →
      PoolReachable pool'
  | clear {pool : List Ingredient} :
      PoolReachable pool → PoolReachable (StationManager.clearBackupIngredients pool)
  | process {pool : List Ingredient} (fuel : Nat) (ds : Dishes) (h : Heap (Option Nat))
      (l : LinkedList) (st : Stations) (queue : List (Option Nat)) (out : List String)
      (w' : StationManager.Pass) :
      PoolReachable pool →
      StationManager.processAllDishes fuel ds h l ⟨st, pool, queue, out⟩ = .ok w' →
      PoolReachable w'.backup

/-- The part of the station records that a processing pass never writes: the
name and the assigned dishes of every station. -/
def shape (st : Stations) : List (String × List (Option Nat)) :=
  st.map fun s => (s.name_, s.dishes_)

/-- Every dish pointer in the queue designates a dish. -/
def QueueOk (ds : Dishes) (queue : List (Option Nat)) : Prop :=
  ∀ d ∈ queue, ∃ dish, Dish.read ds d = .ok dish

/-- The record `replenishStationIngredientFromBackup` hands to the station when
it transfers the required quantity of the ingredient `i`. -/
def transferOf (i : Ingredient) : Ingredient := ⟨i.name, i.required_quantity, 0⟩

/-- The pass as the spec describes it, to be compared with `processAllDishes`:
the dishes of the list are handled one after the other, in the order of the
list, each by one "PREPARING DISH" line and one scan of the stations, and a
dish that no station prepared goes to the tail of the queue. The flags say,
dish by dish, whether a station prepared it. -/
def handleInOrder (fuel : Nat) (ds : Dishes) (h : Heap (Option Nat)) (l : LinkedList) :
    List (Option Nat) → StationManager.Pass → Exec (StationManager.Pass × List Bool)
  | [], w => pure (w, [])
  | dish :: rest, w => do
    let dname ← Dish.getName ds dish
    let w := { w with out := w.out ++ ["PREPARING DISH: " ++ dname] }
    let (w, prepared_dishes) ← StationManager.stationLoop fuel ds h l dish l.getLength.toNat 0 w
    if prepared_dishes then do
      let (w, flags) ← handleInOrder fuel ds h l rest w
      pure (w, true :: flags)
    else do
      let (w, flags) ← handleInOrder fuel ds h l rest { w with
        queue := w.queue.tail ++ [dish]
        out := w.out ++ [dname ++ " was not prepared."] }
      pure (w, false :: flags)

/-- The dishes whose flag says "not prepared", in their order. -/
def unprepared : List (Option Nat) → List Bool → List (Option Nat)
  | d :: ds, b :: bs => if b then unprepared ds bs else d :: unprepared ds bs
  | _, _ => []

/-- The scan of the stations for one dish as the spec describes it, station by
station in registry order, from the station records `st` and the pool `pool`
to the records and the pool it leaves, with the answer to "did a station
prepare the dish?". A station that does not have the dish assigned is passed
over. A station that has it and whose `prepareDish` succeeds has prepared it:
its record becomes the one `prepareDish` hands back, and the scan stops. A
station that has it but cannot complete it is replenished; when a transfer
succeeded and `prepareDish` now succeeds, it has prepared the dish and the scan
stops; otherwise the scan goes on to the next station. After the last station
no station has prepared the dish. -/
inductive Scans (fuel : Nat) (ds : Dishes) (h : Heap (Option Nat)) (l : LinkedList)
    (dname : String) (ingredients : List Ingredient) :
    List (Option Nat) → Stations → List Ingredient → Stations → List Ingredient → Bool → Prop
  | none_left {st : Stations} {pool : List Ingredient} :
      Scans fuel ds h l dname ingredients [] st pool st pool false
  | unassigned {a : Nat} {s : KitchenStation} {ps : List (Option Nat)} {st st' : Stations}
      {pool pool' : List Ingredient} {b : Bool} :
      st[a]? = some s → ¬ hasDish ds s.dishes_ dname →
      Scans fuel ds h l dname ingredients ps st pool st' pool' b →
      Scans fuel ds h l dname ingredients (some a :: ps) st pool st' pool' b
  | prepared {a : Nat} {s s' : KitchenStation} {ps : List (Option Nat)} {st : Stations}
      {pool : List Ingredient} :
      st[a]? = some s → hasDish ds s.dishes_ dname →
      s.prepareDish ds dname = .ok (s', true) →
      Scans fuel ds h l dname ingredients (some a :: ps) st pool (st.set a s') pool true
  | replenished {a : Nat} {s s2 s2' : KitchenStation} {ps : List (Option Nat)}
      {st st2 : Stations} {pool pool2 : List Ingredient} :
      st[a]? = some s → hasDish ds s.dishes_ dname →
      s.canCompleteOrder ds dname = .ok false →
      StationManager.replenishLoop fuel h l (some a) ingredients st pool false =
        .ok (st2, pool2, true) →
      st2[a]? = some s2 → s2.prepareDish ds dname = .ok (s2', true) →
      Scans fuel ds h l dname ingredients (some a :: ps) st pool (st2.set a s2') pool2 true
  | still_short {a : Nat} {s : KitchenStation} {ps : List (Option Nat)}
      {st st2 st' : Stations} {pool pool2 pool' : List Ingredient} {fl b : Bool} :
      st[a]? = some s → hasDish ds s.dishes_ dname →
      s.canCompleteOrder ds dname = .ok false →
      StationManager.replenishLoop fuel h l (some a) ingredients st pool false =
        .ok (st2, pool2, fl) →
      (fl = true → ∃ s2, st2[a]? = some s2 ∧ s2.canCompleteOrder ds dname = .ok false) →
      Scans fuel ds h l dname ingredients ps st2 pool2 st' pool' b →
      Scans fuel ds h l dname ingredients (some a :: ps) st pool st' pool' b

/-- The pass over the dishes of a list, in order, as the spec describes it:
each dish gets one scan of the stations `ps`, and its flag says whether a
station prepared it. -/
inductive Handles (fuel : Nat) (ds : Dishes) (h : Heap (Option Nat)) (l : LinkedList)
    (ps : List (Option Nat)) :
    List (Option Nat) → Stations → List Ingredient → List Bool → Stations → List Ingredient →
      Prop
  | nil {st : Stations} {pool : List Ingredient} : Handles fuel ds h l ps [] st pool [] st pool
  | cons {dish : Option Nat} {d : Dish} {rest : List (Option Nat)} {st st1 st' : Stations}
      {pool pool1 pool' : List Ingredient} {b : Bool} {flags : List Bool} :
      Dish.read ds dish = .ok d →
      Scans fuel ds h l d.name_ d.ingredients_ ps st pool st1 pool1 b →
      Handles fuel ds h l ps rest st1 pool1 flags st' pool' →
      Handles fuel ds h l ps (dish :: rest) st pool (b :: flags) st' pool'

/-! ## Sample states -/

/-- A two-node chain holding 10 and 20. -/
def demoHeap : Heap Nat := [some ⟨10, some 1⟩, some ⟨20, none⟩]

def demoList : LinkedList := ⟨some 0, 2⟩

/-- Three stations; the second and third share a name. -/
def demoStations : Stations :=
  [{ name_ := "Grill" }, { name_ := "Oven" }, { name_ := "Oven" }]

/-- A registry listing the three sample stations in store order. -/
def demoRegistryHeap : Heap (Option Nat) :=
  [some ⟨some 0, some 1⟩, some ⟨some 1, some 2⟩, some ⟨some 2, none⟩]

def demoRegistry : LinkedList := ⟨some 0, 3⟩

/-- Two dishes: a steak that needs 2 of beef, a pie that needs 1 of flour. -/
def demoDishes : Dishes :=
  [⟨"Steak", [⟨"Beef", 0, 2⟩]⟩, ⟨"Pie", [⟨"Flour", 0, 1⟩]⟩]

/-- A grill that has the steak assigned and holds 3 of beef, and an oven that
has the pie assigned and holds 2 of flour and 1 of beef. -/
def demoKitchen : Stations :=
  [{ name_ := "Grill", dishes_ := [some 0], ingredients_stock_ := [⟨"Beef", 3, 0⟩] },
   { name_ := "Oven", dishes_ := [some 1],
     ingredients_stock_ := [⟨"Flour", 2, 0⟩, ⟨"Beef", 1, 0⟩] }]

/-- The registry listing the grill, then the oven. -/
def demoKitchenHeap : Heap (Option Nat) := [some ⟨some 0, some 1⟩, some ⟨some 1, none⟩]

def demoKitchenList : LinkedList := ⟨some 0, 2⟩

/-- A backup pool with 5 of beef and 1 of salt. -/
def demoPool : List Ingredient := [⟨"Beef", 5, 0⟩, ⟨"Salt", 1, 0⟩]

/-- A state for a pass over the sample kitchen: three pies, then a steak, are
waiting, and the pool is the sample pool. The oven has flour for two pies. -/
def demoPass : StationManager.Pass :=
  ⟨demoKitchen, demoPool, [some 1, some 1, some 1, some 0], []⟩

/-- A state for a pass over the three sample stations, none of which has a
dish assigned. -/
def demoIdlePass : StationManager.Pass := ⟨demoStations, demoPool, [some 0, some 1], []⟩

/-- Two stations that share the name "Grill"; only the second has the steak
assigned, and neither holds any stock. -/
def demoTwins : Stations :=
  [{ name_ := "Grill" }, { name_ := "Grill", dishes_ := [some 0] }]

/-- The registry `main` has built when the pass starts. -/
def mainHeap : Heap (Option Nat) :=
  [some ⟨some 0, some 1⟩, some ⟨some 1, some 2⟩, some ⟨some 2, some 3⟩, some ⟨some 3, some 4⟩,
   some ⟨some 4, none⟩]

def mainList : LinkedList := ⟨some 0, 5⟩

/-- The state `main` has built when the pass starts: stations with their
dishes and stock, the backup pool and the queue. -/
def mainPass : StationManager.Pass :=
  { stations :=
      [{ name_ := "Pasta Station", dishes_ := [some 0],
         ingredients_stock_ := [⟨"Pasta", 1, 2⟩] },
       { name_ := "Salad Station", dishes_ := [some 1],
         ingredients_stock_ := [⟨"Salad", 2, 1⟩] },
       { name_ := "Seafood Station", dishes_ := [some 2] },
       { name_ := "Grill Station", dishes_ := [some 3] },
       { name_ := "Oven Station", dishes_ := [some 3],
         ingredients_stock_ := [⟨"Grill", 2, 1⟩] }]
    backup := [⟨"Pasta", 1, 2⟩, ⟨"Salad", 2, 1⟩, ⟨"Oven", 2, 1⟩]
    queue := [some 0, some 1, some 2, some 3, some 4]
    out := [] }

/-! ## Heap lemmas -/

section HeapLemmas
variable {T : Type}

theorem read_live {h : Heap T} {a : Nat} {n : Node T} (e : h[a]? = some (some n)) :
    h.read (some a) = .ok n := by
  simp [Heap.read, e]

theorem getItem_live {h : Heap T} {a : Nat} {n : Node T} (e : h[a]? = some (some n)) :
    getItem h (some a) = .ok n.item_ := by
  simp [getItem, read_live e, Except.map]

theorem getNext_live {h : Heap T} {a : Nat} {n : Node T} (e : h[a]? = some (some n)) :
    getNext h (some a) = .ok n.next_ := by
  simp [getNext, read_live e, Except.map]

theorem setNext_live {h : Heap T} {a : Nat} {n : Node T} (e : h[a]? = some (some n))
    (q : Option Nat) :
    setNext h (some a) q = .ok (h.set a (some ⟨n.item_, q⟩)) := by
  simp [setNext, Heap.modify, read_live e, Except.map]

theorem setItem_live {h : Heap T} {a : Nat} {n : Node T} (e : h[a]? = some (some n))
    (x : T) :
    setItem h (some a) x = .ok (h.set a (some ⟨x, n.next_⟩)) := by
  simp [setItem, Heap.modify, read_live e, Except.map]

theorem free_live {h : Heap T} {a : Nat} {n : Node T} (e : h[a]? = some (some n)) :
    h.free (some a) = .ok (h.set a none) := by
  simp [Heap.free, read_live e, Except.map]

theorem live_lt {h : Heap T} {a : Nat} {n : Node T} (e : h[a]? = some (some n)) :
    a < h.length := by
  by_contra hlt
  rw [List.getElem?_eq_none (by omega)] at e
  cases e

end HeapLemmas

/-! ## Segment lemmas -/

section SegLemmas
variable {T : Type}

/-- Segments compose. -/
theorem Seg.append_iff {h : Heap T} {c₁ c₂ : List (Nat × T)} {p q : Option Nat} :
    Seg h p (c₁ ++ c₂) q ↔ ∃ m, Seg h p c₁ m ∧ Seg h m c₂ q := by
  induction c₁ generalizing p with
  | nil =>
    constructor
    · intro hs; exact ⟨p, rfl, hs⟩
    · rintro ⟨m, hm, hs⟩; cases hm; exact hs
  | cons c cs ih =>
    constructor
    · rintro ⟨hp, nx, hc, hs⟩
      obtain ⟨m, h₁, h₂⟩ := ih.mp hs
      exact ⟨m, ⟨hp, nx, hc, h₁⟩, h₂⟩
    · rintro ⟨m, ⟨hp, nx, hc, h₁⟩, h₂⟩
      exact ⟨hp, nx, hc, ih.mpr ⟨m, h₁, h₂⟩⟩

/-- A segment only depends on the cells it visits. -/
theorem Seg.frame {h h' : Heap T} {cs : List (Nat × T)} {p q : Option Nat}
    (hs : Seg h p cs q) (same : ∀ c ∈ cs, h'[c.1]? = h[c.1]?) : Seg h' p cs q := by
  induction cs generalizing p with
  | nil => exact hs
  | cons c cs ih =>
    obtain ⟨hp, nx, hc, hs⟩ := hs
    refine ⟨hp, nx, ?_, ih hs fun d hd => same d (List.mem_cons_of_mem _ hd)⟩
    rw [same c (List.mem_cons_self _ _)]; exact hc

/-- Every visited cell is allocated. -/
theorem Seg.lt_length {h : Heap T} {cs : List (Nat × T)} {p q : Option Nat}
    (hs : Seg h p cs q) : ∀ c ∈ cs, c.1 < h.length := by
  induction cs generalizing p with
  | nil => intro c hc; cases hc
  | cons c cs ih =>
    obtain ⟨_, nx, hc, hs⟩ := hs
    intro d hd
    rcases List.mem_cons.mp hd with rfl | hd
    · exact live_lt hc
    · exact ih hs d hd

/-- The cells reachable from a pointer up to `nullptr` are determined by the heap. -/
theorem Seg.unique {h : Heap T} {c₁ c₂ : List (Nat × T)} {p : Option Nat}
    (h₁ : Seg h p c₁ none) (h₂ : Seg h p c₂ none) : c₁ = c₂ := by
  induction c₁ generalizing p c₂ with
  | nil =>
    cases c₂ with
    | nil => rfl
    | cons d ds =>
      have hp : p = none := h₁
      have hq : p = some d.1 := h₂.1
      rw [hp] at hq; cases hq
  | cons c cs ih =>
    obtain ⟨hp, nx, hc, hs⟩ := h₁
    cases c₂ with
    | nil =>
      have hq : p = none := h₂
      rw [hp] at hq; cases hq
    | cons d ds =>
      obtain ⟨hq, ny, hd, ht⟩ := h₂
      rw [hp] at hq
      have hcd : c.1 = d.1 := Option.some.inj hq
      rw [← hcd, hc] at hd
      have hn : (⟨c.2, nx⟩ : Node T) = ⟨d.2, ny⟩ := Option.some.inj (Option.some.inj hd)
      have h2 : c.2 = d.2 := congrArg Node.item_ hn
      have h3 : nx = ny := congrArg Node.next_ hn
      subst h3
      rw [ih hs ht]
      congr 1
      exact Prod.ext hcd h2

/-- A null-terminated chain visits no cell twice. -/
theorem Seg.nodup {h : Heap T} {cs : List (Nat × T)} {p : Option Nat}
    (hs : Seg h p cs none) : (cs.map Prod.fst).Nodup := by
  induction cs generalizing p with
  | nil => exact List.nodup_nil
  | cons c cs ih =>
    obtain ⟨hp, nx, hc, ht⟩ := hs
    rw [List.map_cons, List.nodup_cons]
    refine ⟨?_, ih ht⟩
    intro hmem
    obtain ⟨d, hd, hdc⟩ := List.mem_map.mp hmem
    obtain ⟨l₁, l₂, rfl⟩ := List.append_of_mem hd
    obtain ⟨m, _, hm⟩ := Seg.append_iff.mp ht
    obtain ⟨hm1, ny, hdn, hl₂⟩ := hm
    rw [hdc, hc] at hdn
    have hn : (⟨c.2, nx⟩ : Node T) = ⟨d.2, ny⟩ := Option.some.inj (Option.some.inj hdn)
    have h3 : nx = ny := congrArg Node.next_ hn
    subst h3
    have := Seg.unique ht hl₂
    have hlen := congrArg List.length this
    simp at hlen
    omega

/-- Walking as many hops as a segment has cells arrives at its end. -/
theorem getNodeAtLoop_seg {h : Heap T} {cs : List (Nat × T)} {p q : Option Nat}
    (hs : Seg h p cs q) : getNodeAtLoop h cs.length p = .ok q := by
  induction cs generalizing p with
  | nil => cases hs; rfl
  | cons c cs ih =>
    obtain ⟨hp, nx, hc, ht⟩ := hs
    subst hp
    simp only [List.length_cons, getNodeAtLoop, getNext_live hc]
    exact ih ht

/-- A null-terminated chain read up to hop `k` and from hop `k` on. -/
theorem Seg.split {h : Heap T} {cs : List (Nat × T)} {p : Option Nat}
    (hs : Seg h p cs none) (k : Nat) :
    ∃ m, Seg h p (cs.take k) m ∧ Seg h m (cs.drop k) none := by
  rw [← List.take_append_drop k cs] at hs
  exact Seg.append_iff.mp hs

/-- The cell a chain has at hop `k`, with its outgoing link. -/
theorem Seg.at {h : Heap T} {cs : List (Nat × T)} {p : Option Nat}
    (hs : Seg h p cs none) (k : Nat) (hk : k < cs.length) :
    ∃ nx, Seg h p (cs.take k) (some cs[k].1) ∧ h[cs[k].1]? = some (some ⟨cs[k].2, nx⟩) ∧
      Seg h nx (cs.drop (k + 1)) none := by
  obtain ⟨m, h₁, h₂⟩ := hs.split k
  rw [List.drop_eq_getElem_cons hk] at h₂
  obtain ⟨hm, nx, hc, ht⟩ := h₂
  subst hm
  exact ⟨nx, h₁, hc, ht⟩

theorem getNodeAtLoop_chain {h : Heap T} {cs : List (Nat × T)} {p : Option Nat}
    (hs : Seg h p cs none) (k : Nat) (hk : k < cs.length) :
    getNodeAtLoop h k p = .ok (some cs[k].1) := by
  obtain ⟨nx, h₁, _, _⟩ := hs.at k hk
  have := getNodeAtLoop_seg h₁
  rwa [List.length_take, Nat.min_eq_left (Nat.le_of_lt hk)] at this

/-- On a chain `getEntry` at a valid index returns the item of that cell. -/
theorem getEntry_chain {h : Heap T} {l : LinkedList} {cs : List (Nat × T)}
    (hc : Chain h l cs) (k : Nat) (hk : k < cs.length) :
    getEntry h l (k : Int) = .ok cs[k].2 := by
  obtain ⟨hs, hn⟩ := hc
  obtain ⟨nx, _, hcell, _⟩ := hs.at k hk
  have hlt : (k : Int) < l.item_count_ := by rw [hn]; exact_mod_cast hk
  simp only [getEntry, getNodeAt, ge_iff_le, Int.ofNat_zero_le, decide_True, hlt, Bool.and_self,
    if_true, Int.toNat_ofNat, getNodeAtLoop_chain hs k hk]
  exact getItem_live hcell

/-- Outside `[0, item_count_)` the call `getEntry` throws, whatever the heap holds. -/
theorem getEntry_invalid (h : Heap T) (l : LinkedList) (p : Int)
    (hp : p < 0 ∨ l.item_count_ ≤ p) :
    getEntry h l p =
      .error (.precondViolatedExcep "getEntry() called with an empty list or invalid position.") := by
  have : (decide (p ≥ 0) && decide (p < l.item_count_)) = false := by
    rcases hp with hp | hp
    · simp [hp]
    · simp [hp]
  simp only [getEntry, this]
  rfl

end SegLemmas

/-! ## What `insert` and `remove` do to a chain -/

section OpLemmas
variable {T : Type}

theorem ok_bind {α β : Type} (a : α) (f : α → Exec β) : (Except.ok a >>= f) = f a := rfl
theorem pure_eq_ok {α : Type} (a : α) : (pure a : Exec α) = .ok a := rfl

theorem take_succ_getElem {α : Type} (l : List α) (j : Nat) (hj : j < l.length) :
    l.take (j + 1) = l.take j ++ [l[j]] := by
  rw [List.take_succ, List.getElem?_eq_getElem hj]; rfl

/-- The cell at hop `j` of a chain is not visited before or after hop `j`. -/
theorem Seg.at_ne {h : Heap T} {cs : List (Nat × T)} {p : Option Nat}
    (hs : Seg h p cs none) (j : Nat) (hj : j < cs.length) :
    (∀ c ∈ cs.take j, c.1 ≠ cs[j].1) ∧ (∀ c ∈ cs.drop (j + 1), c.1 ≠ cs[j].1) := by
  have e : cs.take j ++ cs[j] :: cs.drop (j + 1) = cs := by
    rw [List.getElem_cons_drop, List.take_append_drop]
  have nd : ((cs.take j ++ cs[j] :: cs.drop (j + 1)).map Prod.fst).Nodup := by
    rw [e]; exact hs.nodup
  rw [List.map_append, List.map_cons, List.nodup_append, List.nodup_cons] at nd
  obtain ⟨_, ⟨hnot, _⟩, hdis⟩ := nd
  constructor
  · intro c hc heq
    exact hdis (List.mem_map_of_mem _ hc) (heq ▸ List.mem_cons_self _ _)
  · intro c hc heq
    exact hnot (heq ▸ List.mem_map_of_mem _ hc)

theorem insert_chain {h : Heap T} {l : LinkedList} {cs : List (Nat × T)}
    (hc : Chain h l cs) (k : Nat) (hk : k ≤ cs.length) (v : T) :
    ∃ h' l', LinkedList.insert h l (k : Int) v = .ok (h', l', true) ∧
      Chain h' l' (cs.take k ++ (h.length, v) :: cs.drop k) ∧
      h'.length = h.length + 1 ∧
      ∀ a, a < h.length → (∀ c ∈ cs, c.1 ≠ a) → h'[a]? = h[a]? := by
  obtain ⟨hs, hn⟩ := hc
  have hable : ∀ p : Int, 0 ≤ p → p ≤ cs.length →
      (decide (p ≥ 0) && decide (p ≤ l.item_count_)) = true := by
    intro p h0 h1; rw [hn]; simp [h0, h1]
  have hnew : (h ++ [some (⟨v, none⟩ : Node T)])[h.length]? = some (some ⟨v, none⟩) :=
    List.getElem?_concat_length _ _
  have hold : ∀ a, a < h.length → (h ++ [some (⟨v, none⟩ : Node T)])[a]? = h[a]? :=
    fun a ha => List.getElem?_append_left ha
  have hs1 : Seg (h ++ [some (⟨v, none⟩ : Node T)]) l.head_ptr_ cs none :=
    hs.frame fun c hc => hold _ (hs.lt_length c hc)
  have hlen1 : (h ++ [some (⟨v, none⟩ : Node T)]).length = h.length + 1 := by simp
  rcases k with _ | j
  · simp only [LinkedList.insert, hable 0 le_rfl (by omega), Heap.alloc, if_true, Nat.cast_zero, setNext_live hnew,
      ok_bind, pure_eq_ok]
    refine ⟨_, _, rfl, ⟨⟨rfl, l.head_ptr_, ?_, ?_⟩, ?_⟩, ?_, ?_⟩
    · exact List.getElem?_set_self (by omega)
    · simp only [List.drop_zero]
      refine hs1.frame fun c hc => ?_
      exact List.getElem?_set_ne (Nat.ne_of_gt (hs.lt_length c hc))
    · simp [hn]
    · simp
    · intro a ha _
      rw [List.getElem?_set_ne (Nat.ne_of_gt ha)]
      exact hold a ha
  · have hj : j < cs.length := hk
    obtain ⟨nx, hpre, hcell, hpost⟩ := hs1.at j hj
    have hnd := hs.nodup
    have hne : ((j : Int) + 1 = 0) = False := by simp; omega
    have hprev : getNodeAt (h ++ [some (⟨v, none⟩ : Node T)]) l ((j : Int) + 1 - 1)
        = .ok (some cs[j].1) := by
      simp only [getNodeAt, add_sub_cancel_right, Int.toNat_ofNat]
      exact getNodeAtLoop_chain hs1 j hj
    have hlt : cs[j].1 < h.length := hs.lt_length _ (List.getElem_mem _)
    have hcell2 : ((h ++ [some (⟨v, none⟩ : Node T)]).set h.length (some ⟨v, nx⟩))[cs[j].1]?
        = some (some ⟨cs[j].2, nx⟩) := by
      rw [List.getElem?_set_ne (Nat.ne_of_gt hlt)]; exact hcell
    simp only [LinkedList.insert, hable (j + 1) (by omega) (by omega), Heap.alloc, if_true,
      Nat.cast_succ, hne, if_false, hprev,
      ok_bind, pure_eq_ok, getNext_live hcell, setNext_live hnew, setNext_live hcell2]
    refine ⟨_, _, rfl, ⟨?_, ?_⟩, ?_, ?_⟩
    · obtain ⟨hne1, hne2⟩ := hs.at_ne j hj
      rw [take_succ_getElem cs j hj, List.append_assoc, List.singleton_append]
      refine Seg.append_iff.mpr ⟨some cs[j].1, hpre.frame fun c hc => ?_, rfl, some h.length,
        List.getElem?_set_self (by simp; omega), rfl, nx, ?_, hpost.frame fun c hc => ?_⟩
      · rw [List.getElem?_set_ne (Ne.symm (hne1 c hc)),
          List.getElem?_set_ne (Nat.ne_of_gt (hs.lt_length c (List.mem_of_mem_take hc)))]
      · rw [List.getElem?_set_ne (Nat.ne_of_lt hlt)]
        exact List.getElem?_set_self (by omega)
      · rw [List.getElem?_set_ne (Ne.symm (hne2 c hc)),
          List.getElem?_set_ne (Nat.ne_of_gt (hs.lt_length c (List.mem_of_mem_drop hc)))]
    · simp [hn]; omega
    · simp
    · intro a ha hac
      rw [List.getElem?_set_ne (hac _ (List.getElem_mem _)),
        List.getElem?_set_ne (Nat.ne_of_gt ha)]
      exact hold a ha

theorem remove_chain {h : Heap T} {l : LinkedList} {cs : List (Nat × T)}
    (hc : Chain h l cs) (k : Nat) (hk : k < cs.length) :
    ∃ h' l', LinkedList.remove h l (k : Int) = .ok (h', l', true) ∧
      Chain h' l' (cs.eraseIdx k) ∧
      h'.length = h.length ∧
      h'[cs[k].1]? = some none ∧
      ∀ a, (∀ c ∈ cs, c.1 ≠ a) → h'[a]? = h[a]? := by
  obtain ⟨hs, hn⟩ := hc
  have hable : ∀ p : Int, 0 ≤ p → p < cs.length →
      (decide (p ≥ 0) && decide (p < l.item_count_)) = true := by
    intro p h0 h1; rw [hn]; simp [h0, h1]
  obtain ⟨nx, hpre, hcell, hpost⟩ := hs.at k hk
  obtain ⟨hne1, hne2⟩ := hs.at_ne k hk
  have hlt : cs[k].1 < h.length := live_lt hcell
  rcases k with _ | j
  · have hhead : l.head_ptr_ = some cs[0].1 := hpre
    have hcell1 : (h.set cs[0].1 (some ⟨cs[0].2, none⟩))[cs[0].1]? = some (some ⟨cs[0].2, none⟩) :=
      List.getElem?_set_self hlt
    simp only [LinkedList.remove, hable 0 le_rfl (by exact_mod_cast hk), Nat.cast_zero, if_true,
      hhead, getNext_live hcell, setNext_live hcell, free_live hcell1, ok_bind, pure_eq_ok]
    refine ⟨_, _, rfl, ⟨?_, ?_⟩, by simp, List.getElem?_set_self (by simpa using hlt), ?_⟩
    · rw [List.eraseIdx_eq_take_drop_succ, List.take_zero, List.nil_append]
      refine hpost.frame fun c hc => ?_
      rw [List.getElem?_set_ne (Ne.symm (hne2 c hc)), List.getElem?_set_ne (Ne.symm (hne2 c hc))]
    · simp only [hn]
      rw [List.length_eraseIdx, if_pos hk]
      omega
    · intro a ha
      have := ha _ (List.getElem_mem hk)
      rw [List.getElem?_set_ne this, List.getElem?_set_ne this]
  · have hj : j < cs.length := by omega
    obtain ⟨nxa, hpre', hprev, hmid⟩ := hs.at j hj
    obtain ⟨hne1', hne2'⟩ := hs.at_ne j hj
    rw [List.drop_eq_getElem_cons hk] at hmid
    obtain ⟨hnxa, _⟩ := hmid
    subst hnxa
    have hab : cs[j].1 ≠ cs[j + 1].1 := by
      refine hne1 _ ?_
      rw [take_succ_getElem cs j hj]
      exact List.mem_append_right _ (List.mem_singleton_self _)
    have hprevPtr : getNodeAt h l ((j : Int) + 1 - 1) = .ok (some cs[j].1) := by
      simp only [getNodeAt, add_sub_cancel_right, Int.toNat_ofNat]
      exact getNodeAtLoop_chain hs j hj
    have hne : ((j : Int) + 1 = 0) = False := by simp; omega
    have hcell1 : (h.set cs[j].1 (some ⟨cs[j].2, nx⟩))[cs[j + 1].1]?
        = some (some ⟨cs[j + 1].2, nx⟩) := by
      rw [List.getElem?_set_ne hab]; exact hcell
    have hcell2 : ((h.set cs[j].1 (some ⟨cs[j].2, nx⟩)).set cs[j + 1].1
        (some ⟨cs[j + 1].2, none⟩))[cs[j + 1].1]? = some (some ⟨cs[j + 1].2, none⟩) :=
      List.getElem?_set_self (by simpa using hlt)
    simp only [LinkedList.remove, hable (j + 1) (by omega) (by exact_mod_cast hk), Nat.cast_succ,
      if_true, hne, if_false, hprevPtr, getNext_live hprev, getNext_live hcell,
      setNext_live hprev, setNext_live hcell1, free_live hcell2, ok_bind, pure_eq_ok]
    refine ⟨_, _, rfl, ⟨?_, ?_⟩, by simp, List.getElem?_set_self (by simpa using hlt), ?_⟩
    · rw [List.eraseIdx_eq_take_drop_succ, take_succ_getElem cs j hj, List.append_assoc,
        List.singleton_append]
      refine Seg.append_iff.mpr ⟨some cs[j].1, hpre'.frame fun c hc => ?_, rfl, nx, ?_,
        hpost.frame fun c hc => ?_⟩
      · have h1 : c.1 ≠ cs[j + 1].1 := hne1 c (by
          rw [take_succ_getElem cs j hj]; exact List.mem_append_left _ hc)
        rw [List.getElem?_set_ne h1.symm, List.getElem?_set_ne h1.symm,
          List.getElem?_set_ne (hne1' c hc).symm]
      · rw [List.getElem?_set_ne hab.symm, List.getElem?_set_ne hab.symm]
        exact List.getElem?_set_self (live_lt hprev)
      · have h1 : c.1 ≠ cs[j].1 := hne2' c (by
          rw [List.drop_eq_getElem_cons hk]; exact List.mem_cons_of_mem _ hc)
        rw [List.getElem?_set_ne (hne2 c hc).symm, List.getElem?_set_ne (hne2 c hc).symm,
          List.getElem?_set_ne h1.symm]
    · simp only [hn]
      rw [List.length_eraseIdx, if_pos hk]
      omega
    · intro a ha
      have h1 := ha _ (List.getElem_mem hk)
      have h2 := ha _ (List.getElem_mem hj)
      rw [List.getElem?_set_ne h1, List.getElem?_set_ne h1, List.getElem?_set_ne h2]

/-- The copy loop appends one fresh node per remaining original node. -/
theorem copyLoop_seg {rest : List (Nat × T)} :
    ∀ (fuel : Nat) (h : Heap T) (o : Option Nat) (b : Nat) (y : T),
      rest.length ≤ fuel → Seg h o rest none → h[b]? = some (some ⟨y, none⟩) →
      (∀ c ∈ rest, c.1 ≠ b) →
      ∃ h' b' y', copyLoop fuel h o (some b) = .ok (h', some b') ∧
        h'[b']? = some (some ⟨y', none⟩) ∧
        Seg h' (some b) ((b, y) :: (rest.map Prod.snd).enumFrom h.length) none ∧
        h'.length = h.length + rest.length ∧
        ∀ a, a < h.length → a ≠ b → h'[a]? = h[a]? := by
  induction rest with
  | nil =>
    intro fuel h o b y _ hs hb _
    cases hs
    refine ⟨h, b, y, ?_, hb, ⟨rfl, none, hb, rfl⟩, rfl, fun _ _ _ => rfl⟩
    cases fuel <;> rfl
  | cons c rest ih =>
    intro fuel h o b y hf hs hb hne
    obtain ⟨ho, nx, hc, ht⟩ := hs
    subst ho
    obtain ⟨fuel, rfl⟩ : ∃ f, fuel = f + 1 := ⟨fuel - 1, by simp at hf; omega⟩
    have hcb : c.1 ≠ b := hne c (List.mem_cons_self _ _)
    have hblt : b < h.length := live_lt hb
    have hclt : c.1 < h.length := live_lt hc
    have hb1 : (h ++ [some (⟨c.2, none⟩ : Node T)])[b]? = some (some ⟨y, none⟩) := by
      rw [List.getElem?_append_left hblt]; exact hb
    have hlen2 : ((h ++ [some (⟨c.2, none⟩ : Node T)]).set b
        (some ⟨y, some h.length⟩)).length = h.length + 1 := by simp
    have hb2 : ((h ++ [some (⟨c.2, none⟩ : Node T)]).set b (some ⟨y, some h.length⟩))[b]?
        = some (some ⟨y, some h.length⟩) := List.getElem?_set_self (by simp; omega)
    have hc2 : ((h ++ [some (⟨c.2, none⟩ : Node T)]).set b (some ⟨y, some h.length⟩))[c.1]?
        = some (some ⟨c.2, nx⟩) := by
      rw [List.getElem?_set_ne hcb.symm, List.getElem?_append_left hclt]; exact hc
    have hn2 : ((h ++ [some (⟨c.2, none⟩ : Node T)]).set b (some ⟨y, some h.length⟩))[h.length]?
        = some (some ⟨c.2, none⟩) := by
      rw [List.getElem?_set_ne (Nat.ne_of_lt hblt)]; exact List.getElem?_concat_length _ _
    have hs2 : Seg ((h ++ [some (⟨c.2, none⟩ : Node T)]).set b (some ⟨y, some h.length⟩))
        nx rest none := by
      refine ht.frame fun d hd => ?_
      rw [List.getElem?_set_ne (hne d (List.mem_cons_of_mem _ hd)).symm,
        List.getElem?_append_left (ht.lt_length d hd)]
    obtain ⟨h', b', y', hrun, hb', hseg, hlen, hframe⟩ :=
      ih fuel _ nx h.length c.2 (by simpa using hf) hs2 hn2
        (fun d hd => Nat.ne_of_lt (ht.lt_length d hd))
    refine ⟨h', b', y', ?_, hb', ⟨rfl, some h.length, ?_, ?_⟩, ?_, ?_⟩
    · simp only [copyLoop, getItem_live hc, Heap.alloc, setNext_live hb1, getNext_live hb2,
        getNext_live hc2, ok_bind]
      exact hrun
    · rw [hframe b (by rw [hlen2]; omega) (Nat.ne_of_lt hblt)]; exact hb2
    · rw [hlen2] at hseg; exact hseg
    · rw [hlen, hlen2, List.length_cons]; omega
    · intro a ha hab
      rw [hframe a (by rw [hlen2]; omega) (Nat.ne_of_lt ha), List.getElem?_set_ne (Ne.symm hab),
        List.getElem?_append_left ha]

theorem getElem?_set_same {α : Type} {h : List α} {a : Nat} {v : α} (e : h[a]? = some v)
    (i : Nat) : (h.set a v)[i]? = h[i]? := by
  rw [List.getElem?_set]
  split
  · next hai =>
    subst hai
    rw [e, if_pos]
    by_contra hlt
    rw [List.getElem?_eq_none (by omega)] at e
    cases e
  · rfl

/-- The copy constructor on a chain: a fresh chain with the same items in the
same order, built entirely from newly allocated cells. -/
theorem copy_chain [Inhabited T] {h : Heap T} {l : LinkedList} {cs : List (Nat × T)}
    (hc : Chain h l cs) (fuel : Nat) (hf : cs.length ≤ fuel + 1) :
    ∃ h' c, copy fuel h l = .ok (h', c) ∧
      Chain h' c ((cs.map Prod.snd).enumFrom h.length) ∧
      h'.length = h.length + cs.length ∧
      ∀ a, a < h.length → h'[a]? = h[a]? := by
  obtain ⟨hs, hn⟩ := hc
  cases cs with
  | nil =>
    have hhead : l.head_ptr_ = none := hs
    refine ⟨h, ⟨none, l.item_count_⟩, ?_, ⟨rfl, hn⟩, rfl, fun _ _ => rfl⟩
    simp only [copy, hhead]
    rfl
  | cons c rest =>
    obtain ⟨hhead, nx, hcell, ht⟩ := hs
    have hclt : c.1 < h.length := live_lt hcell
    have hc1 : (h ++ [some (⟨default, none⟩ : Node T)])[c.1]? = some (some ⟨c.2, nx⟩) := by
      rw [List.getElem?_append_left hclt]; exact hcell
    have hn1 : (h ++ [some (⟨default, none⟩ : Node T)])[h.length]?
        = some (some ⟨default, none⟩) := List.getElem?_concat_length _ _
    have hlen2 : ((h ++ [some (⟨default, none⟩ : Node T)]).set h.length
        (some ⟨c.2, none⟩)).length = h.length + 1 := by simp
    have hc2 : ((h ++ [some (⟨default, none⟩ : Node T)]).set h.length (some ⟨c.2, none⟩))[c.1]?
        = some (some ⟨c.2, nx⟩) := by
      rw [List.getElem?_set_ne (Nat.ne_of_gt hclt)]; exact hc1
    have hn2 : ((h ++ [some (⟨default, none⟩ : Node T)]).set h.length
        (some ⟨c.2, none⟩))[h.length]? = some (some ⟨c.2, none⟩) :=
      List.getElem?_set_self (by simp)
    have hs2 : Seg ((h ++ [some (⟨default, none⟩ : Node T)]).set h.length (some ⟨c.2, none⟩))
        nx rest none := by
      refine ht.frame fun d hd => ?_
      rw [List.getElem?_set_ne (Nat.ne_of_gt (ht.lt_length d hd)),
        List.getElem?_append_left (ht.lt_length d hd)]
    obtain ⟨h3, b', y', hrun, hb', hseg, hlen, hframe⟩ :=
      copyLoop_seg fuel _ nx h.length c.2 (by simpa using hf) hs2 hn2
        (fun d hd => Nat.ne_of_lt (ht.lt_length d hd))
    rw [hlen2] at hseg hlen
    refine ⟨h3.set b' (some ⟨y', none⟩), ⟨some h.length, l.item_count_⟩, ?_, ⟨?_, ?_⟩, ?_, ?_⟩
    · simp only [copy, hhead, Heap.alloc, getItem_live hc1, setItem_live hn1, getNext_live hc2,
        hrun, setNext_live hb', ok_bind, pure_eq_ok]
    · exact hseg.frame fun d _ => getElem?_set_same hb' _
    · simp [hn]
    · rw [List.length_set, hlen, List.length_cons]; omega
    · intro a ha
      rw [getElem?_set_same hb', hframe a (by rw [hlen2]; omega) (Nat.ne_of_lt ha),
        List.getElem?_set_ne (Nat.ne_of_gt ha), List.getElem?_append_left ha]

theorem isEmpty_chain {h : Heap T} {l : LinkedList} {cs : List (Nat × T)}
    (hc : Chain h l cs) : l.isEmpty = cs.isEmpty := by
  obtain ⟨_, hn⟩ := hc
  cases cs with
  | nil => simp [isEmpty, hn]
  | cons c rest =>
    have : ((rest.length : Int) + 1 = 0) = False := by simp; omega
    simp [isEmpty, hn, this]

theorem head_chain {h : Heap T} {l : LinkedList} {cs : List (Nat × T)}
    (hc : Chain h l cs) : l.head_ptr_ = (cs.head?).map Prod.fst := by
  obtain ⟨hs, _⟩ := hc
  cases cs with
  | nil => exact hs
  | cons c rest => exact hs.1

/-- With enough rounds `clear` frees every cell of the chain and nothing else. -/
theorem clear_chain {cs : List (Nat × T)} :
    ∀ (fuel : Nat) (h : Heap T) (l : LinkedList), Chain h l cs → cs.length ≤ fuel →
      ∃ h', clear fuel h l = .ok (h', ⟨none, 0⟩) ∧ h'.length = h.length ∧
        (∀ c ∈ cs, h'[c.1]? = some none) ∧
        ∀ a, (∀ c ∈ cs, c.1 ≠ a) → h'[a]? = h[a]? := by
  induction cs with
  | nil =>
    intro fuel h l hc _
    have he := isEmpty_chain hc
    have hl : l = ⟨none, 0⟩ := by
      obtain ⟨hs, hn⟩ := hc
      cases l; simp at hn; cases hs; simp [hn]
    refine ⟨h, ?_, rfl, fun c hc => absurd hc (List.not_mem_nil c), fun _ _ => rfl⟩
    rw [← hl]
    cases fuel <;> simp [clear, he] <;> rfl
  | cons c rest ih =>
    intro fuel h l hc hf
    obtain ⟨fuel, rfl⟩ : ∃ f, fuel = f + 1 := ⟨fuel - 1, by simp at hf; omega⟩
    have he := isEmpty_chain hc
    obtain ⟨h1, l1, hrun, hc1, hlen1, hfreed, hframe⟩ := remove_chain hc 0 (by simp)
    have hnd := hc.1.nodup
    rw [List.map_cons, List.nodup_cons] at hnd
    simp only [List.eraseIdx_cons_zero] at hc1
    obtain ⟨h', hrun', hlen', hfreed', hframe'⟩ := ih fuel h1 l1 hc1 (by simpa using hf)
    refine ⟨h', ?_, hlen'.trans hlen1, ?_, ?_⟩
    · simp only [Nat.cast_zero] at hrun
      simp only [clear, he, hrun, ok_bind]
      simpa using hrun'
    · intro d hd
      rcases List.mem_cons.mp hd with rfl | hd
      · rw [hframe' d.1 fun e he heq => hnd.1 (heq ▸ List.mem_map_of_mem _ he)]
        simpa using hfreed
      · exact hfreed' d hd
    · intro a ha
      rw [hframe' a fun e he => ha e (List.mem_cons_of_mem _ he), hframe a ha]

/-- With fewer rounds than nodes the `clear` loop is still running. -/
theorem clear_short {cs : List (Nat × T)} :
    ∀ (fuel : Nat) (h : Heap T) (l : LinkedList), Chain h l cs → fuel < cs.length →
      clear fuel h l = .error .outOfFuel := by
  induction cs with
  | nil => intro fuel h l _ hf; simp at hf
  | cons c rest ih =>
    intro fuel h l hc hf
    have he := isEmpty_chain hc
    cases fuel with
    | zero => simp [clear, he]
    | succ fuel =>
      obtain ⟨h1, l1, hrun, hc1, _⟩ := remove_chain hc 0 (by simp)
      simp only [List.eraseIdx_cons_zero] at hc1
      simp only [Nat.cast_zero] at hrun
      simp only [clear, he, hrun, ok_bind]
      simpa using ih fuel h1 l1 hc1 (by simpa using hf)

/-- Reading a chain through `getEntry` gives its items in order. -/
theorem entries_chain {h : Heap T} {l : LinkedList} {cs : List (Nat × T)}
    (hc : Chain h l cs) : entries h l = cs.map fun c => .ok c.2 := by
  have hn : l.getLength.toNat = cs.length := by simp [getLength, hc.2]
  apply List.ext_getElem
  · simp [entries, hn]
  · intro i h₁ h₂
    simp only [entries, List.getElem_map, List.getElem_range]
    exact getEntry_chain hc i (by simpa using h₂)

theorem insert_invalid (h : Heap T) (l : LinkedList) (p : Int) (v : T)
    (hp : p < 0 ∨ l.item_count_ < p) : LinkedList.insert h l p v = .ok (h, l, false) := by
  have : (decide (p ≥ 0) && decide (p ≤ l.item_count_)) = false := by
    rcases hp with hp | hp
    · simp [hp]
    · simp [hp]
  simp only [LinkedList.insert, this]
  rfl

theorem remove_invalid (h : Heap T) (l : LinkedList) (p : Int)
    (hp : p < 0 ∨ l.item_count_ ≤ p) : LinkedList.remove h l p = .ok (h, l, false) := by
  have : (decide (p ≥ 0) && decide (p < l.item_count_)) = false := by
    rcases hp with hp | hp
    · simp [hp]
    · simp [hp]
  simp only [LinkedList.remove, this]
  rfl

theorem getEntry_chain_of_get {h : Heap T} {l : LinkedList} {cs : List (Nat × T)}
    (hc : Chain h l cs) {i : Nat} {c : Nat × T} (e : cs[i]? = some c) :
    getEntry h l (i : Int) = .ok c.2 := by
  obtain ⟨hi, rfl⟩ := List.getElem?_eq_some.mp e
  exact getEntry_chain hc i hi

theorem get_insertAt_lt {α : Type} (cs : List α) (x : α) {k i : Nat} (hk : k ≤ cs.length)
    (hi : i < k) : (cs.take k ++ x :: cs.drop k)[i]? = cs[i]? := by
  rw [List.getElem?_append_left (by rw [List.length_take]; omega), List.getElem?_take_of_lt hi]

theorem get_insertAt_eq {α : Type} (cs : List α) (x : α) {k : Nat} (hk : k ≤ cs.length) :
    (cs.take k ++ x :: cs.drop k)[k]? = some x := by
  rw [List.getElem?_append_right (by rw [List.length_take]; omega)]
  simp [List.length_take, Nat.min_eq_left hk]

theorem get_insertAt_gt {α : Type} (cs : List α) (x : α) {k i : Nat} (hk : k ≤ cs.length)
    (hi : k ≤ i) : (cs.take k ++ x :: cs.drop k)[i + 1]? = cs[i]? := by
  rw [List.getElem?_append_right (by rw [List.length_take]; omega)]
  simp only [List.length_take, Nat.min_eq_left hk]
  have : i + 1 - k = (i - k) + 1 := by omega
  rw [this, List.getElem?_cons_succ, List.getElem?_drop]
  congr 1; omega

theorem length_insertAt {α : Type} (cs : List α) (x : α) (k : Nat) :
    (cs.take k ++ x :: cs.drop k).length = cs.length + 1 := by
  have := List.take_append_drop k cs
  have h2 := congrArg List.length this
  simp only [List.length_append] at h2
  simp only [List.length_append, List.length_cons]
  omega

/-- The effect of a valid `insert`, read back through `getEntry`. -/
theorem insert_pointwise {h : Heap T} {l : LinkedList} {cs : List (Nat × T)}
    (hc : Chain h l cs) (k : Nat) (hk : k ≤ cs.length) (v : T) :
    ∃ h' l', LinkedList.insert h l (k : Int) v = .ok (h', l', true) ∧
      getEntry h' l' (k : Int) = .ok v ∧
      l'.getLength = l.getLength + 1 ∧
      (∀ i : Nat, i < k → ∃ x, getEntry h l (i : Int) = .ok x ∧ getEntry h' l' (i : Int) = .ok x) ∧
      (∀ i : Nat, k ≤ i → i < cs.length →
        ∃ x, getEntry h l (i : Int) = .ok x ∧ getEntry h' l' ((i : Int) + 1) = .ok x) := by
  obtain ⟨h', l', hrun, hc', _, _⟩ := insert_chain hc k hk v
  refine ⟨h', l', hrun, ?_, ?_, ?_, ?_⟩
  · exact getEntry_chain_of_get hc' (get_insertAt_eq cs (h.length, v) hk)
  · simp only [getLength, hc'.2, hc.2, length_insertAt]; push_cast; rfl
  · intro i hi
    have hi' : i < cs.length := by omega
    refine ⟨cs[i].2, getEntry_chain hc i hi', getEntry_chain_of_get hc' ?_⟩
    rw [get_insertAt_lt cs _ hk hi, List.getElem?_eq_getElem hi']
  · intro i hki hi
    refine ⟨cs[i].2, getEntry_chain hc i hi, ?_⟩
    have := getEntry_chain_of_get (i := i + 1) hc' (c := cs[i]) (by
      rw [get_insertAt_gt cs _ hk hki, List.getElem?_eq_getElem hi])
    simpa using this

/-- C1: on a chain whose count matches its nodes, `insert(p, v)` with
`0 <= p <= length` returns true; afterwards `getEntry(p)` is `v`, the length is
one more than before, every element formerly at an index `i < p` is still at
`i`, and every element formerly at an index `i >= p` is at `i + 1`. -/
theorem insert_valid_position (h : Heap T) (l : LinkedList) (hinv : Inv h l) (p : Int) (v : T)
    (h0 : 0 ≤ p) (h1 : p ≤ l.getLength) :
    ∃ h' l', LinkedList.insert h l p v = .ok (h', l', true) ∧
      getEntry h' l' p = .ok v ∧
      l'.getLength = l.getLength + 1 ∧
      (∀ i : Int, 0 ≤ i → i < p →
        ∃ x, getEntry h l i = .ok x ∧ getEntry h' l' i = .ok x) ∧
      (∀ i : Int, p ≤ i → i < l.getLength →
        ∃ x, getEntry h l i = .ok x ∧ getEntry h' l' (i + 1) = .ok x) := by
  obtain ⟨cs, hc⟩ := hinv
  obtain ⟨k, rfl⟩ := Int.eq_ofNat_of_zero_le h0
  have hlen : l.getLength = cs.length := hc.2
  have hk : k ≤ cs.length := by rw [hlen] at h1; exact_mod_cast h1
  obtain ⟨h', l', hrun, hget, hcount, hlow, hhigh⟩ := insert_pointwise hc k hk v
  refine ⟨h', l', hrun, hget, hcount, ?_, ?_⟩
  · intro i hi0 hik
    obtain ⟨j, rfl⟩ := Int.eq_ofNat_of_zero_le hi0
    exact hlow j (by exact_mod_cast hik)
  · intro i hki hi
    obtain ⟨j, rfl⟩ := Int.eq_ofNat_of_zero_le (le_trans h0 hki)
    exact hhigh j (by exact_mod_cast hki) (by rw [hlen] at hi; exact_mod_cast hi)

theorem demo_chain : Chain demoHeap demoList [(0, 10), (1, 20)] :=
  ⟨⟨rfl, some 1, rfl, rfl, none, rfl, rfl⟩, rfl⟩

theorem demo_inv : Inv demoHeap demoList := ⟨_, demo_chain⟩

theorem insert_valid_position_witness :
    Inv demoHeap demoList ∧ (0 : Int) ≤ 1 ∧ (1 : Int) ≤ demoList.getLength ∧
    ∃ h' l', LinkedList.insert demoHeap demoList 1 15 = .ok (h', l', true) ∧
      getEntry h' l' 1 = .ok 15 ∧
      l'.getLength = demoList.getLength + 1 ∧
      (∀ i : Int, 0 ≤ i → i < 1 →
        ∃ x, getEntry demoHeap demoList i = .ok x ∧ getEntry h' l' i = .ok x) ∧
      (∀ i : Int, 1 ≤ i → i < demoList.getLength →
        ∃ x, getEntry demoHeap demoList i = .ok x ∧ getEntry h' l' (i + 1) = .ok x) :=
  ⟨demo_inv, by decide, by decide,
    insert_valid_position demoHeap demoList demo_inv 1 15 (by decide) (by decide)⟩

theorem eraseIdx_map_comm {α β : Type} (f : α → β) (xs : List α) (k : Nat) :
    (xs.map f).eraseIdx k = (xs.eraseIdx k).map f := by
  induction xs generalizing k with
  | nil => rfl
  | cons x xs ih =>
    cases k with
    | zero => rfl
    | succ k => simp only [List.map_cons, List.eraseIdx_cons_succ, ih]

/-- C2: on a chain whose count matches its nodes, `remove(p)` with
`0 <= p < length` returns true, the length drops by exactly one, and the
element sequence afterwards is the one before with only the element at `p`
deleted. -/
theorem remove_valid_position (h : Heap T) (l : LinkedList) (hinv : Inv h l) (p : Int)
    (h0 : 0 ≤ p) (h1 : p < l.getLength) :
    ∃ h' l', ∃ xs : List T, LinkedList.remove h l p = .ok (h', l', true) ∧
      l'.getLength = l.getLength - 1 ∧
      entries h l = xs.map Except.ok ∧
      entries h' l' = (xs.eraseIdx p.toNat).map Except.ok := by
  obtain ⟨cs, hc⟩ := hinv
  obtain ⟨k, rfl⟩ := Int.eq_ofNat_of_zero_le h0
  have hlen : l.getLength = cs.length := hc.2
  have hk : k < cs.length := by rw [hlen] at h1; exact_mod_cast h1
  obtain ⟨h', l', hrun, hc', _, _, _⟩ := remove_chain hc k hk
  refine ⟨h', l', cs.map Prod.snd, hrun, ?_, ?_, ?_⟩
  · simp only [getLength, hc'.2, hc.2, List.length_eraseIdx, if_pos hk]
    omega
  · rw [entries_chain hc, List.map_map]; rfl
  · rw [entries_chain hc', Int.toNat_ofNat, eraseIdx_map_comm, List.map_map]; rfl

theorem remove_valid_position_witness :
    Inv demoHeap demoList ∧ (0 : Int) ≤ 0 ∧ (0 : Int) < demoList.getLength ∧
    ∃ h' l', ∃ xs : List Nat, LinkedList.remove demoHeap demoList 0 = .ok (h', l', true) ∧
      l'.getLength = demoList.getLength - 1 ∧
      entries demoHeap demoList = xs.map Except.ok ∧
      entries h' l' = (xs.eraseIdx (0 : Int).toNat).map Except.ok :=
  ⟨demo_inv, by decide, by decide,
    remove_valid_position demoHeap demoList demo_inv 0 (by decide) (by decide)⟩

/-- C3: `insert(p, v)` with `p < 0` or `p > length` and `remove(q)` with `q < 0`
or `q >= length` return false and hand back the node store, the head and the
count exactly as they were. -/
theorem invalid_position_no_change (h : Heap T) (l : LinkedList) (p q : Int) (v : T)
    (hp : p < 0 ∨ l.getLength < p) (hq : q < 0 ∨ l.getLength ≤ q) :
    LinkedList.insert h l p v = .ok (h, l, false) ∧ LinkedList.remove h l q = .ok (h, l, false) :=
  ⟨insert_invalid h l p v hp, remove_invalid h l q hq⟩

theorem invalid_position_no_change_witness :
    ((3 : Int) < 0 ∨ demoList.getLength < 3) ∧ ((2 : Int) < 0 ∨ demoList.getLength ≤ 2) ∧
    LinkedList.insert demoHeap demoList 3 99 = .ok (demoHeap, demoList, false) ∧
    LinkedList.remove demoHeap demoList 2 = .ok (demoHeap, demoList, false) :=
  ⟨by decide, by decide,
    invalid_position_no_change demoHeap demoList 3 2 99 (by decide) (by decide)⟩

/-- C4: on a chain in good order, whose nodes in the order the `next` pointers
link them hold the cells `cs`, the call `getEntry(p)` with `0 <= p < length`
returns the item of the cell at index `p` of `cs`; it throws
`PrecondViolatedExcep` exactly when `p` is outside that range, and so throws for
every `p` on an empty chain. Being a read of the node store it hands back no new
state. -/
theorem getEntry_contract (h : Heap T) (l : LinkedList) (cs : List (Nat × T))
    (hc : Chain h l cs) (p : Int) :
    (0 ≤ p ∧ p < l.getLength →
      ∃ c, cs[p.toNat]? = some c ∧ getEntry h l p = .ok c.2) ∧
    ((∃ msg, getEntry h l p = .error (.precondViolatedExcep msg)) ↔
      (p < 0 ∨ l.getLength ≤ p)) ∧
    (l.isEmpty = true → ∃ msg, getEntry h l p = .error (.precondViolatedExcep msg)) := by
  have hlen : l.getLength = cs.length := hc.2
  have hin : 0 ≤ p ∧ p < l.getLength →
      ∃ c, cs[p.toNat]? = some c ∧ getEntry h l p = .ok c.2 := by
    rintro ⟨h0, h1⟩
    obtain ⟨k, rfl⟩ := Int.eq_ofNat_of_zero_le h0
    have hk : k < cs.length := by rw [hlen] at h1; exact_mod_cast h1
    refine ⟨cs[k], ?_, getEntry_chain hc k hk⟩
    rw [Int.toNat_ofNat, List.getElem?_eq_getElem hk]
  refine ⟨hin, ⟨?_, fun hout => ⟨_, getEntry_invalid h l p hout⟩⟩, ?_⟩
  · rintro ⟨msg, hmsg⟩
    by_contra hnot
    obtain ⟨c, _, hx⟩ := hin ⟨by omega, by omega⟩
    rw [hx] at hmsg
    cases hmsg
  · intro he
    have h0 : l.item_count_ = 0 := by simpa [isEmpty] using he
    refine ⟨_, getEntry_invalid h l p ?_⟩
    rw [h0]; omega

theorem getEntry_contract_witness :
    Chain demoHeap demoList [(0, 10), (1, 20)] ∧
    getEntry demoHeap demoList 0 = .ok 10 ∧ getEntry demoHeap demoList 1 = .ok 20 ∧
    ((0 ≤ (1 : Int) ∧ (1 : Int) < demoList.getLength →
      ∃ c, [((0 : Nat), (10 : Nat)), (1, 20)][(1 : Int).toNat]? = some c ∧
        getEntry demoHeap demoList 1 = .ok c.2) ∧
    ((∃ msg, getEntry demoHeap demoList 1 = .error (.precondViolatedExcep msg)) ↔
      ((1 : Int) < 0 ∨ demoList.getLength ≤ 1)) ∧
    (demoList.isEmpty = true →
      ∃ msg, getEntry demoHeap demoList 1 = .error (.precondViolatedExcep msg))) :=
  ⟨demo_chain, rfl, rfl, getEntry_contract demoHeap demoList [(0, 10), (1, 20)] demo_chain 1⟩

/-- A failed dereference is undefined behaviour, never a C++ exception. -/
theorem read_error {h : Heap T} {q : Option Nat} {e : Fault} (hr : h.read q = .error e) :
    e = .undefinedBehaviour := by
  cases q with
  | none => simp [Heap.read] at hr; exact hr.symm
  | some a =>
    rcases hx : h[a]? with _ | _ | n
    · simp [Heap.read, hx] at hr; exact hr.symm
    · simp [Heap.read, hx] at hr; exact hr.symm
    · simp [Heap.read, hx] at hr

/-- C5 fails as stated: `getNodeAt` has no range check. On the two-node chain
it returns the head node for `p = -1` and the null pointer for `p = 2`, and on
the empty chain it returns the null pointer for `p = 0`; none of these raises. -/
theorem getNodeAt_out_of_range_returns :
    getNodeAt demoHeap demoList (-1) = .ok (some 0) ∧
    getNodeAt demoHeap demoList 2 = .ok none ∧
    getNodeAt ([] : Heap Nat) LinkedList.new 0 = .ok none :=
  ⟨rfl, rfl, rfl⟩

/-- C5 as amended: outside `[0, length)` the range-checked read `getEntry`
throws `PrecondViolatedExcep`, while `getNodeAt` itself checks nothing and
throws nothing: for `p <= 0` it returns the head pointer (null on the empty
chain) and for `p = length` the null pointer; `getPointerTo(p)` returns the
null pointer for every `p >= length`. -/
theorem getNodeAt_unchecked (h : Heap T) (l : LinkedList) (hinv : Inv h l) (p : Int) :
    ((p < 0 ∨ l.getLength ≤ p) →
      ∃ msg, getEntry h l p = .error (.precondViolatedExcep msg)) ∧
    (∀ msg, getNodeAt h l p ≠ .error (.precondViolatedExcep msg)) ∧
    (p ≤ 0 → getNodeAt h l p = .ok l.head_ptr_) ∧
    (l.isEmpty = true → p ≤ 0 → getNodeAt h l p = .ok none) ∧
    (p = l.getLength → getNodeAt h l p = .ok none) ∧
    (l.getLength < 2 ^ 64 → ∀ q : Nat, l.getLength ≤ q → getPointerTo h l q = .ok none) := by
  obtain ⟨cs, hc⟩ := hinv
  have hlen : l.getLength = cs.length := hc.2
  have hlow : p ≤ 0 → getNodeAt h l p = .ok l.head_ptr_ := by
    intro hp
    simp only [getNodeAt, Int.toNat_eq_zero.mpr hp, getNodeAtLoop]
  have hnever : ∀ (n : Nat) (q : Option Nat) (msg : String),
      getNodeAtLoop h n q ≠ .error (.precondViolatedExcep msg) := by
    intro n
    induction n with
    | zero => intro q msg hq; simp [getNodeAtLoop] at hq
    | succ n ih =>
      intro q msg hq
      rcases hr : h.read q with e | node
      · have : getNodeAtLoop h (n + 1) q = .error e := by
          simp only [getNodeAtLoop, getNext, hr]; rfl
        rw [this] at hq
        rw [read_error hr] at hq
        cases hq
      · have : getNodeAtLoop h (n + 1) q = getNodeAtLoop h n node.next_ := by
          simp only [getNodeAtLoop, getNext, hr]; rfl
        rw [this] at hq
        exact ih _ _ hq
  refine ⟨fun hout => ⟨_, getEntry_invalid h l p hout⟩, fun msg => hnever _ _ msg, hlow, ?_, ?_, ?_⟩
  · intro he hp
    rw [hlow hp]
    have hcs : cs = [] := by
      have := isEmpty_chain hc
      rw [he] at this
      exact List.isEmpty_iff.mp this.symm
    subst hcs
    have : l.head_ptr_ = none := hc.1
    rw [this]
  · intro hp
    rw [hp, hlen, getNodeAt, Int.toNat_ofNat]
    exact getNodeAtLoop_seg hc.1
  · intro hsmall q hq
    have hmod : (l.item_count_ % 2 ^ 64).toNat = cs.length := by
      have h1 : l.item_count_ = cs.length := hc.2
      have h2 : (cs.length : Int) < 2 ^ 64 := by rw [← hlen]; exact hsmall
      rw [h1, Int.emod_eq_of_lt (by omega) h2, Int.toNat_ofNat]
    have hq' : cs.length ≤ q := by rw [hlen] at hq; exact_mod_cast hq
    simp only [getPointerTo, hmod, if_neg (Nat.not_lt.mpr hq')]

theorem getNodeAt_unchecked_witness :
    Inv demoHeap demoList ∧
    (((2 : Int) < 0 ∨ demoList.getLength ≤ 2) →
      ∃ msg, getEntry demoHeap demoList 2 = .error (.precondViolatedExcep msg)) ∧
    (∀ msg, getNodeAt demoHeap demoList 2 ≠ .error (.precondViolatedExcep msg)) ∧
    ((2 : Int) ≤ 0 → getNodeAt demoHeap demoList 2 = .ok demoList.head_ptr_) ∧
    (demoList.isEmpty = true → (2 : Int) ≤ 0 → getNodeAt demoHeap demoList 2 = .ok none) ∧
    ((2 : Int) = demoList.getLength → getNodeAt demoHeap demoList 2 = .ok none) ∧
    (demoList.getLength < 2 ^ 64 →
      ∀ q : Nat, demoList.getLength ≤ q → getPointerTo demoHeap demoList q = .ok none) :=
  ⟨demo_inv, getNodeAt_unchecked demoHeap demoList demo_inv 2⟩

/-- Reading the original through a heap that agrees with the old one on the
original's cells gives the same chain. -/
theorem Chain.reframe {h h' : Heap T} {l : LinkedList} {cs : List (Nat × T)}
    (hc : Chain h l cs) (same : ∀ c ∈ cs, h'[c.1]? = h[c.1]?) : Chain h' l cs :=
  ⟨hc.1.frame same, hc.2⟩

/-- C6: the copy constructor applied to a chain of length `n` yields a chain
of length `n` with the same element at every index, and a later `remove` or
`insert` on the copy, at any position, leaves the original's elements (and so
its length) as they were. -/
theorem copy_is_independent [Inhabited T] (h : Heap T) (l : LinkedList) (hinv : Inv h l)
    (fuel : Nat) (hf : l.getLength ≤ fuel + 1) :
    ∃ h' c, copy fuel h l = .ok (h', c) ∧
      c.getLength = l.getLength ∧
      (∃ xs : List T, entries h l = xs.map Except.ok ∧ entries h' c = xs.map Except.ok) ∧
      entries h' l = entries h l ∧
      (∀ p : Int, ∃ h'' c' b, LinkedList.remove h' c p = .ok (h'', c', b) ∧
        entries h'' l = entries h l) ∧
      (∀ (p : Int) (v : T), ∃ h'' c' b, LinkedList.insert h' c p v = .ok (h'', c', b) ∧
        entries h'' l = entries h l) := by
  obtain ⟨cs, hc⟩ := hinv
  have hlen : l.getLength = cs.length := hc.2
  have hf' : cs.length ≤ fuel + 1 := by rw [hlen] at hf; exact_mod_cast hf
  obtain ⟨h', c, hrun, hcc, hlen', hframe⟩ := copy_chain hc fuel hf'
  have hold : ∀ d ∈ cs, d.1 < h.length := hc.1.lt_length
  have horig : Chain h' l cs := hc.reframe fun d hd => hframe _ (hold d hd)
  have hfresh : ∀ d ∈ cs, ∀ e ∈ (cs.map Prod.snd).enumFrom h.length, e.1 ≠ d.1 := by
    intro d hd e he
    have := List.le_fst_of_mem_enumFrom he
    have := hold d hd
    omega
  refine ⟨h', c, hrun, ?_, ⟨cs.map Prod.snd, ?_, ?_⟩, ?_, ?_, ?_⟩
  · simp only [getLength, hcc.2, hc.2, List.enumFrom_length, List.length_map]
  · rw [entries_chain hc, List.map_map]; rfl
  · have e : (fun c : Nat × T => (Except.ok c.2 : Exec T)) = Except.ok ∘ Prod.snd := rfl
    rw [entries_chain hcc, e, ← List.map_map, List.enumFrom_map_snd]
  · rw [entries_chain horig, entries_chain hc]
  · intro p
    by_cases hp : 0 ≤ p ∧ p < c.item_count_
    · obtain ⟨k, rfl⟩ := Int.eq_ofNat_of_zero_le hp.1
      have hk : k < ((cs.map Prod.snd).enumFrom h.length).length := by
        have := hp.2; rw [hcc.2] at this; exact_mod_cast this
      obtain ⟨h'', c', hrun', _, _, _, hfr⟩ := remove_chain hcc k hk
      refine ⟨h'', c', true, hrun', ?_⟩
      have : Chain h'' l cs :=
        horig.reframe fun d hd => hfr d.1 fun e he => hfresh d hd e he
      rw [entries_chain this, entries_chain hc]
    · refine ⟨h', c, false, remove_invalid h' c p (by omega), ?_⟩
      rw [entries_chain horig, entries_chain hc]
  · intro p v
    by_cases hp : 0 ≤ p ∧ p ≤ c.item_count_
    · obtain ⟨k, rfl⟩ := Int.eq_ofNat_of_zero_le hp.1
      have hk : k ≤ ((cs.map Prod.snd).enumFrom h.length).length := by
        have := hp.2; rw [hcc.2] at this; exact_mod_cast this
      obtain ⟨h'', c', hrun', _, _, hfr⟩ := insert_chain hcc k hk v
      refine ⟨h'', c', true, hrun', ?_⟩
      have : Chain h'' l cs :=
        horig.reframe fun d hd =>
          hfr d.1 (by rw [hlen']; have := hold d hd; omega) fun e he => hfresh d hd e he
      rw [entries_chain this, entries_chain hc]
    · refine ⟨h', c, false, insert_invalid h' c p v (by omega), ?_⟩
      rw [entries_chain horig, entries_chain hc]

theorem copy_is_independent_witness :
    Inv demoHeap demoList ∧ demoList.getLength ≤ ((1 : Nat) : Int) + 1 ∧
    ∃ h' c, copy 1 demoHeap demoList = .ok (h', c) ∧
      c.getLength = demoList.getLength ∧
      (∃ xs : List Nat, entries demoHeap demoList = xs.map Except.ok ∧
        entries h' c = xs.map Except.ok) ∧
      entries h' demoList = entries demoHeap demoList ∧
      (∀ p : Int, ∃ h'' c' b, LinkedList.remove h' c p = .ok (h'', c', b) ∧
        entries h'' demoList = entries demoHeap demoList) ∧
      (∀ (p : Int) (v : Nat), ∃ h'' c' b, LinkedList.insert h' c p v = .ok (h'', c', b) ∧
        entries h'' demoList = entries demoHeap demoList) :=
  ⟨demo_inv, by decide, copy_is_independent demoHeap demoList demo_inv 1 (by decide)⟩

/-- C7: the invariant "`item_count_` is the number of nodes reachable from
`head_ptr_`" holds for the default-constructed chain; it makes the count
non-negative and zero exactly when the head is absent; and `insert`, `remove`
(at any position, with any value), `clear` and the copy constructor all return
a chain that satisfies it again. -/
theorem count_invariant_preserved [Inhabited T] (h : Heap T) (l : LinkedList) (hinv : Inv h l) :
    Inv h LinkedList.new ∧
    (0 ≤ l.item_count_ ∧ (l.item_count_ = 0 ↔ l.head_ptr_ = none)) ∧
    (∀ (p : Int) (v : T), ∃ h' l' b, LinkedList.insert h l p v = .ok (h', l', b) ∧ Inv h' l') ∧
    (∀ p : Int, ∃ h' l' b, LinkedList.remove h l p = .ok (h', l', b) ∧ Inv h' l') ∧
    (∀ fuel : Nat, l.getLength ≤ fuel → ∃ h' l', clear fuel h l = .ok (h', l') ∧ Inv h' l') ∧
    (∀ fuel : Nat, l.getLength ≤ fuel + 1 →
      ∃ h' c, copy fuel h l = .ok (h', c) ∧ Inv h' c ∧ Inv h' l) := by
  obtain ⟨cs, hc⟩ := hinv
  have hlen : l.getLength = cs.length := hc.2
  have hnew : ∀ g : Heap T, Inv g LinkedList.new := fun g => ⟨[], rfl, rfl⟩
  refine ⟨hnew h, ⟨?_, ?_⟩, ?_, ?_, ?_, ?_⟩
  · rw [hc.2]; omega
  · rw [hc.2, head_chain hc]
    cases cs <;> simp
    omega
  · intro p v
    by_cases hp : 0 ≤ p ∧ p ≤ l.item_count_
    · obtain ⟨k, rfl⟩ := Int.eq_ofNat_of_zero_le hp.1
      have hk : k ≤ cs.length := by have := hp.2; rw [hc.2] at this; exact_mod_cast this
      obtain ⟨h', l', hrun, hc', _⟩ := insert_chain hc k hk v
      exact ⟨h', l', true, hrun, _, hc'⟩
    · exact ⟨h, l, false, insert_invalid h l p v (by omega), cs, hc⟩
  · intro p
    by_cases hp : 0 ≤ p ∧ p < l.item_count_
    · obtain ⟨k, rfl⟩ := Int.eq_ofNat_of_zero_le hp.1
      have hk : k < cs.length := by have := hp.2; rw [hc.2] at this; exact_mod_cast this
      obtain ⟨h', l', hrun, hc', _⟩ := remove_chain hc k hk
      exact ⟨h', l', true, hrun, _, hc'⟩
    · exact ⟨h, l, false, remove_invalid h l p (by omega), cs, hc⟩
  · intro fuel hf
    have hf' : cs.length ≤ fuel := by rw [hlen] at hf; exact_mod_cast hf
    obtain ⟨h', hrun, _⟩ := clear_chain fuel h l hc hf'
    exact ⟨h', _, hrun, hnew h'⟩
  · intro fuel hf
    have hf' : cs.length ≤ fuel + 1 := by rw [hlen] at hf; exact_mod_cast hf
    obtain ⟨h', c, hrun, hcc, _, hframe⟩ := copy_chain hc fuel hf'
    exact ⟨h', c, hrun, ⟨_, hcc⟩, cs, hc.reframe fun d hd => hframe _ (hc.1.lt_length d hd)⟩

theorem count_invariant_preserved_witness :
    Inv demoHeap demoList ∧
    (Inv demoHeap LinkedList.new ∧
    (0 ≤ demoList.item_count_ ∧ (demoList.item_count_ = 0 ↔ demoList.head_ptr_ = none)) ∧
    (∀ (p : Int) (v : Nat),
      ∃ h' l' b, LinkedList.insert demoHeap demoList p v = .ok (h', l', b) ∧ Inv h' l') ∧
    (∀ p : Int, ∃ h' l' b, LinkedList.remove demoHeap demoList p = .ok (h', l', b) ∧ Inv h' l') ∧
    (∀ fuel : Nat, demoList.getLength ≤ fuel →
      ∃ h' l', clear fuel demoHeap demoList = .ok (h', l') ∧ Inv h' l') ∧
    (∀ fuel : Nat, demoList.getLength ≤ fuel + 1 →
      ∃ h' c, copy fuel demoHeap demoList = .ok (h', c) ∧ Inv h' c ∧ Inv h' demoList)) :=
  ⟨demo_inv, count_invariant_preserved demoHeap demoList demo_inv⟩

/-- C8: on a chain whose count matches its nodes, the loop of `clear` finishes
after exactly `length` rounds of `remove(0)` (with that many rounds allowed it
returns, with fewer it is still running) and leaves the chain empty:
`isEmpty()` holds, `getLength()` is 0, the head is absent, and every node the
chain had is freed. -/
theorem clear_empties_chain (h : Heap T) (l : LinkedList) (hinv : Inv h l) :
    (∀ fuel : Nat, l.getLength ≤ fuel →
      ∃ h' l', clear fuel h l = .ok (h', l') ∧
        l'.isEmpty = true ∧ l'.getLength = 0 ∧ l'.getHeadNode = none ∧
        ∀ (i : Int) (a : Nat), 0 ≤ i → i < l.getLength → getNodeAt h l i = .ok (some a) →
          h'[a]? = some none) ∧
    (∀ fuel : Nat, (fuel : Int) < l.getLength → clear fuel h l = .error .outOfFuel) := by
  obtain ⟨cs, hc⟩ := hinv
  have hlen : l.getLength = cs.length := hc.2
  constructor
  · intro fuel hf
    have hf' : cs.length ≤ fuel := by rw [hlen] at hf; exact_mod_cast hf
    obtain ⟨h', hrun, _, hfreed, _⟩ := clear_chain fuel h l hc hf'
    refine ⟨h', _, hrun, rfl, rfl, rfl, ?_⟩
    intro i a h0 h1 hnode
    obtain ⟨k, rfl⟩ := Int.eq_ofNat_of_zero_le h0
    have hk : k < cs.length := by rw [hlen] at h1; exact_mod_cast h1
    have := getNodeAtLoop_chain hc.1 k hk
    simp only [getNodeAt, Int.toNat_ofNat, this] at hnode
    cases hnode
    exact hfreed _ (List.getElem_mem hk)
  · intro fuel hf
    exact clear_short fuel h l hc (by rw [hlen] at hf; exact_mod_cast hf)

theorem clear_empties_chain_witness :
    Inv demoHeap demoList ∧
    ((∀ fuel : Nat, demoList.getLength ≤ fuel →
      ∃ h' l', clear fuel demoHeap demoList = .ok (h', l') ∧
        l'.isEmpty = true ∧ l'.getLength = 0 ∧ l'.getHeadNode = none ∧
        ∀ (i : Int) (a : Nat), 0 ≤ i → i < demoList.getLength →
          getNodeAt demoHeap demoList i = .ok (some a) → h'[a]? = some none) ∧
    (∀ fuel : Nat, (fuel : Int) < demoList.getLength →
      clear fuel demoHeap demoList = .error .outOfFuel)) :=
  ⟨demo_inv, clear_empties_chain demoHeap demoList demo_inv⟩

end OpLemmas

/-! ## Station registry: `addStation` and `findStation` -/

section RegistryLemmas
open StationManager

theorem getName_live {st : Stations} {a : Nat} {s : KitchenStation} (e : st[a]? = some s) :
    getName st (some a) = .ok s.name_ := by
  simp [getName, e]

/-- The scan of `findStation` over a registry in good order stops at the first
cell whose station has the wanted name, or runs off the end. -/
theorem findStationLoop_seg (st : Stations) (h : Heap (Option Nat)) (name : String) :
    ∀ (cs : List (Nat × Option Nat)) (fuel : Nat) (p : Option Nat),
      Seg h p cs none → (∀ c ∈ cs, ∃ a s, c.2 = some a ∧ st[a]? = some s) →
      cs.length ≤ fuel →
      (∃ i, ∃ hi : i < cs.length, findStationLoop st h name fuel p = .ok cs[i].2 ∧
        getName st cs[i].2 = .ok name ∧
        ∀ j, ∀ hj : j < cs.length, j < i → getName st cs[j].2 ≠ .ok name) ∨
      (findStationLoop st h name fuel p = .ok none ∧
        ∀ c ∈ cs, getName st c.2 ≠ .ok name) := by
  intro cs
  induction cs with
  | nil =>
    intro fuel p hs _ _
    cases hs
    right
    refine ⟨by cases fuel <;> rfl, fun c hc => absurd hc (List.not_mem_nil c)⟩
  | cons c rest ih =>
    intro fuel p hs hv hf
    obtain ⟨hp, nx, hc, ht⟩ := hs
    subst hp
    obtain ⟨fuel, rfl⟩ : ∃ f, fuel = f + 1 := ⟨fuel - 1, by simp at hf; omega⟩
    obtain ⟨a, s, hca, hsa⟩ := hv c (List.mem_cons_self _ _)
    have hname : getName st c.2 = .ok s.name_ := by rw [hca]; exact getName_live hsa
    by_cases hmatch : s.name_ = name
    · left
      refine ⟨0, by simp, ?_, ?_, fun j _ hj => absurd hj (Nat.not_lt_zero j)⟩
      · simp only [findStationLoop, getItem_live hc, hname, ok_bind, hmatch, if_true]
        rfl
      · simpa [hmatch] using hname
    · have hstep : findStationLoop st h name (fuel + 1) (some c.1)
          = findStationLoop st h name fuel nx := by
        simp only [findStationLoop, getItem_live hc, hname, ok_bind, hmatch, if_false,
          getNext_live hc]
      have hne : getName st c.2 ≠ .ok name := by
        rw [hname]; intro e; exact hmatch (Except.ok.inj e)
      rcases ih fuel nx ht (fun d hd => hv d (List.mem_cons_of_mem _ hd)) (by simpa using hf)
        with ⟨i, hi, hrun, hnm, hfirst⟩ | ⟨hrun, hnone⟩
      · left
        refine ⟨i + 1, by simpa using hi, ?_, by simpa using hnm, ?_⟩
        · rw [hstep]; simpa using hrun
        · intro j hj hji
          cases j with
          | zero => simpa using hne
          | succ j =>
            simpa using hfirst j (by simpa using hj) (by omega)
      · right
        refine ⟨by rw [hstep]; exact hrun, ?_⟩
        intro d hd
        rcases List.mem_cons.mp hd with rfl | hd
        · exact hne
        · exact hnone d hd

theorem demo_registry : Registry demoStations demoRegistryHeap demoRegistry := by
  refine ⟨[(0, some 0), (1, some 1), (2, some 2)],
    ⟨⟨rfl, some 1, rfl, rfl, some 2, rfl, rfl, none, rfl, rfl⟩, rfl⟩, ?_⟩
  intro c hc
  simp only [List.mem_cons, List.mem_singleton, List.not_mem_nil, or_false] at hc
  rcases hc with rfl | rfl | rfl
  · exact ⟨0, _, rfl, rfl⟩
  · exact ⟨1, _, rfl, rfl⟩
  · exact ⟨2, _, rfl, rfl⟩

theorem Registry.inv {st : Stations} {h : Heap (Option Nat)} {l : LinkedList}
    (hreg : Registry st h l) : Inv h l := by
  obtain ⟨cs, hc, _⟩ := hreg
  exact ⟨cs, hc⟩

/-- C9: on a registry whose count matches its nodes, `addStation(record)`
returns true for every station pointer (so for every non-null one), the
registry length grows by one, the record is at the former length, the new last
index, and every station registered before is still at its index. -/
theorem addStation_appends (h : Heap (Option Nat)) (l : LinkedList) (hinv : Inv h l)
    (station : Option Nat) :
    ∃ h' l', addStation h l station = .ok (h', l', true) ∧
      l'.getLength = l.getLength + 1 ∧
      getEntry h' l' l.getLength = .ok station ∧
      ∀ i : Int, 0 ≤ i → i < l.getLength →
        ∃ x, getEntry h l i = .ok x ∧ getEntry h' l' i = .ok x := by
  obtain ⟨cs, hc⟩ := hinv
  have hlen : l.item_count_ = cs.length := hc.2
  obtain ⟨h', l', hrun, hget, hcount, hlow, _⟩ := insert_pointwise hc cs.length le_rfl station
  refine ⟨h', l', ?_, hcount, ?_, ?_⟩
  · rw [addStation, hlen]; exact hrun
  · rw [getLength, hlen]; exact hget
  · intro i h0 h1
    obtain ⟨j, rfl⟩ := Int.eq_ofNat_of_zero_le h0
    exact hlow j (by rw [getLength, hlen] at h1; exact_mod_cast h1)

theorem addStation_appends_witness :
    Inv demoRegistryHeap demoRegistry ∧
    ∃ h' l', addStation demoRegistryHeap demoRegistry (some 1) = .ok (h', l', true) ∧
      l'.getLength = demoRegistry.getLength + 1 ∧
      getEntry h' l' demoRegistry.getLength = .ok (some 1) ∧
      ∀ i : Int, 0 ≤ i → i < demoRegistry.getLength →
        ∃ x, getEntry demoRegistryHeap demoRegistry i = .ok x ∧ getEntry h' l' i = .ok x :=
  ⟨demo_registry.inv, addStation_appends demoRegistryHeap demoRegistry demo_registry.inv (some 1)⟩

/-- C10: on a registry in good order `findStation(name)` returns the station
at the smallest index whose name equals `name`, and returns `nullptr` exactly
when no registered station has that name; being a read it hands back no new
state. -/
theorem findStation_first_match (st : Stations) (h : Heap (Option Nat)) (l : LinkedList)
    (hreg : Registry st h l) (name : String) (fuel : Nat) (hf : l.getLength ≤ fuel) :
    ∃ r, findStation fuel st h l name = .ok r ∧
      (r = none ↔ ∀ i : Int, 0 ≤ i → i < l.getLength →
        ∃ q nm, getEntry h l i = .ok q ∧ getName st q = .ok nm ∧ nm ≠ name) ∧
      (r ≠ none → ∃ i : Int, 0 ≤ i ∧ i < l.getLength ∧ getEntry h l i = .ok r ∧
        getName st r = .ok name ∧
        ∀ j : Int, 0 ≤ j → j < i →
          ∃ q nm, getEntry h l j = .ok q ∧ getName st q = .ok nm ∧ nm ≠ name) := by
  obtain ⟨cs, hc, hv⟩ := hreg
  have hlen : l.getLength = cs.length := hc.2
  have hf' : cs.length ≤ fuel := by rw [hlen] at hf; exact_mod_cast hf
  have hother : ∀ (j : Nat) (hj : j < cs.length), getName st cs[j].2 ≠ .ok name →
      ∃ q nm, getEntry h l (j : Int) = .ok q ∧ getName st q = .ok nm ∧ nm ≠ name := by
    intro j hj hne
    obtain ⟨a, s, hca, hsa⟩ := hv _ (List.getElem_mem hj)
    have hnm : getName st cs[j].2 = .ok s.name_ := by rw [hca]; exact getName_live hsa
    refine ⟨cs[j].2, s.name_, getEntry_chain hc j hj, hnm, ?_⟩
    intro e; rw [hnm, e] at hne; exact hne rfl
  rcases findStationLoop_seg st h name cs fuel l.head_ptr_ hc.1 hv hf'
    with ⟨i, hi, hrun, hnm, hfirst⟩ | ⟨hrun, hnone⟩
  · obtain ⟨a, s, hca, _⟩ := hv _ (List.getElem_mem hi)
    refine ⟨cs[i].2, hrun, ⟨fun e => ?_, fun hall => ?_⟩, fun _ => ?_⟩
    · rw [hca] at e; cases e
    · obtain ⟨q, nm, hq, hqn, hne⟩ := hall i (by omega) (by rw [hlen]; exact_mod_cast hi)
      rw [getEntry_chain hc i hi] at hq
      cases hq
      rw [hnm] at hqn
      cases hqn
      exact absurd rfl hne
    · refine ⟨i, by omega, by rw [hlen]; exact_mod_cast hi, getEntry_chain hc i hi, hnm, ?_⟩
      intro j h0 hji
      obtain ⟨k, rfl⟩ := Int.eq_ofNat_of_zero_le h0
      have hki : k < i := by exact_mod_cast hji
      exact hother k (by omega) (hfirst k (by omega) hki)
  · refine ⟨none, hrun, ⟨fun _ => ?_, fun _ => rfl⟩, fun e => absurd rfl e⟩
    intro i h0 h1
    obtain ⟨k, rfl⟩ := Int.eq_ofNat_of_zero_le h0
    have hk : k < cs.length := by rw [hlen] at h1; exact_mod_cast h1
    exact hother k hk (hnone _ (List.getElem_mem hk))

theorem findStation_first_match_witness :
    Registry demoStations demoRegistryHeap demoRegistry ∧
    demoRegistry.getLength ≤ ((3 : Nat) : Int) ∧
    findStation 3 demoStations demoRegistryHeap demoRegistry "Oven" = .ok (some 1) ∧
    ∃ r, findStation 3 demoStations demoRegistryHeap demoRegistry "Oven" = .ok r ∧
      (r = none ↔ ∀ i : Int, 0 ≤ i → i < demoRegistry.getLength →
        ∃ q nm, getEntry demoRegistryHeap demoRegistry i = .ok q ∧
          getName demoStations q = .ok nm ∧ nm ≠ "Oven") ∧
      (r ≠ none → ∃ i : Int, 0 ≤ i ∧ i < demoRegistry.getLength ∧
        getEntry demoRegistryHeap demoRegistry i = .ok r ∧
        getName demoStations r = .ok "Oven" ∧
        ∀ j : Int, 0 ≤ j → j < i →
          ∃ q nm, getEntry demoRegistryHeap demoRegistry j = .ok q ∧
            getName demoStations q = .ok nm ∧ nm ≠ "Oven") :=
  ⟨demo_registry, by decide, by rfl,
    findStation_first_match demoStations demoRegistryHeap demoRegistry demo_registry "Oven" 3
      (by decide)⟩

end RegistryLemmas

/-! ## Station manager -/

section ManagerLemmas
open StationManager

theorem demo_kitchen : Registry demoKitchen demoKitchenHeap demoKitchenList := by
  refine ⟨[(0, some 0), (1, some 1)], ⟨⟨rfl, some 1, rfl, rfl, none, rfl, rfl⟩, rfl⟩, ?_⟩
  intro c hc
  simp only [List.mem_cons, List.mem_singleton, List.not_mem_nil, or_false] at hc
  rcases hc with rfl | rfl
  · exact ⟨0, _, rfl, rfl⟩
  · exact ⟨1, _, rfl, rfl⟩

theorem demo_kitchen_dishes : DishesOk demoDishes demoKitchen := by
  intro s hs d hd
  simp only [demoKitchen, List.mem_cons, List.mem_singleton, List.not_mem_nil, or_false] at hs
  rcases hs with rfl | rfl
  · simp only [List.mem_singleton] at hd
    subst hd
    exact ⟨_, rfl⟩
  · simp only [List.mem_singleton] at hd
    subst hd
    exact ⟨_, rfl⟩

theorem readStation_live {st : Stations} {a : Nat} {s : KitchenStation} (e : st[a]? = some s) :
    readStation st (some a) = .ok s := by
  simp [readStation, e]

theorem getName_eq_read (st : Stations) (p : Option Nat) :
    getName st p = (readStation st p).map KitchenStation.name_ := by
  cases p with
  | none => rfl
  | some a =>
    cases hx : st[a]? with
    | none => simp [getName, readStation, hx, Except.map]
    | some s => simp [getName, readStation, hx, Except.map]

/-- A listed cell has a name, and it is or is not the wanted one. -/
theorem Listed.name_of {st : Stations} {cs : List (Nat × Option Nat)} (hv : Listed st cs)
    {c : Nat × Option Nat} (hc : c ∈ cs) : ∃ nm, getName st c.2 = .ok nm := by
  obtain ⟨a, s, hca, hsa⟩ := hv c hc
  exact ⟨s.name_, by rw [hca]; exact getName_live hsa⟩

/-- Either no listed station has the name, or the registry splits at the first
one that has. -/
theorem first_named (st : Stations) (name : String) (cs : List (Nat × Option Nat)) :
    (∀ c ∈ cs, getName st c.2 ≠ .ok name) ∨
    ∃ pre c post, cs = pre ++ c :: post ∧ (∀ d ∈ pre, getName st d.2 ≠ .ok name) ∧
      getName st c.2 = .ok name := by
  induction cs with
  | nil => left; intro c hc; exact absurd hc (List.not_mem_nil c)
  | cons c cs ih =>
    by_cases hc : getName st c.2 = .ok name
    · right
      exact ⟨[], c, cs, rfl, fun d hd => absurd hd (List.not_mem_nil d), hc⟩
    · rcases ih with hall | ⟨pre, d, post, hsplit, hpre, hd⟩
      · left
        intro e he
        rcases List.mem_cons.mp he with rfl | he
        · exact hc
        · exact hall e he
      · right
        refine ⟨c :: pre, d, post, by rw [hsplit]; rfl, ?_, hd⟩
        intro e he
        rcases List.mem_cons.mp he with rfl | he
        · exact hc
        · exact hpre e he

/-- The scan of `findStation` passes over stations with other names and stops
at the first one with the wanted name. -/
theorem findStationLoop_hit (st : Stations) (h : Heap (Option Nat)) (name : String)
    (c : Nat × Option Nat) :
    ∀ (pre : List (Nat × Option Nat)) (fuel : Nat) (p q : Option Nat),
      Seg h p (pre ++ [c]) q → Listed st pre → (∀ d ∈ pre, getName st d.2 ≠ .ok name) →
      getName st c.2 = .ok name → pre.length < fuel →
      findStationLoop st h name fuel p = .ok c.2 := by
  intro pre
  induction pre with
  | nil =>
    intro fuel p q hs _ _ hc hf
    obtain ⟨hp, nx, hcell, _⟩ := hs
    subst hp
    obtain ⟨fuel, rfl⟩ : ∃ f, fuel = f + 1 := ⟨fuel - 1, by simp at hf; omega⟩
    simp only [findStationLoop, getItem_live hcell, hc, ok_bind, if_true]
  | cons d pre ih =>
    intro fuel p q hs hv hmiss hc hf
    obtain ⟨hp, nx, hcell, ht⟩ := hs
    subst hp
    obtain ⟨fuel, rfl⟩ : ∃ f, fuel = f + 1 := ⟨fuel - 1, by simp at hf; omega⟩
    obtain ⟨nm, hnm⟩ := hv.name_of (List.mem_cons_self _ _)
    have hne : nm ≠ name := by
      intro e; rw [e] at hnm; exact hmiss d (List.mem_cons_self _ _) hnm
    simp only [findStationLoop, getItem_live hcell, hnm, ok_bind, hne, if_false,
      getNext_live hcell]
    exact ih fuel nx q ht (fun e he => hv e (List.mem_cons_of_mem _ he))
      (fun e he => hmiss e (List.mem_cons_of_mem _ he)) hc (by simpa using hf)

/-- With no station of the wanted name the scan of `findStation` runs off the
end. -/
theorem findStationLoop_miss (st : Stations) (h : Heap (Option Nat)) (name : String) :
    ∀ (cs : List (Nat × Option Nat)) (fuel : Nat) (p : Option Nat),
      Seg h p cs none → Listed st cs → (∀ d ∈ cs, getName st d.2 ≠ .ok name) →
      cs.length ≤ fuel → findStationLoop st h name fuel p = .ok none := by
  intro cs
  induction cs with
  | nil =>
    intro fuel p hs _ _ _
    cases hs
    cases fuel <;> rfl
  | cons d cs ih =>
    intro fuel p hs hv hmiss hf
    obtain ⟨hp, nx, hcell, ht⟩ := hs
    subst hp
    obtain ⟨fuel, rfl⟩ : ∃ f, fuel = f + 1 := ⟨fuel - 1, by simp at hf; omega⟩
    obtain ⟨nm, hnm⟩ := hv.name_of (List.mem_cons_self _ _)
    have hne : nm ≠ name := by
      intro e; rw [e] at hnm; exact hmiss d (List.mem_cons_self _ _) hnm
    simp only [findStationLoop, getItem_live hcell, hnm, ok_bind, hne, if_false,
      getNext_live hcell]
    exact ih fuel nx ht (fun e he => hv e (List.mem_cons_of_mem _ he))
      (fun e he => hmiss e (List.mem_cons_of_mem _ he)) (by simpa using hf)

/-- A segment that is the front of a chain. -/
theorem Seg.front {T : Type} {h : Heap T} {p : Option Nat} {pre : List (Nat × T)} {c : Nat × T}
    {post : List (Nat × T)} (hs : Seg h p (pre ++ c :: post) none) :
    ∃ q, Seg h p (pre ++ [c]) q := by
  have : pre ++ c :: post = (pre ++ [c]) ++ post := by simp
  rw [this] at hs
  obtain ⟨m, h₁, _⟩ := Seg.append_iff.mp hs
  exact ⟨m, h₁⟩

theorem Listed.of_append_left {st : Stations} {pre rest : List (Nat × Option Nat)}
    (hv : Listed st (pre ++ rest)) : Listed st pre :=
  fun c hc => hv c (List.mem_append_left _ hc)

/-- `findStation` on a registry that splits at the first station of the name. -/
theorem findStation_hit {st : Stations} {h : Heap (Option Nat)} {l : LinkedList}
    {pre post : List (Nat × Option Nat)} {c : Nat × Option Nat} {name : String} {fuel : Nat}
    (hc : Chain h l (pre ++ c :: post)) (hv : Listed st (pre ++ c :: post))
    (hmiss : ∀ d ∈ pre, getName st d.2 ≠ .ok name) (hname : getName st c.2 = .ok name)
    (hf : (pre ++ c :: post).length ≤ fuel) :
    findStation fuel st h l name = .ok c.2 := by
  obtain ⟨q, hq⟩ := hc.1.front
  exact findStationLoop_hit st h name c pre fuel _ q hq hv.of_append_left hmiss hname
    (by simp at hf; omega)

theorem findStation_miss {st : Stations} {h : Heap (Option Nat)} {l : LinkedList}
    {cs : List (Nat × Option Nat)} {name : String} {fuel : Nat}
    (hc : Chain h l cs) (hv : Listed st cs)
    (hmiss : ∀ d ∈ cs, getName st d.2 ≠ .ok name) (hf : cs.length ≤ fuel) :
    findStation fuel st h l name = .ok none :=
  findStationLoop_miss st h name cs fuel _ hc.1 hv hmiss hf

/-- Either nothing in a list has the property, or the list splits at the first
element that has it. -/
theorem first_split {α : Type} (P : α → Prop) (xs : List α) :
    (∀ x ∈ xs, ¬ P x) ∨
    ∃ pre x post, xs = pre ++ x :: post ∧ (∀ d ∈ pre, ¬ P d) ∧ P x := by
  induction xs with
  | nil => left; intro x hx; exact absurd hx (List.not_mem_nil x)
  | cons c cs ih =>
    by_cases hc : P c
    · right
      exact ⟨[], c, cs, rfl, fun d hd => absurd hd (List.not_mem_nil d), hc⟩
    · rcases ih with hall | ⟨pre, d, post, hsplit, hpre, hd⟩
      · left
        intro e he
        rcases List.mem_cons.mp he with rfl | he
        · exact hc
        · exact hall e he
      · right
        refine ⟨c :: pre, d, post, by rw [hsplit]; rfl, ?_, hd⟩
        intro e he
        rcases List.mem_cons.mp he with rfl | he
        · exact hc
        · exact hpre e he

/-- An exact value that is an `int` is what the program computes. -/
theorem wrapInt_of_inInt {x : Int} (hx : InInt x) : wrapInt x = x := by
  obtain ⟨h1, h2⟩ := hx
  simp only [wrapInt, Int.bmod]
  norm_num
  omega

theorem addBackupIngredientScan_hit (ingredient : Ingredient) (e : Ingredient)
    (post : List Ingredient) (he : e.name = ingredient.name) :
    ∀ pre : List Ingredient, (∀ d ∈ pre, ¬ d.name = ingredient.name) →
      addBackupIngredientScan (pre ++ e :: post) ingredient =
        pre ++ { e with quantity := wrapInt (e.quantity + ingredient.quantity) } :: post := by
  intro pre
  induction pre with
  | nil => intro _; simp [addBackupIngredientScan, he]
  | cons d pre ih =>
    intro hmiss
    have hd : ¬ d.name = ingredient.name := hmiss d (List.mem_cons_self _ _)
    rw [List.cons_append, addBackupIngredientScan, if_neg hd,
      ih fun x hx => hmiss x (List.mem_cons_of_mem _ hx)]
    rfl

theorem addBackupIngredientScan_miss (ingredient : Ingredient) :
    ∀ pool : List Ingredient, (∀ d ∈ pool, ¬ d.name = ingredient.name) →
      addBackupIngredientScan pool ingredient = pool ++ [ingredient] := by
  intro pool
  induction pool with
  | nil => intro _; rfl
  | cons d pool ih =>
    intro hmiss
    have hd : ¬ d.name = ingredient.name := hmiss d (List.mem_cons_self _ _)
    rw [List.cons_append, addBackupIngredientScan, if_neg hd,
      ih fun x hx => hmiss x (List.mem_cons_of_mem _ hx)]

/-- C16: `addBackupIngredient` returns true; when the pool has an entry of the
ingredient's name, the first such entry gets the ingredient's quantity added
and the pool is otherwise as before (same length, same other entries);
otherwise the ingredient becomes the new last entry after the unchanged
existing ones. The sum is a sum of `int`s and is taken to be an `int` itself. -/
theorem addBackupIngredient_sums_or_appends (pool : List Ingredient) (ingredient : Ingredient)
    (hsum : ∀ e ∈ pool, e.name = ingredient.name →
      InInt (e.quantity + ingredient.quantity)) :
    (addBackupIngredient pool ingredient).2 = true ∧
    ((∃ e ∈ pool, e.name = ingredient.name) →
      ∃ pre e post, pool = pre ++ e :: post ∧ (∀ d ∈ pre, d.name ≠ ingredient.name) ∧
        e.name = ingredient.name ∧
        (addBackupIngredient pool ingredient).1 =
          pre ++ { e with quantity := e.quantity + ingredient.quantity } :: post ∧
        (addBackupIngredient pool ingredient).1.length = pool.length) ∧
    ((∀ e ∈ pool, e.name ≠ ingredient.name) →
      (addBackupIngredient pool ingredient).1 = pool ++ [ingredient]) := by
  refine ⟨rfl, ?_, fun hmiss => addBackupIngredientScan_miss ingredient pool hmiss⟩
  rintro ⟨e, he, hname⟩
  rcases first_split (fun d : Ingredient => d.name = ingredient.name) pool with
    hall | ⟨pre, x, post, hsplit, hpre, hx⟩
  · exact absurd hname (hall e he)
  · have hrun := addBackupIngredientScan_hit ingredient x post hx pre hpre
    rw [wrapInt_of_inInt (hsum x (by rw [hsplit]; simp) hx)] at hrun
    refine ⟨pre, x, post, hsplit, hpre, hx, ?_, ?_⟩
    · rw [hsplit]; exact hrun
    · simp only [addBackupIngredient]
      rw [hsplit, hrun]
      simp

theorem addBackupIngredient_sums_or_appends_witness :
    (∀ e ∈ demoPool, e.name = "Salt" → InInt (e.quantity + 4)) ∧
    (addBackupIngredient demoPool ⟨"Salt", 4, 0⟩).1 = [⟨"Beef", 5, 0⟩, ⟨"Salt", 5, 0⟩] ∧
    (addBackupIngredient demoPool ⟨"Rice", 4, 0⟩).1 =
      [⟨"Beef", 5, 0⟩, ⟨"Salt", 1, 0⟩, ⟨"Rice", 4, 0⟩] ∧
    ((addBackupIngredient demoPool ⟨"Salt", 4, 0⟩).2 = true ∧
    ((∃ e ∈ demoPool, e.name = "Salt") →
      ∃ pre e post, demoPool = pre ++ e :: post ∧ (∀ d ∈ pre, d.name ≠ "Salt") ∧
        e.name = "Salt" ∧
        (addBackupIngredient demoPool ⟨"Salt", 4, 0⟩).1 =
          pre ++ { e with quantity := e.quantity + 4 } :: post ∧
        (addBackupIngredient demoPool ⟨"Salt", 4, 0⟩).1.length = demoPool.length) ∧
    ((∀ e ∈ demoPool, e.name ≠ "Salt") →
      (addBackupIngredient demoPool ⟨"Salt", 4, 0⟩).1 = demoPool ++ [⟨"Salt", 4, 0⟩])) :=
  have hsum : ∀ e ∈ demoPool, e.name = "Salt" → InInt (e.quantity + 4) := by
    intro e he _
    simp only [demoPool, List.mem_cons, List.mem_singleton, List.not_mem_nil, or_false] at he
    rcases he with rfl | rfl <;> exact ⟨by decide, by decide⟩
  ⟨hsum, by rfl, by rfl, addBackupIngredient_sums_or_appends demoPool ⟨"Salt", 4, 0⟩ hsum⟩

/-- On a chain, being registered means sitting in one of its cells. -/
theorem named_iff {st : Stations} {h : Heap (Option Nat)} {l : LinkedList}
    {cs : List (Nat × Option Nat)} (hc : Chain h l cs) (name : String) :
    Named st h l name ↔ ∃ c ∈ cs, getName st c.2 = .ok name := by
  unfold Named
  rw [entries_chain hc]
  constructor
  · rintro ⟨p, hp, hname⟩
    obtain ⟨c, hcmem, hcp⟩ := List.mem_map.mp hp
    cases hcp
    exact ⟨c, hcmem, hname⟩
  · rintro ⟨c, hcmem, hname⟩
    exact ⟨c.2, List.mem_map.mpr ⟨c, hcmem, rfl⟩, hname⟩

/-- Being registered, read off the split of the cells. -/
theorem named_of_split {st : Stations} {h : Heap (Option Nat)} {l : LinkedList}
    {pre post : List (Nat × Option Nat)} {c : Nat × Option Nat} {name : String}
    (hc : Chain h l (pre ++ c :: post)) (hname : getName st c.2 = .ok name) :
    Named st h l name :=
  (named_iff hc name).mpr ⟨c, List.mem_append_right _ (List.mem_cons_self _ _), hname⟩

theorem demo_no_fryer : ¬ Named demoStations demoRegistryHeap demoRegistry "Fryer" := by
  intro hn
  have hc : Chain demoRegistryHeap demoRegistry [(0, some 0), (1, some 1), (2, some 2)] :=
    ⟨⟨rfl, some 1, rfl, rfl, some 2, rfl, rfl, none, rfl, rfl⟩, rfl⟩
  obtain ⟨c, hcm, hcn⟩ := (named_iff hc "Fryer").mp hn
  simp only [List.mem_cons, List.mem_singleton, List.not_mem_nil, or_false] at hcm
  rcases hcm with rfl | rfl | rfl <;> simp [getName, demoStations] at hcn

/-- What `findStation` finds on a registry in good order: nothing when no
station has the name, else the record of the first station that has it. -/
theorem findStation_cases {st : Stations} {h : Heap (Option Nat)} {l : LinkedList}
    {cs : List (Nat × Option Nat)} (hc : Chain h l cs) (hv : Listed st cs) (name : String)
    {fuel : Nat} (hf : cs.length ≤ fuel) :
    ((∀ c ∈ cs, getName st c.2 ≠ .ok name) ∧ findStation fuel st h l name = .ok none) ∨
    ∃ pre c post a s, cs = pre ++ c :: post ∧ (∀ d ∈ pre, getName st d.2 ≠ .ok name) ∧
      c.2 = some a ∧ st[a]? = some s ∧ s.name_ = name ∧
      findStation fuel st h l name = .ok (some a) := by
  rcases first_split (fun c : Nat × Option Nat => getName st c.2 = .ok name) cs with
    hall | ⟨pre, c, post, hsplit, hpre, hname⟩
  · exact Or.inl ⟨hall, findStation_miss hc hv hall hf⟩
  · right
    subst hsplit
    obtain ⟨a, s, hca, hsa⟩ := hv c (List.mem_append_right _ (List.mem_cons_self _ _))
    have hs : s.name_ = name := by
      rw [hca, getName_live hsa] at hname
      exact Except.ok.inj hname
    refine ⟨pre, c, post, a, s, rfl, hpre, hca, hsa, hs, ?_⟩
    rw [← hca]
    exact findStation_hit hc hv hpre hname hf

theorem stockOf_mergeStock (ingredient : Ingredient) (n : String) :
    ∀ stock : List Ingredient,
      stockOf (KitchenStation.mergeStock stock ingredient) n =
        stockOf stock n + if ingredient.name = n then ingredient.quantity else 0 := by
  intro stock
  induction stock with
  | nil =>
    by_cases hn : ingredient.name = n <;> simp [stockOf, KitchenStation.mergeStock, hn]
  | cons e rest ih =>
    by_cases he : e.name = ingredient.name
    · by_cases hn : ingredient.name = n
      · have hen : e.name = n := he.trans hn
        simp [stockOf, KitchenStation.mergeStock, he, hn, hen, List.filter_cons]
        ring
      · have hen : ¬ e.name = n := fun h => hn (he ▸ h)
        simp [stockOf, KitchenStation.mergeStock, he, hn, hen, List.filter_cons]
    · simp only [KitchenStation.mergeStock, he, if_false]
      have := ih
      simp only [stockOf, List.filter_cons] at this ⊢
      by_cases hen : e.name = n
      · simp only [hen, decide_True, if_true, List.map_cons, List.sum_cons]
        rw [this]; ring
      · simp only [hen, decide_False]
        exact this

theorem replenishIngredientAtStation_live {st : Stations} {h : Heap (Option Nat)}
    {l : LinkedList} {fuel : Nat} {name : String} {a : Nat} {s : KitchenStation}
    (hfind : findStation fuel st h l name = .ok (some a)) (hs : st[a]? = some s)
    (ingredient : Ingredient) :
    replenishIngredientAtStation fuel st h l name ingredient =
      .ok (st.set a (s.replenishStationIngredients ingredient), true) := by
  simp [replenishIngredientAtStation, hfind, ok_bind, readStation_live hs, writeStation,
    pure_eq_ok]

/-- The scan of the backup pool when no entry has both the name and the
quantity: nothing changes. -/
theorem replenishScan_miss (fuel : Nat) (st : Stations) (h : Heap (Option Nat)) (l : LinkedList)
    (sname iname : String) (q : Int) :
    ∀ pool : List Ingredient, (∀ d ∈ pool, ¬ (d.name = iname ∧ d.quantity ≥ q)) →
      replenishScan fuel st h l sname iname q pool = .ok (st, pool, false) := by
  intro pool
  induction pool with
  | nil => intro _; rfl
  | cons d pool ih =>
    intro hmiss
    have hd := hmiss d (List.mem_cons_self _ _)
    rw [replenishScan, if_neg hd, ih fun x hx => hmiss x (List.mem_cons_of_mem _ hx)]
    rfl

/-- The scan of the backup pool when the station exists and the pool splits at
the first entry with the name and the quantity. -/
theorem replenishScan_hit {fuel : Nat} {st : Stations} {h : Heap (Option Nat)} {l : LinkedList}
    {sname iname : String} {q : Int} {a : Nat} {s : KitchenStation}
    (hfind : findStation fuel st h l sname = .ok (some a)) (hs : st[a]? = some s)
    (e : Ingredient) (post : List Ingredient) (he : e.name = iname ∧ e.quantity ≥ q) :
    ∀ pre : List Ingredient, (∀ d ∈ pre, ¬ (d.name = iname ∧ d.quantity ≥ q)) →
      replenishScan fuel st h l sname iname q (pre ++ e :: post) =
        .ok (st.set a (s.replenishStationIngredients ⟨iname, q, 0⟩),
          pre ++ (if wrapInt (e.quantity - q) ≤ 0 then post
            else { e with quantity := wrapInt (e.quantity - q) } :: post), true) := by
  intro pre
  induction pre with
  | nil =>
    intro _
    rw [List.nil_append, replenishScan, if_pos he,
      replenishIngredientAtStation_live hfind hs]
    by_cases hz : wrapInt (e.quantity - q) ≤ 0 <;> simp [ok_bind, hz, pure_eq_ok]
  | cons d pre ih =>
    intro hmiss
    have hd := hmiss d (List.mem_cons_self _ _)
    rw [List.cons_append, replenishScan, if_neg hd,
      ih fun x hx => hmiss x (List.mem_cons_of_mem _ hx)]
    rfl

/-- The three ways `replenishStationIngredientFromBackup` can go on a registry
in good order. -/
theorem replenish_cases {st : Stations} {h : Heap (Option Nat)} {l : LinkedList}
    (hreg : Registry st h l) {fuel : Nat} (hf : l.getLength ≤ fuel) (pool : List Ingredient)
    (sname iname : String) (q : Int) :
    (¬ Named st h l sname ∧
      replenishStationIngredientFromBackup fuel st h l pool sname iname q =
        .ok (st, pool, false)) ∨
    (Named st h l sname ∧ (∀ d ∈ pool, ¬ (d.name = iname ∧ d.quantity ≥ q)) ∧
      replenishStationIngredientFromBackup fuel st h l pool sname iname q =
        .ok (st, pool, false)) ∨
    (Named st h l sname ∧ ∃ a s pre e post,
      findStation fuel st h l sname = .ok (some a) ∧ st[a]? = some s ∧
      pool = pre ++ e :: post ∧ (∀ d ∈ pre, ¬ (d.name = iname ∧ d.quantity ≥ q)) ∧
      (e.name = iname ∧ e.quantity ≥ q) ∧
      replenishStationIngredientFromBackup fuel st h l pool sname iname q =
        .ok (st.set a (s.replenishStationIngredients ⟨iname, q, 0⟩),
          pre ++ (if wrapInt (e.quantity - q) ≤ 0 then post
            else { e with quantity := wrapInt (e.quantity - q) } :: post), true)) := by
  obtain ⟨cs, hc, hv⟩ := hreg
  have hf' : cs.length ≤ fuel := by
    have : l.getLength = cs.length := hc.2
    rw [this] at hf; exact_mod_cast hf
  rcases findStation_cases hc hv sname hf' with
    ⟨hall, hfind⟩ | ⟨pre, c, post, a, s, hsplit, hpre, hca, hsa, hs, hfind⟩
  · left
    refine ⟨fun hn => ?_, ?_⟩
    · obtain ⟨c, hcm, hcn⟩ := (named_iff hc sname).mp hn
      exact hall c hcm hcn
    · simp [replenishStationIngredientFromBackup, hfind, ok_bind, pure_eq_ok]
  · have hnamed : Named st h l sname := by
      refine (named_iff hc sname).mpr ⟨c, ?_, ?_⟩
      · rw [hsplit]; exact List.mem_append_right _ (List.mem_cons_self _ _)
      · rw [hca, getName_live hsa, hs]
    have hrun : replenishStationIngredientFromBackup fuel st h l pool sname iname q =
        replenishScan fuel st h l sname iname q pool := by
      simp [replenishStationIngredientFromBackup, hfind, ok_bind]
    right
    rcases first_split (fun d : Ingredient => d.name = iname ∧ d.quantity ≥ q) pool with
      hall | ⟨ppre, e, ppost, hpsplit, hppre, he⟩
    · left
      exact ⟨hnamed, hall, by rw [hrun]; exact replenishScan_miss fuel st h l sname iname q pool hall⟩
    · right
      refine ⟨hnamed, a, s, ppre, e, ppost, hfind, hsa, hpsplit, hppre, he, ?_⟩
      rw [hrun, hpsplit]
      exact replenishScan_hit hfind hsa e ppost he ppre hppre

/-- C17: on a registry in good order `replenishStationIngredientFromBackup`
returns true iff a station of that name is registered and the pool has an
entry called `name` with quantity at least `q`. On success the first station
of that name holds exactly `q` more of `name` (and as much as before of every
other ingredient), the first such pool entry holds `q` less and is dropped
from the pool when what remains is `<= 0`, and the other pool entries are as
they were. The difference is a difference of `int`s and is taken to be an `int`
itself. -/
theorem replenishFromBackup_transfers (fuel : Nat) (st : Stations) (h : Heap (Option Nat))
    (l : LinkedList) (hreg : Registry st h l) (hf : l.getLength ≤ fuel)
    (pool : List Ingredient) (sname iname : String) (q : Int)
    (hdiff : ∀ e ∈ pool, e.name = iname → e.quantity ≥ q → InInt (e.quantity - q)) :
    ∃ st' pool' r,
      replenishStationIngredientFromBackup fuel st h l pool sname iname q = .ok (st', pool', r) ∧
      (r = true ↔ (Named st h l sname ∧ ∃ e ∈ pool, e.name = iname ∧ e.quantity ≥ q)) ∧
      (r = true → ∃ a s s' pre e post,
        findStation fuel st h l sname = .ok (some a) ∧ st[a]? = some s ∧ st' = st.set a s' ∧
        s'.name_ = s.name_ ∧ s'.dishes_ = s.dishes_ ∧
        stockOf s'.ingredients_stock_ iname = stockOf s.ingredients_stock_ iname + q ∧
        (∀ n, n ≠ iname → stockOf s'.ingredients_stock_ n = stockOf s.ingredients_stock_ n) ∧
        pool = pre ++ e :: post ∧ (∀ d ∈ pre, ¬ (d.name = iname ∧ d.quantity ≥ q)) ∧
        e.name = iname ∧ e.quantity ≥ q ∧
        pool' = pre ++ (if e.quantity - q ≤ 0 then post
          else { e with quantity := e.quantity - q } :: post)) := by
  rcases replenish_cases hreg hf pool sname iname q with
    ⟨hnot, hrun⟩ | ⟨_, hall, hrun⟩ | ⟨hnamed, a, s, pre, e, post, hfind, hsa, hsplit, hpre, he, hrun⟩
  · refine ⟨st, pool, false, hrun, ⟨fun hr => (by cases hr), fun hn => absurd hn.1 hnot⟩,
      fun hr => (by cases hr)⟩
  · refine ⟨st, pool, false, hrun, ⟨fun hr => (by cases hr), ?_⟩, fun hr => (by cases hr)⟩
    rintro ⟨_, e, hem, hen⟩
    exact absurd hen (hall e hem)
  · have hmem : e ∈ pool := by
      rw [hsplit]; exact List.mem_append_right _ (List.mem_cons_self _ _)
    rw [wrapInt_of_inInt (hdiff e hmem he.1 he.2)] at hrun
    refine ⟨_, _, true, hrun, ⟨fun _ => ⟨hnamed, e, hmem, he⟩, fun _ => rfl⟩, fun _ => ?_⟩
    · refine ⟨a, s, s.replenishStationIngredients ⟨iname, q, 0⟩, pre, e, post, hfind, hsa, rfl,
        rfl, rfl, ?_, ?_, hsplit, hpre, he.1, he.2, rfl⟩
      · simp [KitchenStation.replenishStationIngredients, stockOf_mergeStock]
      · intro n hn
        simp [KitchenStation.replenishStationIngredients, stockOf_mergeStock, hn.symm]

theorem replenishFromBackup_transfers_witness :
    Registry demoKitchen demoKitchenHeap demoKitchenList ∧
    demoKitchenList.getLength ≤ ((2 : Nat) : Int) ∧
    (∀ e ∈ demoPool, e.name = "Beef" → e.quantity ≥ 5 → InInt (e.quantity - 5)) ∧
    (∃ st', replenishStationIngredientFromBackup 2 demoKitchen demoKitchenHeap demoKitchenList
        demoPool "Grill" "Beef" 5 = .ok (st', [⟨"Salt", 1, 0⟩], true) ∧
      st'.map KitchenStation.ingredients_stock_ =
        [[⟨"Beef", 8, 0⟩], [⟨"Flour", 2, 0⟩, ⟨"Beef", 1, 0⟩]]) ∧
    ∃ st' pool' r,
      replenishStationIngredientFromBackup 2 demoKitchen demoKitchenHeap demoKitchenList
        demoPool "Grill" "Beef" 5 = .ok (st', pool', r) ∧
      (r = true ↔ (Named demoKitchen demoKitchenHeap demoKitchenList "Grill" ∧
        ∃ e ∈ demoPool, e.name = "Beef" ∧ e.quantity ≥ 5)) ∧
      (r = true → ∃ a s s' pre e post,
        findStation 2 demoKitchen demoKitchenHeap demoKitchenList "Grill" = .ok (some a) ∧
        demoKitchen[a]? = some s ∧ st' = demoKitchen.set a s' ∧
        s'.name_ = s.name_ ∧ s'.dishes_ = s.dishes_ ∧
        stockOf s'.ingredients_stock_ "Beef" = stockOf s.ingredients_stock_ "Beef" + 5 ∧
        (∀ n, n ≠ "Beef" → stockOf s'.ingredients_stock_ n = stockOf s.ingredients_stock_ n) ∧
        demoPool = pre ++ e :: post ∧ (∀ d ∈ pre, ¬ (d.name = "Beef" ∧ d.quantity ≥ 5)) ∧
        e.name = "Beef" ∧ e.quantity ≥ 5 ∧
        pool' = pre ++ (if e.quantity - 5 ≤ 0 then post
          else { e with quantity := e.quantity - 5 } :: post)) :=
  have hdiff : ∀ e ∈ demoPool, e.name = "Beef" → e.quantity ≥ 5 → InInt (e.quantity - 5) := by
    intro e he _ _
    simp only [demoPool, List.mem_cons, List.mem_singleton, List.not_mem_nil, or_false] at he
    rcases he with rfl | rfl <;> exact ⟨by decide, by decide⟩
  ⟨demo_kitchen, by decide, hdiff, ⟨_, rfl, rfl⟩,
    replenishFromBackup_transfers 2 demoKitchen demoKitchenHeap demoKitchenList demo_kitchen
      (by decide) demoPool "Grill" "Beef" 5 hdiff⟩

/-- C18: on a registry in good order, whenever
`replenishStationIngredientFromBackup` returns false, which it does exactly
when no station of that name is registered or no pool entry has the name with
at least the requested quantity, the backup pool and every station record are
exactly as before the call. -/
theorem replenishFromBackup_failure_keeps_state (fuel : Nat) (st : Stations)
    (h : Heap (Option Nat)) (l : LinkedList) (hreg : Registry st h l) (hf : l.getLength ≤ fuel)
    (pool : List Ingredient) (sname iname : String) (q : Int) :
    ∃ st' pool' r,
      replenishStationIngredientFromBackup fuel st h l pool sname iname q = .ok (st', pool', r) ∧
      (r = false ↔
        (¬ Named st h l sname ∨ ∀ e ∈ pool, ¬ (e.name = iname ∧ e.quantity ≥ q))) ∧
      (r = false → st' = st ∧ pool' = pool) := by
  rcases replenish_cases hreg hf pool sname iname q with
    ⟨hnot, hrun⟩ | ⟨_, hall, hrun⟩ | ⟨hnamed, a, s, pre, e, post, _, _, hsplit, _, he, hrun⟩
  · exact ⟨st, pool, false, hrun, ⟨fun _ => Or.inl hnot, fun _ => rfl⟩, fun _ => ⟨rfl, rfl⟩⟩
  · exact ⟨st, pool, false, hrun, ⟨fun _ => Or.inr hall, fun _ => rfl⟩, fun _ => ⟨rfl, rfl⟩⟩
  · refine ⟨_, _, true, hrun, ⟨fun hr => (by cases hr), ?_⟩, fun hr => (by cases hr)⟩
    rintro (hnot | hall)
    · exact absurd hnamed hnot
    · exact absurd he (hall e (by
        rw [hsplit]; exact List.mem_append_right _ (List.mem_cons_self _ _)))

theorem replenishFromBackup_failure_keeps_state_witness :
    Registry demoKitchen demoKitchenHeap demoKitchenList ∧
    demoKitchenList.getLength ≤ ((2 : Nat) : Int) ∧
    replenishStationIngredientFromBackup 2 demoKitchen demoKitchenHeap demoKitchenList
      demoPool "Grill" "Beef" 6 = .ok (demoKitchen, demoPool, false) ∧
    ∃ st' pool' r,
      replenishStationIngredientFromBackup 2 demoKitchen demoKitchenHeap demoKitchenList
        demoPool "Grill" "Beef" 6 = .ok (st', pool', r) ∧
      (r = false ↔
        (¬ Named demoKitchen demoKitchenHeap demoKitchenList "Grill" ∨
          ∀ e ∈ demoPool, ¬ (e.name = "Beef" ∧ e.quantity ≥ 6))) ∧
      (r = false → st' = demoKitchen ∧ pool' = demoPool) :=
  ⟨demo_kitchen, by decide, rfl,
    replenishFromBackup_failure_keeps_state 2 demoKitchen demoKitchenHeap demoKitchenList
      demo_kitchen (by decide) demoPool "Grill" "Beef" 6⟩

theorem findDish_total (ds : Dishes) (name : String) :
    ∀ assigned : List (Option Nat), (∀ d ∈ assigned, ∃ dish, Dish.read ds d = .ok dish) →
      ∃ r, KitchenStation.findDish ds name assigned = .ok r := by
  intro assigned
  induction assigned with
  | nil => intro _; exact ⟨none, rfl⟩
  | cons d rest ih =>
    intro hv
    obtain ⟨dish, hd⟩ := hv d (List.mem_cons_self _ _)
    obtain ⟨r, hr⟩ := ih fun x hx => hv x (List.mem_cons_of_mem _ hx)
    by_cases hn : dish.name_ = name
    · exact ⟨some dish, by simp [KitchenStation.findDish, hd, ok_bind, hn, pure_eq_ok]⟩
    · exact ⟨r, by simp [KitchenStation.findDish, hd, ok_bind, hn, hr]⟩

/-- A station whose dish pointers are in order answers `canCompleteOrder`. -/
theorem canCompleteOrder_total (ds : Dishes) (s : KitchenStation) (name : String)
    (hv : ∀ d ∈ s.dishes_, ∃ dish, Dish.read ds d = .ok dish) :
    ∃ can, s.canCompleteOrder ds name = .ok can := by
  obtain ⟨r, hr⟩ := findDish_total ds name s.dishes_ hv
  cases r with
  | none => exact ⟨false, by simp [KitchenStation.canCompleteOrder, hr, ok_bind, pure_eq_ok]⟩
  | some dish =>
    exact ⟨dish.ingredients_.all fun i => KitchenStation.hasEnough s.ingredients_stock_ i,
      by simp only [KitchenStation.canCompleteOrder, hr, ok_bind, pure_eq_ok]⟩

/-- A station that can complete a dish prepares it: only its stock changes. -/
theorem prepareDish_of_can {ds : Dishes} {s : KitchenStation} {name : String}
    (hcan : s.canCompleteOrder ds name = .ok true) :
    ∃ s', s.prepareDish ds name = .ok (s', true) ∧ s'.name_ = s.name_ ∧
      s'.dishes_ = s.dishes_ := by
  rcases hfd : KitchenStation.findDish ds name s.dishes_ with e | r
  · simp [KitchenStation.canCompleteOrder, hfd] at hcan
    cases hcan
  · cases r with
    | none =>
      simp [KitchenStation.canCompleteOrder, hfd, ok_bind, pure_eq_ok] at hcan
    | some dish =>
      exact ⟨{ s with ingredients_stock_ :=
          KitchenStation.deductAll s.ingredients_stock_ dish.ingredients_ },
        by simp only [KitchenStation.prepareDish, hcan, ok_bind, if_true, hfd, pure_eq_ok],
        rfl, rfl⟩

/-- A station that cannot complete a dish is left as it is by `prepareDish`. -/
theorem prepareDish_of_cannot {ds : Dishes} {s : KitchenStation} {name : String}
    (hcan : s.canCompleteOrder ds name = .ok false) :
    s.prepareDish ds name = .ok (s, false) := by
  simp [KitchenStation.prepareDish, hcan, ok_bind, pure_eq_ok]

/-- C14: on a registry in good order, when no station is called `a` or no
station is called `b`, `mergeStations(a, b)` returns false and hands back the
station records, the registry nodes, its head and its count exactly as they
were. -/
theorem mergeStations_absent_name (fuel : Nat) (ds : Dishes) (st : Stations)
    (h : Heap (Option Nat)) (l : LinkedList) (hreg : Registry st h l) (hf : l.getLength ≤ fuel)
    (a b : String) (habs : ¬ Named st h l a ∨ ¬ Named st h l b) :
    mergeStations fuel ds st h l a b = .ok (st, h, l, false) := by
  obtain ⟨cs, hc, hv⟩ := hreg
  have hf' : cs.length ≤ fuel := by
    have : l.getLength = cs.length := hc.2
    rw [this] at hf; exact_mod_cast hf
  have hfound : ∀ n : String, ∃ r, findStation fuel st h l n = .ok r ∧
      (¬ Named st h l n → r = none) := by
    intro n
    rcases findStation_cases hc hv n hf' with
      ⟨_, hfind⟩ | ⟨pre, c, post, p, s, hsplit, _, hcp, hsp, hs, hfind⟩
    · exact ⟨none, hfind, fun _ => rfl⟩
    · refine ⟨some p, hfind, fun hn => absurd ((named_iff hc n).mpr ⟨c, ?_, ?_⟩) hn⟩
      · rw [hsplit]; exact List.mem_append_right _ (List.mem_cons_self _ _)
      · rw [hcp, getName_live hsp, hs]
  obtain ⟨ra, hra, hna⟩ := hfound a
  obtain ⟨rb, hrb, hnb⟩ := hfound b
  have hcond : ¬ (ra ≠ none ∧ rb ≠ none) := by
    rcases habs with ha | hb
    · exact fun hh => hh.1 (hna ha)
    · exact fun hh => hh.2 (hnb hb)
  simp only [mergeStations, hra, hrb, ok_bind, if_neg hcond, pure_eq_ok]

theorem mergeStations_absent_name_witness :
    Registry demoStations demoRegistryHeap demoRegistry ∧
    demoRegistry.getLength ≤ ((3 : Nat) : Int) ∧
    (¬ Named demoStations demoRegistryHeap demoRegistry "Grill" ∨
      ¬ Named demoStations demoRegistryHeap demoRegistry "Fryer") ∧
    mergeStations 3 demoDishes demoStations demoRegistryHeap demoRegistry "Grill" "Fryer" =
      .ok (demoStations, demoRegistryHeap, demoRegistry, false) :=
  ⟨demo_registry, by decide, Or.inr demo_no_fryer,
    mergeStations_absent_name 3 demoDishes demoStations demoRegistryHeap demoRegistry
      demo_registry (by decide) "Grill" "Fryer" (Or.inr demo_no_fryer)⟩

theorem DishesOk.of_get {ds : Dishes} {st : Stations} (hok : DishesOk ds st) {a : Nat}
    {s : KitchenStation} (hs : st[a]? = some s) :
    ∀ d ∈ s.dishes_, ∃ dish, Dish.read ds d = .ok dish :=
  hok s (List.getElem?_mem hs)

/-- C15: on a registry in good order `prepareDishAtStation` returns false and
leaves every station record as it was when no station has the name or when
the first station of that name cannot complete the dish; it returns true only
when that station could complete the dish before the call, and then that
station's record is the only one that changed, and only in its stock. -/
theorem prepareDishAtStation_guarded (fuel : Nat) (ds : Dishes) (st : Stations)
    (h : Heap (Option Nat)) (l : LinkedList) (hreg : Registry st h l) (hok : DishesOk ds st)
    (hf : l.getLength ≤ fuel) (sname dname : String) :
    ∃ st' r, prepareDishAtStation fuel ds st h l sname dname = .ok (st', r) ∧
      ((¬ Named st h l sname ∧ r = false ∧ st' = st) ∨
       (Named st h l sname ∧ ∃ a s can, findStation fuel st h l sname = .ok (some a) ∧
          st[a]? = some s ∧ s.canCompleteOrder ds dname = .ok can ∧ r = can ∧
          (can = false → st' = st) ∧
          (can = true → ∃ s', st' = st.set a s' ∧ s'.name_ = s.name_ ∧
            s'.dishes_ = s.dishes_))) := by
  obtain ⟨cs, hc, hv⟩ := hreg
  have hf' : cs.length ≤ fuel := by
    have : l.getLength = cs.length := hc.2
    rw [this] at hf; exact_mod_cast hf
  rcases findStation_cases hc hv sname hf' with
    ⟨hall, hfind⟩ | ⟨pre, c, post, a, s, hsplit, _, hca, hsa, hs, hfind⟩
  · refine ⟨st, false, ?_, Or.inl ⟨fun hn => ?_, rfl, rfl⟩⟩
    · simp [prepareDishAtStation, hfind, ok_bind, pure_eq_ok]
    · obtain ⟨c, hcm, hcn⟩ := (named_iff hc sname).mp hn
      exact hall c hcm hcn
  · have hnamed : Named st h l sname := by
      refine (named_iff hc sname).mpr ⟨c, ?_, ?_⟩
      · rw [hsplit]; exact List.mem_append_right _ (List.mem_cons_self _ _)
      · rw [hca, getName_live hsa, hs]
    obtain ⟨can, hcan⟩ := canCompleteOrder_total ds s dname (hok.of_get hsa)
    cases can with
    | false =>
      refine ⟨st, false, ?_, Or.inr ⟨hnamed, a, s, false, hfind, hsa, hcan, rfl, fun _ => rfl,
        fun hh => (by cases hh)⟩⟩
      simp [prepareDishAtStation, hfind, ok_bind, readStation_live hsa, hcan, pure_eq_ok]
    | true =>
      obtain ⟨s', hprep, hn', hd'⟩ := prepareDish_of_can hcan
      refine ⟨st.set a s', true, ?_, Or.inr ⟨hnamed, a, s, true, hfind, hsa, hcan, rfl,
        fun hh => (by cases hh), fun _ => ⟨s', rfl, hn', hd'⟩⟩⟩
      simp [prepareDishAtStation, hfind, ok_bind, readStation_live hsa, hcan, hprep,
        writeStation, pure_eq_ok]

theorem prepareDishAtStation_guarded_witness :
    Registry demoKitchen demoKitchenHeap demoKitchenList ∧ DishesOk demoDishes demoKitchen ∧
    demoKitchenList.getLength ≤ ((2 : Nat) : Int) ∧
    (∃ st', prepareDishAtStation 2 demoDishes demoKitchen demoKitchenHeap demoKitchenList
        "Grill" "Steak" = .ok (st', true) ∧
      (st'.map KitchenStation.ingredients_stock_ =
        [[⟨"Beef", 1, 0⟩], [⟨"Flour", 2, 0⟩, ⟨"Beef", 1, 0⟩]])) ∧
    prepareDishAtStation 2 demoDishes demoKitchen demoKitchenHeap demoKitchenList
        "Grill" "Pie" = .ok (demoKitchen, false) ∧
    ∃ st' r, prepareDishAtStation 2 demoDishes demoKitchen demoKitchenHeap demoKitchenList
        "Grill" "Steak" = .ok (st', r) ∧
      ((¬ Named demoKitchen demoKitchenHeap demoKitchenList "Grill" ∧ r = false ∧
          st' = demoKitchen) ∨
       (Named demoKitchen demoKitchenHeap demoKitchenList "Grill" ∧ ∃ a s can,
          findStation 2 demoKitchen demoKitchenHeap demoKitchenList "Grill" = .ok (some a) ∧
          demoKitchen[a]? = some s ∧ s.canCompleteOrder demoDishes "Steak" = .ok can ∧ r = can ∧
          (can = false → st' = demoKitchen) ∧
          (can = true → ∃ s', st' = demoKitchen.set a s' ∧ s'.name_ = s.name_ ∧
            s'.dishes_ = s.dishes_))) :=
  ⟨demo_kitchen, demo_kitchen_dishes, by decide, ⟨_, rfl, rfl⟩, rfl,
    prepareDishAtStation_guarded 2 demoDishes demoKitchen demoKitchenHeap demoKitchenList
      demo_kitchen demo_kitchen_dishes (by decide) "Grill" "Steak"⟩

theorem drop_cons_inv {α : Type} {xs : List α} {i : Nat} {d : α} {rest : List α}
    (e : xs.drop i = d :: rest) : ∃ hi : i < xs.length, xs[i] = d ∧ xs.drop (i + 1) = rest := by
  have hi : i < xs.length := by
    by_contra hn
    rw [List.drop_of_length_le (by omega)] at e
    cases e
  rw [List.drop_eq_getElem_cons hi] at e
  exact ⟨hi, (List.cons.inj e).1, (List.cons.inj e).2⟩

/-- Reading the registry cell by cell from index `i`. -/
theorem getEntry_of_drop {T : Type} {h : Heap T} {l : LinkedList} {cs : List (Nat × T)}
    (hc : Chain h l cs) {i : Nat} {d : Nat × T} {rest : List (Nat × T)}
    (e : cs.drop i = d :: rest) :
    getEntry h l (i : Int) = .ok d.2 ∧ cs.drop (i + 1) = rest := by
  obtain ⟨hi, hd, hrest⟩ := drop_cons_inv e
  exact ⟨hd ▸ getEntry_chain hc i hi, hrest⟩

theorem prepareNextDishLoop_miss {ds : Dishes} {st : Stations} {h : Heap (Option Nat)}
    {l : LinkedList} {cs : List (Nat × Option Nat)} (hc : Chain h l cs) {dish : Option Nat}
    {name : String} (hname : Dish.getName ds dish = .ok name) :
    ∀ (suffix : List (Nat × Option Nat)) (i : Nat), cs.drop i = suffix →
      (∀ d ∈ suffix, Completes ds st name false d.2) →
      prepareNextDishLoop ds h l dish suffix.length (i : Int) st = .ok (st, false) := by
  intro suffix
  induction suffix with
  | nil => intro i _ _; rfl
  | cons d rest ih =>
    intro i hdrop hmiss
    obtain ⟨hget, hrest⟩ := getEntry_of_drop hc hdrop
    obtain ⟨a, s, hda, hsa, hcan⟩ := hmiss d (List.mem_cons_self _ _)
    rw [hda] at hget
    simp only [List.length_cons, prepareNextDishLoop, hget, ok_bind, readStation_live hsa, hname,
      hcan]
    have := ih (i + 1) hrest fun x hx => hmiss x (List.mem_cons_of_mem _ hx)
    simpa using this

theorem prepareNextDishLoop_hit {ds : Dishes} {st : Stations} {h : Heap (Option Nat)}
    {l : LinkedList} {cs : List (Nat × Option Nat)} (hc : Chain h l cs) {dish : Option Nat}
    {name : String} (hname : Dish.getName ds dish = .ok name) {c : Nat × Option Nat}
    {post : List (Nat × Option Nat)} {a : Nat} {s s' : KitchenStation} (hca : c.2 = some a)
    (hsa : st[a]? = some s) (hcan : s.canCompleteOrder ds name = .ok true)
    (hprep : s.prepareDish ds name = .ok (s', true)) :
    ∀ (pre : List (Nat × Option Nat)) (i : Nat), cs.drop i = pre ++ c :: post →
      (∀ d ∈ pre, Completes ds st name false d.2) →
      prepareNextDishLoop ds h l dish (pre ++ c :: post).length (i : Int) st =
        .ok (st.set a s', true) := by
  intro pre
  induction pre with
  | nil =>
    intro i hdrop _
    obtain ⟨hget, _⟩ := getEntry_of_drop hc hdrop
    rw [hca] at hget
    simp [prepareNextDishLoop, hget, ok_bind, readStation_live hsa, hname, hcan, hprep,
      writeStation, pure_eq_ok]
  | cons d rest ih =>
    intro i hdrop hmiss
    obtain ⟨hget, hrest⟩ := getEntry_of_drop hc hdrop
    obtain ⟨b, t, hdb, htb, hcannot⟩ := hmiss d (List.mem_cons_self _ _)
    rw [hdb] at hget
    simp only [List.cons_append, List.length_cons, prepareNextDishLoop, hget, ok_bind,
      readStation_live htb, hname, hcannot]
    have := ih (i + 1) hrest fun x hx => hmiss x (List.mem_cons_of_mem _ hx)
    simpa using this

/-- C20: on a registry in good order, `prepareNextDish` on an empty queue
returns false and changes nothing; on a queue `d :: rest` it either returns
true, the first station in registry order that can complete `d` has prepared
it, its record is the only one that changed and the queue is `rest`, or it
returns false, no registered station could complete `d`, no record changed and
the queue is `rest` followed by `d`. -/
theorem prepareNextDish_first_able (ds : Dishes) (st : Stations) (h : Heap (Option Nat))
    (l : LinkedList) (hreg : Registry st h l) (hok : DishesOk ds st)
    (hsmall : l.getLength < 2 ^ 64) (d : Option Nat) (rest : List (Option Nat)) (name : String)
    (hname : Dish.getName ds d = .ok name) :
    prepareNextDish ds st h l [] = .ok (st, [], false) ∧
    ∃ st' r, prepareNextDish ds st h l (d :: rest) =
        .ok (st', if r then rest else rest ++ [d], r) ∧
      ((r = false ∧ st' = st ∧
          ∀ p, Except.ok p ∈ entries h l → Completes ds st name false p) ∨
       (r = true ∧ ∃ pre a s s' post,
          entries h l = (pre ++ some a :: post).map Except.ok ∧
          (∀ p ∈ pre, Completes ds st name false p) ∧
          st[a]? = some s ∧ s.canCompleteOrder ds name = .ok true ∧
          s.prepareDish ds name = .ok (s', true) ∧
          s'.name_ = s.name_ ∧ s'.dishes_ = s.dishes_ ∧ st' = st.set a s')) := by
  refine ⟨rfl, ?_⟩
  obtain ⟨cs, hc, hv⟩ := hreg
  have hbound : (l.getLength % 2 ^ 64).toNat = cs.length := by
    have h1 : l.getLength = cs.length := hc.2
    have h2 : (cs.length : Int) < 2 ^ 64 := by rw [← h1]; exact hsmall
    rw [h1, Int.emod_eq_of_lt (by omega) h2, Int.toNat_ofNat]
  have hcannot : ∀ c ∈ cs, ¬ Completes ds st name true c.2 → Completes ds st name false c.2 := by
    intro c hcm hnot
    obtain ⟨a, s, hca, hsa⟩ := hv c hcm
    obtain ⟨can, hcan⟩ := canCompleteOrder_total ds s name (hok.of_get hsa)
    cases can with
    | false => exact ⟨a, s, hca, hsa, hcan⟩
    | true => exact absurd ⟨a, s, hca, hsa, hcan⟩ hnot
  rcases first_split (fun c : Nat × Option Nat => Completes ds st name true c.2) cs with
    hall | ⟨pre, c, post, hsplit, hpre, a, s, hca, hsa, hcan⟩
  · have hmiss : ∀ c ∈ cs, Completes ds st name false c.2 := fun c hcm => hcannot c hcm (hall c hcm)
    have hrun := @prepareNextDishLoop_miss ds st h l cs hc d name hname cs 0 (List.drop_zero _) hmiss
    refine ⟨st, false, ?_, Or.inl ⟨rfl, rfl, ?_⟩⟩
    · simp only [prepareNextDish, hbound]
      simp only [Nat.cast_zero] at hrun
      simp [hrun, ok_bind, pure_eq_ok]
    · intro p hp
      rw [entries_chain hc] at hp
      obtain ⟨c, hcm, hcp⟩ := List.mem_map.mp hp
      cases hcp
      exact hmiss c hcm
  · obtain ⟨s', hprep, hn', hd'⟩ := prepareDish_of_can hcan
    have hmiss : ∀ x ∈ pre, Completes ds st name false x.2 := fun x hx =>
      hcannot x (by rw [hsplit]; exact List.mem_append_left _ hx) (hpre x hx)
    have hrun := @prepareNextDishLoop_hit ds st h l cs hc d name hname c post a s s' hca hsa hcan hprep
      pre 0 (by rw [List.drop_zero]; exact hsplit) hmiss
    refine ⟨st.set a s', true, ?_, Or.inr ⟨rfl, pre.map Prod.snd, a, s, s', post.map Prod.snd,
      ?_, ?_, hsa, hcan, hprep, hn', hd', rfl⟩⟩
    · simp only [prepareNextDish, hbound]
      simp only [Nat.cast_zero, ← hsplit] at hrun
      simp [hrun, ok_bind, pure_eq_ok]
    · rw [entries_chain hc, hsplit]
      simp [hca]
      rfl
    · intro p hp
      obtain ⟨x, hx, hxp⟩ := List.mem_map.mp hp
      rw [← hxp]
      exact hmiss x hx

theorem prepareNextDish_first_able_witness :
    Registry demoKitchen demoKitchenHeap demoKitchenList ∧ DishesOk demoDishes demoKitchen ∧
    demoKitchenList.getLength < 2 ^ 64 ∧ Dish.getName demoDishes (some 1) = .ok "Pie" ∧
    (∃ st', prepareNextDish demoDishes demoKitchen demoKitchenHeap demoKitchenList
        [some 1, some 0] = .ok (st', [some 0], true) ∧
      st'.map KitchenStation.ingredients_stock_ =
        [[⟨"Beef", 3, 0⟩], [⟨"Flour", 1, 0⟩, ⟨"Beef", 1, 0⟩]]) ∧
    (prepareNextDish demoDishes demoKitchen demoKitchenHeap demoKitchenList [] =
      .ok (demoKitchen, [], false) ∧
    ∃ st' r, prepareNextDish demoDishes demoKitchen demoKitchenHeap demoKitchenList
        (some 1 :: [some 0]) = .ok (st', if r then [some 0] else [some 0] ++ [some 1], r) ∧
      ((r = false ∧ st' = demoKitchen ∧
          ∀ p, Except.ok p ∈ entries demoKitchenHeap demoKitchenList →
            Completes demoDishes demoKitchen "Pie" false p) ∨
       (r = true ∧ ∃ pre a s s' post,
          entries demoKitchenHeap demoKitchenList = (pre ++ some a :: post).map Except.ok ∧
          (∀ p ∈ pre, Completes demoDishes demoKitchen "Pie" false p) ∧
          demoKitchen[a]? = some s ∧ s.canCompleteOrder demoDishes "Pie" = .ok true ∧
          s.prepareDish demoDishes "Pie" = .ok (s', true) ∧
          s'.name_ = s.name_ ∧ s'.dishes_ = s.dishes_ ∧ st' = demoKitchen.set a s'))) :=
  ⟨demo_kitchen, demo_kitchen_dishes, by decide, rfl, ⟨_, rfl, rfl⟩,
    prepareNextDish_first_able demoDishes demoKitchen demoKitchenHeap demoKitchenList
      demo_kitchen demo_kitchen_dishes (by decide) (some 1) [some 0] "Pie" rfl⟩

theorem removeStationLoop_miss {st : Stations} {h : Heap (Option Nat)} {l : LinkedList}
    {cs : List (Nat × Option Nat)} (hc : Chain h l cs) (hv : Listed st cs) (name : String) :
    ∀ (suffix : List (Nat × Option Nat)) (i : Nat), cs.drop i = suffix →
      (∀ d ∈ suffix, getName st d.2 ≠ .ok name) →
      removeStationLoop st h l name suffix.length (i : Int) = .ok (h, l, false) := by
  intro suffix
  induction suffix with
  | nil => intro i _ _; rfl
  | cons d rest ih =>
    intro i hdrop hmiss
    obtain ⟨hget, hrest⟩ := getEntry_of_drop hc hdrop
    have hdm : d ∈ cs := List.mem_of_mem_drop (by rw [hdrop]; exact List.mem_cons_self _ _)
    obtain ⟨nm, hnm⟩ := hv.name_of hdm
    have hne : nm ≠ name := by
      intro e; rw [e] at hnm; exact hmiss d (List.mem_cons_self _ _) hnm
    simp only [List.length_cons, removeStationLoop, hget, ok_bind, hnm, hne, if_false]
    have := ih (i + 1) hrest fun x hx => hmiss x (List.mem_cons_of_mem _ hx)
    simpa using this

theorem removeStationLoop_hit {st : Stations} {h : Heap (Option Nat)} {l : LinkedList}
    {cs : List (Nat × Option Nat)} (hc : Chain h l cs) (hv : Listed st cs) (name : String)
    (c : Nat × Option Nat) (post : List (Nat × Option Nat))
    (hname : getName st c.2 = .ok name) :
    ∀ (pre : List (Nat × Option Nat)) (i : Nat), cs.drop i = pre ++ c :: post →
      (∀ d ∈ pre, getName st d.2 ≠ .ok name) →
      removeStationLoop st h l name (pre ++ c :: post).length (i : Int) =
        LinkedList.remove h l ((i + pre.length : Nat) : Int) := by
  intro pre
  induction pre with
  | nil =>
    intro i hdrop _
    obtain ⟨hget, _⟩ := getEntry_of_drop hc hdrop
    simp [removeStationLoop, hget, ok_bind, hname]
  | cons d rest ih =>
    intro i hdrop hmiss
    obtain ⟨hget, hrest⟩ := getEntry_of_drop hc hdrop
    have hdm : d ∈ cs := List.mem_of_mem_drop (by
      rw [hdrop]; exact List.mem_append_left _ (List.mem_cons_self _ _))
    obtain ⟨nm, hnm⟩ := hv.name_of hdm
    have hne : nm ≠ name := by
      intro e; rw [e] at hnm; exact hmiss d (List.mem_cons_self _ _) hnm
    simp only [List.cons_append, List.length_cons, removeStationLoop, hget, ok_bind, hnm, hne,
      if_false]
    have := ih (i + 1) hrest fun x hx => hmiss x (List.mem_cons_of_mem _ hx)
    have e : i + 1 + rest.length = i + (rest.length + 1) := by omega
    rw [e] at this
    simpa using this

theorem eraseIdx_split {α : Type} (pre : List α) (c : α) (post : List α) :
    (pre ++ c :: post).eraseIdx pre.length = pre ++ post := by
  induction pre with
  | nil => rfl
  | cons d pre ih => simp [List.eraseIdx_cons_succ, ih]

/-- What `removeStation` does on a registry in good order: nothing when no
station has the name, else it unlinks the first cell whose station has it. -/
theorem removeStation_cases {st : Stations} {h : Heap (Option Nat)} {l : LinkedList}
    {cs : List (Nat × Option Nat)} (hc : Chain h l cs) (hv : Listed st cs) (name : String) :
    ((∀ c ∈ cs, getName st c.2 ≠ .ok name) ∧ removeStation st h l name = .ok (h, l, false)) ∨
    ∃ pre c post h' l', cs = pre ++ c :: post ∧ (∀ d ∈ pre, getName st d.2 ≠ .ok name) ∧
      getName st c.2 = .ok name ∧ removeStation st h l name = .ok (h', l', true) ∧
      Chain h' l' (pre ++ post) := by
  have hcount : l.item_count_.toNat = cs.length := by simp [hc.2]
  rcases first_split (fun c : Nat × Option Nat => getName st c.2 = .ok name) cs with
    hall | ⟨pre, c, post, hsplit, hpre, hname⟩
  · left
    refine ⟨hall, ?_⟩
    have := removeStationLoop_miss hc hv name cs 0 (List.drop_zero _) hall
    simpa [removeStation, hcount] using this
  · right
    have hrun := removeStationLoop_hit hc hv name c post hname pre 0
      (by rw [List.drop_zero]; exact hsplit) hpre
    have hk : pre.length < cs.length := by rw [hsplit]; simp
    obtain ⟨h', l', hrem, hc', _⟩ := remove_chain hc pre.length hk
    refine ⟨pre, c, post, h', l', hsplit, hpre, hname, ?_, ?_⟩
    · rw [removeStation, hcount, hsplit]
      simp only [Nat.cast_zero, Nat.zero_add] at hrun
      rw [hrun, hrem]
    · have e : cs.eraseIdx pre.length = pre ++ post := by rw [hsplit]; exact eraseIdx_split pre c post
      rw [← e]; exact hc'

/-- C11: on a registry in good order `removeStation(name)` returns true iff
some registered station has that name; when it returns true the registry is
the old one with exactly the first station of that name taken out, the others
in their old order; when it returns false the registry nodes, head and count
are exactly as before. -/
theorem removeStation_first_match (st : Stations) (h : Heap (Option Nat)) (l : LinkedList)
    (hreg : Registry st h l) (name : String) :
    ∃ h' l' r, removeStation st h l name = .ok (h', l', r) ∧
      (r = true ↔ Named st h l name) ∧
      (r = true → ∃ pre x post, entries h l = (pre ++ x :: post).map Except.ok ∧
        (∀ p ∈ pre, getName st p ≠ .ok name) ∧ getName st x = .ok name ∧
        entries h' l' = (pre ++ post).map Except.ok) ∧
      (r = false → h' = h ∧ l' = l) := by
  obtain ⟨cs, hc, hv⟩ := hreg
  rcases removeStation_cases hc hv name with
    ⟨hall, hrun⟩ | ⟨pre, c, post, h', l', hsplit, hpre, hname, hrun, hc'⟩
  · refine ⟨h, l, false, hrun, ⟨fun hr => (by cases hr), fun hn => ?_⟩,
      fun hr => (by cases hr), fun _ => ⟨rfl, rfl⟩⟩
    obtain ⟨c, hcm, hcn⟩ := (named_iff hc name).mp hn
    exact absurd hcn (hall c hcm)
  · refine ⟨h', l', true, hrun, ⟨fun _ => ?_, fun _ => rfl⟩, fun _ => ?_, fun hr => (by cases hr)⟩
    · refine (named_iff hc name).mpr ⟨c, ?_, hname⟩
      rw [hsplit]; exact List.mem_append_right _ (List.mem_cons_self _ _)
    · refine ⟨pre.map Prod.snd, c.2, post.map Prod.snd, ?_, ?_, hname, ?_⟩
      · rw [entries_chain hc, hsplit]; simp; rfl
      · intro p hp
        obtain ⟨x, hx, hxp⟩ := List.mem_map.mp hp
        rw [← hxp]; exact hpre x hx
      · rw [entries_chain hc']; simp; rfl

theorem removeStation_first_match_witness :
    Registry demoStations demoRegistryHeap demoRegistry ∧
    (∃ h' l', removeStation demoStations demoRegistryHeap demoRegistry "Oven" =
        .ok (h', l', true) ∧ entries h' l' = [.ok (some 0), .ok (some 2)]) ∧
    ∃ h' l' r, removeStation demoStations demoRegistryHeap demoRegistry "Oven" =
        .ok (h', l', r) ∧
      (r = true ↔ Named demoStations demoRegistryHeap demoRegistry "Oven") ∧
      (r = true → ∃ pre x post,
        entries demoRegistryHeap demoRegistry = (pre ++ x :: post).map Except.ok ∧
        (∀ p ∈ pre, getName demoStations p ≠ .ok "Oven") ∧ getName demoStations x = .ok "Oven" ∧
        entries h' l' = (pre ++ post).map Except.ok) ∧
      (r = false → h' = demoRegistryHeap ∧ l' = demoRegistry) :=
  ⟨demo_registry, ⟨_, _, rfl, rfl⟩,
    removeStation_first_match demoStations demoRegistryHeap demoRegistry demo_registry "Oven"⟩

/-- `getStationIndex` counts the stations passed before the first one with
the wanted name. -/
theorem getStationIndexLoop_hit (st : Stations) (h : Heap (Option Nat)) (name : String)
    (c : Nat × Option Nat) :
    ∀ (pre : List (Nat × Option Nat)) (fuel : Nat) (p q : Option Nat) (index : Int),
      Seg h p (pre ++ [c]) q → Listed st pre → (∀ d ∈ pre, getName st d.2 ≠ .ok name) →
      getName st c.2 = .ok name → pre.length < fuel →
      getStationIndexLoop st h name fuel p index = .ok (index + pre.length) := by
  intro pre
  induction pre with
  | nil =>
    intro fuel p q index hs _ _ hc hf
    obtain ⟨hp, nx, hcell, _⟩ := hs
    subst hp
    obtain ⟨fuel, rfl⟩ : ∃ f, fuel = f + 1 := ⟨fuel - 1, by simp at hf; omega⟩
    simp [getStationIndexLoop, getItem_live hcell, hc, ok_bind, pure_eq_ok]
  | cons d pre ih =>
    intro fuel p q index hs hv hmiss hc hf
    obtain ⟨hp, nx, hcell, ht⟩ := hs
    subst hp
    obtain ⟨fuel, rfl⟩ : ∃ f, fuel = f + 1 := ⟨fuel - 1, by simp at hf; omega⟩
    obtain ⟨nm, hnm⟩ := hv.name_of (List.mem_cons_self _ _)
    have hne : nm ≠ name := by
      intro e; rw [e] at hnm; exact hmiss d (List.mem_cons_self _ _) hnm
    simp only [getStationIndexLoop, getItem_live hcell, hnm, ok_bind, hne, if_false,
      getNext_live hcell]
    rw [ih fuel nx q (index + 1) ht (fun e he => hv e (List.mem_cons_of_mem _ he))
      (fun e he => hmiss e (List.mem_cons_of_mem _ he)) hc (by simpa using hf)]
    simp only [List.length_cons]
    push_cast
    congr 1
    ring

/-- The scan of `moveStationToFront` reaches the first station with the wanted
name and then removes the cell `getStationIndex` reports and re-inserts the
station at the front. -/
theorem moveStationToFrontLoop_hit (st : Stations) (h : Heap (Option Nat)) (l : LinkedList)
    (name : String) (fuel' : Nat) (c : Nat × Option Nat) :
    ∀ (pre : List (Nat × Option Nat)) (fuel : Nat) (p q : Option Nat),
      Seg h p (pre ++ [c]) q → Listed st pre → (∀ d ∈ pre, getName st d.2 ≠ .ok name) →
      getName st c.2 = .ok name → pre.length < fuel →
      moveStationToFrontLoop st h l name fuel' fuel p =
        (do
          let pos ← getStationIndex fuel' st h l name
          let (h1, l1, _) ← LinkedList.remove h l pos
          let (h2, l2, _) ← LinkedList.insert h1 l1 0 c.2
          pure (h2, l2, true)) := by
  intro pre
  induction pre with
  | nil =>
    intro fuel p q hs _ _ hc hf
    obtain ⟨hp, nx, hcell, _⟩ := hs
    subst hp
    obtain ⟨fuel, rfl⟩ : ∃ f, fuel = f + 1 := ⟨fuel - 1, by simp at hf; omega⟩
    simp only [moveStationToFrontLoop, getItem_live hcell, hc, ok_bind, if_true]
  | cons d pre ih =>
    intro fuel p q hs hv hmiss hc hf
    obtain ⟨hp, nx, hcell, ht⟩ := hs
    subst hp
    obtain ⟨fuel, rfl⟩ : ∃ f, fuel = f + 1 := ⟨fuel - 1, by simp at hf; omega⟩
    obtain ⟨nm, hnm⟩ := hv.name_of (List.mem_cons_self _ _)
    have hne : nm ≠ name := by
      intro e; rw [e] at hnm; exact hmiss d (List.mem_cons_self _ _) hnm
    simp only [moveStationToFrontLoop, getItem_live hcell, hnm, ok_bind, hne, if_false,
      getNext_live hcell]
    exact ih fuel nx q ht (fun e he => hv e (List.mem_cons_of_mem _ he))
      (fun e he => hmiss e (List.mem_cons_of_mem _ he)) hc (by simpa using hf)

/-- What `moveStationToFront` does on a registry in good order. -/
theorem moveStationToFront_cases {st : Stations} {h : Heap (Option Nat)} {l : LinkedList}
    {cs : List (Nat × Option Nat)} (hc : Chain h l cs) (hv : Listed st cs) (name : String)
    {fuel : Nat} (hf : cs.length ≤ fuel) :
    ((∀ c ∈ cs, getName st c.2 ≠ .ok name) ∧
      moveStationToFront fuel st h l name = .ok (h, l, false)) ∨
    (∃ c post, cs = c :: post ∧ getName st c.2 = .ok name ∧
      moveStationToFront fuel st h l name = .ok (h, l, true)) ∨
    (∃ d pre c post h' l' n, cs = (d :: pre) ++ c :: post ∧
      (∀ x ∈ d :: pre, getName st x.2 ≠ .ok name) ∧ getName st c.2 = .ok name ∧
      moveStationToFront fuel st h l name = .ok (h', l', true) ∧
      Chain h' l' ((n, c.2) :: (d :: pre) ++ post)) := by
  rcases first_split (fun c : Nat × Option Nat => getName st c.2 = .ok name) cs with
    hall | ⟨pre, c, post, hsplit, hpre, hname⟩
  · left
    refine ⟨hall, ?_⟩
    simp [moveStationToFront, findStation_miss hc hv hall hf, ok_bind, pure_eq_ok]
  · right
    subst hsplit
    have hfind := findStation_hit hc hv hpre hname hf
    obtain ⟨a, s, hca, hsa⟩ := hv c (List.mem_append_right _ (List.mem_cons_self _ _))
    have hsome : c.2 ≠ none := by rw [hca]; exact Option.some_ne_none a
    cases pre with
    | nil =>
      left
      obtain ⟨hhead, nx, hcell, _⟩ := hc.1
      have hh : l.getHeadNode = some c.1 := hhead
      refine ⟨c, post, rfl, hname, ?_⟩
      simp only [moveStationToFront, hfind, ok_bind, hsome, if_false, hh, getItem_live hcell,
        hname, if_true, pure_eq_ok]
    | cons d pre =>
      right
      obtain ⟨hhead, nx, hcell, _⟩ := hc.1
      have hh : l.getHeadNode = some d.1 := hhead
      obtain ⟨nm, hnm⟩ := hv.name_of (c := d) (List.mem_cons_self _ _)
      have hne : nm ≠ name := by
        intro e; rw [e] at hnm; exact hpre d (List.mem_cons_self _ _) hnm
      obtain ⟨q, hq⟩ := hc.1.front
      have hloop := moveStationToFrontLoop_hit st h l name fuel c (d :: pre) fuel _ q hq
        hv.of_append_left hpre hname (by simp at hf ⊢; omega)
      have hidx : getStationIndex fuel st h l name = .ok (((d :: pre).length : Nat) : Int) := by
        have := getStationIndexLoop_hit st h name c (d :: pre) fuel _ q 0 hq
          hv.of_append_left hpre hname (by simp at hf ⊢; omega)
        simpa [getStationIndex] using this
      have hk : (d :: pre).length < ((d :: pre) ++ c :: post).length := by simp
      obtain ⟨h1, l1, hrem, hc1, _⟩ := remove_chain hc (d :: pre).length hk
      rw [eraseIdx_split] at hc1
      obtain ⟨h2, l2, hins, hc2, _⟩ := insert_chain hc1 0 (Nat.zero_le _) c.2
      refine ⟨d, pre, c, post, h2, l2, h1.length, rfl, hpre, hname, ?_, by simpa using hc2⟩
      simp only [moveStationToFront, hfind, ok_bind, hsome, if_false, hh, getItem_live hcell,
        hnm, hne]
      rw [hhead] at hloop
      rw [hloop, hidx]
      simp only [ok_bind, hrem]
      simp only [Nat.cast_zero] at hins
      simp only [hins, ok_bind, pure_eq_ok]

/-- C12: on a registry in good order `moveStationToFront(name)` returns true
iff a station of that name is registered. When it returns false the registry
nodes, head and count are exactly as before; so they are when the head station
already has the name. Otherwise the first station of that name ends at index
0, the other stations follow in their old order and the length is unchanged. -/
theorem moveStationToFront_moves_first (fuel : Nat) (st : Stations) (h : Heap (Option Nat))
    (l : LinkedList) (hreg : Registry st h l) (hf : l.getLength ≤ fuel) (name : String) :
    ∃ h' l' r, moveStationToFront fuel st h l name = .ok (h', l', r) ∧
      (r = true ↔ Named st h l name) ∧
      (r = false → h' = h ∧ l' = l) ∧
      (r = true → ∃ pre x post, entries h l = (pre ++ x :: post).map Except.ok ∧
        (∀ p ∈ pre, getName st p ≠ .ok name) ∧ getName st x = .ok name ∧
        (pre = [] → h' = h ∧ l' = l) ∧
        (pre ≠ [] → entries h' l' = (x :: pre ++ post).map Except.ok) ∧
        l'.getLength = l.getLength) := by
  obtain ⟨cs, hc, hv⟩ := hreg
  have hf' : cs.length ≤ fuel := by
    have : l.getLength = cs.length := hc.2
    rw [this] at hf; exact_mod_cast hf
  rcases moveStationToFront_cases hc hv name hf' with
    ⟨hall, hrun⟩ | ⟨c, post, hsplit, hname, hrun⟩ |
    ⟨d, pre, c, post, h', l', n, hsplit, hpre, hname, hrun, hc'⟩
  · refine ⟨h, l, false, hrun, ⟨fun hr => (by cases hr), fun hn => ?_⟩, fun _ => ⟨rfl, rfl⟩,
      fun hr => (by cases hr)⟩
    obtain ⟨c, hcm, hcn⟩ := (named_iff hc name).mp hn
    exact absurd hcn (hall c hcm)
  · refine ⟨h, l, true, hrun, ⟨fun _ => ?_, fun _ => rfl⟩, fun hr => (by cases hr), fun _ => ?_⟩
    · exact (named_iff hc name).mpr ⟨c, by rw [hsplit]; exact List.mem_cons_self _ _, hname⟩
    · refine ⟨[], c.2, post.map Prod.snd, ?_, fun p hp => absurd hp (List.not_mem_nil p), hname,
        fun _ => ⟨rfl, rfl⟩, fun hne => absurd rfl hne, rfl⟩
      rw [entries_chain hc, hsplit]; simp
  · refine ⟨h', l', true, hrun, ⟨fun _ => ?_, fun _ => rfl⟩, fun hr => (by cases hr), fun _ => ?_⟩
    · refine (named_iff hc name).mpr ⟨c, ?_, hname⟩
      rw [hsplit]; exact List.mem_append_right _ (List.mem_cons_self _ _)
    · refine ⟨(d :: pre).map Prod.snd, c.2, post.map Prod.snd, ?_, ?_, hname,
        fun hnil => (by simp at hnil), fun _ => ?_, ?_⟩
      · rw [entries_chain hc, hsplit]; simp; rfl
      · intro p hp
        obtain ⟨x, hx, hxp⟩ := List.mem_map.mp hp
        rw [← hxp]; exact hpre x hx
      · rw [entries_chain hc']; simp; rfl
      · simp only [getLength, hc'.2, hc.2, hsplit]
        simp
        omega

theorem moveStationToFront_moves_first_witness :
    Registry demoStations demoRegistryHeap demoRegistry ∧
    demoRegistry.getLength ≤ ((3 : Nat) : Int) ∧
    entries demoRegistryHeap demoRegistry = [.ok (some 0), .ok (some 1), .ok (some 2)] ∧
    (∃ h' l', moveStationToFront 3 demoStations demoRegistryHeap demoRegistry "Oven" =
        .ok (h', l', true) ∧
      entries h' l' = [.ok (some 1), .ok (some 0), .ok (some 2)]) ∧
    ∃ h' l' r, moveStationToFront 3 demoStations demoRegistryHeap demoRegistry "Oven" =
        .ok (h', l', r) ∧
      (r = true ↔ Named demoStations demoRegistryHeap demoRegistry "Oven") ∧
      (r = false → h' = demoRegistryHeap ∧ l' = demoRegistry) ∧
      (r = true → ∃ pre x post,
        entries demoRegistryHeap demoRegistry = (pre ++ x :: post).map Except.ok ∧
        (∀ p ∈ pre, getName demoStations p ≠ .ok "Oven") ∧ getName demoStations x = .ok "Oven" ∧
        (pre = [] → h' = demoRegistryHeap ∧ l' = demoRegistry) ∧
        (pre ≠ [] → entries h' l' = (x :: pre ++ post).map Except.ok) ∧
        l'.getLength = demoRegistry.getLength) :=
  ⟨demo_registry, by decide, rfl, ⟨_, _, rfl, rfl⟩,
    moveStationToFront_moves_first 3 demoStations demoRegistryHeap demoRegistry demo_registry
      (by decide) "Oven"⟩

theorem set_live {α : Type} {xs : List α} {a : Nat} {x : α} (e : xs[a]? = some x) (y : α) :
    (xs.set a y)[a]? = some y := by
  have : a < xs.length := by
    by_contra hn
    rw [List.getElem?_eq_none (by omega)] at e
    cases e
  exact List.getElem?_set_self this

theorem set_same {α : Type} {xs : List α} {a : Nat} {x : α} (e : xs[a]? = some x) :
    xs.set a x = xs :=
  List.ext_getElem? (getElem?_set_same e)

/-- The second loop of `mergeStations` leaves in `station1` the record
replenished with every ingredient of the list. -/
theorem replenishAll_live (a : Nat) :
    ∀ (stock : List Ingredient) (st : Stations) (s : KitchenStation), st[a]? = some s →
      replenishAll (some a) st stock = .ok (st.set a (replenishedWith s stock)) := by
  intro stock
  induction stock with
  | nil =>
    intro st s hs
    simp only [replenishAll, replenishedWith, List.foldl_nil, pure_eq_ok]
    rw [set_same hs]
  | cons i rest ih =>
    intro st s hs
    simp only [replenishAll, readStation_live hs, ok_bind, writeStation]
    rw [ih (st.set a (s.replenishStationIngredients i)) _ (set_live hs _), List.set_set]
    rfl

theorem replenishedWith_fields (stock : List Ingredient) :
    ∀ s : KitchenStation, (replenishedWith s stock).name_ = s.name_ ∧
      (replenishedWith s stock).dishes_ = s.dishes_ ∧
      ∀ n, stockOf (replenishedWith s stock).ingredients_stock_ n =
        stockOf s.ingredients_stock_ n + stockOf stock n := by
  induction stock with
  | nil => intro s; simp [replenishedWith, stockOf]
  | cons i rest ih =>
    intro s
    obtain ⟨h1, h2, h3⟩ := ih (s.replenishStationIngredients i)
    refine ⟨h1, h2, fun n => ?_⟩
    have := h3 n
    simp only [replenishedWith, List.foldl_cons] at this ⊢
    rw [this]
    simp only [KitchenStation.replenishStationIngredients, stockOf_mergeStock]
    by_cases hn : i.name = n
    · simp [stockOf, List.filter_cons, hn]; ring
    · simp [stockOf, List.filter_cons, hn]

theorem dishName_of_read {ds : Dishes} {d : Option Nat} {dish : Dish}
    (e : Dish.read ds d = .ok dish) : Dish.getName ds d = .ok dish.name_ := by
  simp [Dish.getName, e, Except.map]

/-- Among valid dish pointers `findDish` finds a dish exactly when one of the
name is assigned. -/
theorem findDish_cases (ds : Dishes) (name : String) :
    ∀ assigned : List (Option Nat), (∀ d ∈ assigned, ∃ dish, Dish.read ds d = .ok dish) →
      (hasDish ds assigned name ∧ ∃ dish, KitchenStation.findDish ds name assigned = .ok (some dish)) ∨
      (¬ hasDish ds assigned name ∧ KitchenStation.findDish ds name assigned = .ok none) := by
  intro assigned
  induction assigned with
  | nil =>
    intro _
    right
    exact ⟨fun ⟨d, hd, _⟩ => absurd hd (List.not_mem_nil d), rfl⟩
  | cons d rest ih =>
    intro hv
    obtain ⟨dish, hd⟩ := hv d (List.mem_cons_self _ _)
    by_cases hn : dish.name_ = name
    · left
      refine ⟨⟨d, List.mem_cons_self _ _, by rw [dishName_of_read hd, hn]⟩, dish, ?_⟩
      simp [KitchenStation.findDish, hd, ok_bind, hn, pure_eq_ok]
    · have hstep : KitchenStation.findDish ds name (d :: rest) =
          KitchenStation.findDish ds name rest := by
        simp [KitchenStation.findDish, hd, ok_bind, hn]
      rcases ih fun x hx => hv x (List.mem_cons_of_mem _ hx) with ⟨⟨x, hx, hxn⟩, hfd⟩ | ⟨hnot, hfd⟩
      · left
        exact ⟨⟨x, List.mem_cons_of_mem _ hx, hxn⟩, by rw [hstep]; exact hfd⟩
      · right
        refine ⟨?_, by rw [hstep]; exact hfd⟩
        rintro ⟨x, hx, hxn⟩
        rcases List.mem_cons.mp hx with rfl | hx
        · rw [dishName_of_read hd] at hxn
          exact hn (Except.ok.inj hxn)
        · exact hnot ⟨x, hx, hxn⟩

/-- One `assignDishToStation`: the name and stock stay, and the station has a
dish of a given name afterwards iff it had one before or the new dish has
that name. -/
theorem assignDish_step {ds : Dishes} {s : KitchenStation} {dish : Option Nat} {dd : Dish}
    (hd : Dish.read ds dish = .ok dd)
    (hv : ∀ d ∈ s.dishes_, ∃ x, Dish.read ds d = .ok x) :
    ∃ s1 r, s.assignDishToStation ds dish = .ok (s1, r) ∧ s1.name_ = s.name_ ∧
      s1.ingredients_stock_ = s.ingredients_stock_ ∧
      (∀ d ∈ s1.dishes_, ∃ x, Dish.read ds d = .ok x) ∧
      ∀ n, hasDish ds s1.dishes_ n ↔ (hasDish ds s.dishes_ n ∨ Dish.getName ds dish = .ok n) := by
  have hname := dishName_of_read hd
  rcases findDish_cases ds dd.name_ s.dishes_ hv with ⟨hhas, x, hfd⟩ | ⟨hnot, hfd⟩
  · refine ⟨s, false, ?_, rfl, rfl, hv, fun n => ⟨Or.inl, ?_⟩⟩
    · simp [KitchenStation.assignDishToStation, hname, ok_bind, hfd, pure_eq_ok]
    · rintro (hh | hh)
      · exact hh
      · rw [hname] at hh
        cases hh
        exact hhas
  · refine ⟨{ s with dishes_ := s.dishes_ ++ [dish] }, true, ?_, rfl, rfl, ?_, fun n => ?_⟩
    · simp [KitchenStation.assignDishToStation, hname, ok_bind, hfd, pure_eq_ok]
    · intro d hdm
      rcases List.mem_append.mp hdm with hdm | hdm
      · exact hv d hdm
      · rw [List.mem_singleton.mp hdm]; exact ⟨dd, hd⟩
    · constructor
      · rintro ⟨d, hdm, hdn⟩
        rcases List.mem_append.mp hdm with hdm | hdm
        · exact Or.inl ⟨d, hdm, hdn⟩
        · rw [List.mem_singleton.mp hdm] at hdn; exact Or.inr hdn
      · rintro (⟨d, hdm, hdn⟩ | hh)
        · exact ⟨d, List.mem_append_left _ hdm, hdn⟩
        · exact ⟨dish, List.mem_append_right _ (List.mem_singleton_self _), hh⟩

/-- The first loop of `mergeStations` leaves in `station1` a record with the
old name and stock whose dishes are, by name, the old ones together with those
of the list. -/
theorem assignAll_live (ds : Dishes) (a : Nat) :
    ∀ (dishes : List (Option Nat)) (st : Stations) (s : KitchenStation), st[a]? = some s →
      (∀ d ∈ s.dishes_, ∃ x, Dish.read ds d = .ok x) →
      (∀ d ∈ dishes, ∃ x, Dish.read ds d = .ok x) →
      ∃ s', assignAll ds (some a) st dishes = .ok (st.set a s') ∧ s'.name_ = s.name_ ∧
        s'.ingredients_stock_ = s.ingredients_stock_ ∧
        (∀ d ∈ s'.dishes_, ∃ x, Dish.read ds d = .ok x) ∧
        ∀ n, hasDish ds s'.dishes_ n ↔ (hasDish ds s.dishes_ n ∨ hasDish ds dishes n) := by
  intro dishes
  induction dishes with
  | nil =>
    intro st s hs hv _
    refine ⟨s, ?_, rfl, rfl, hv, fun n => ⟨Or.inl, ?_⟩⟩
    · simp only [assignAll, pure_eq_ok]; rw [set_same hs]
    · rintro (hh | ⟨d, hd, _⟩)
      · exact hh
      · exact absurd hd (List.not_mem_nil d)
  | cons dish rest ih =>
    intro st s hs hv hvl
    obtain ⟨dd, hd⟩ := hvl dish (List.mem_cons_self _ _)
    obtain ⟨s1, r, hrun, hn1, hst1, hv1, hhas1⟩ := assignDish_step hd hv
    obtain ⟨s', hrun', hn', hst', hv', hhas'⟩ := ih (st.set a s1) s1 (set_live hs _) hv1
      fun x hx => hvl x (List.mem_cons_of_mem _ hx)
    refine ⟨s', ?_, hn'.trans hn1, hst'.trans hst1, hv', fun n => ?_⟩
    · simp only [assignAll, readStation_live hs, ok_bind, hrun, writeStation]
      rw [hrun', List.set_set]
    · rw [hhas' n, hhas1 n]
      constructor
      · rintro ((hh | hh) | ⟨d, hdm, hdn⟩)
        · exact Or.inl hh
        · exact Or.inr ⟨dish, List.mem_cons_self _ _, hh⟩
        · exact Or.inr ⟨d, List.mem_cons_of_mem _ hdm, hdn⟩
      · rintro (hh | ⟨d, hdm, hdn⟩)
        · exact Or.inl (Or.inl hh)
        · rcases List.mem_cons.mp hdm with rfl | hdm
          · exact Or.inl (Or.inr hdn)
          · exact Or.inr ⟨d, hdm, hdn⟩

theorem lookupName_hit (st : Stations) (name : String) (c : Option Nat) (post : List (Option Nat))
    (hname : getName st c = .ok name) :
    ∀ pre : List (Option Nat), (∀ d ∈ pre, getName st d ≠ .ok name) →
      lookupName st name (pre ++ c :: post) = c := by
  intro pre
  induction pre with
  | nil => intro _; simp [lookupName, hname]
  | cons d pre ih =>
    intro hmiss
    have hd := hmiss d (List.mem_cons_self _ _)
    have hrest := ih fun x hx => hmiss x (List.mem_cons_of_mem _ hx)
    rw [List.cons_append, lookupName]
    rcases hg : getName st d with e | n
    · exact hrest
    · have hne : n ≠ name := by
        intro e; rw [hg, e] at hd; exact hd rfl
      simp only [hne, if_false]
      exact hrest

theorem lookupName_none (st : Stations) (name : String) :
    ∀ ps : List (Option Nat),
      lookupName st name ps = none ↔ ∀ p ∈ ps, getName st p ≠ .ok name := by
  intro ps
  induction ps with
  | nil => simp [lookupName]
  | cons d ps ih =>
    rw [lookupName]
    rcases hg : getName st d with e | n
    · simp only [ih, List.mem_cons, forall_eq_or_imp, hg]
      constructor
      · intro hh; exact ⟨fun e' => (by cases e'), hh⟩
      · intro hh; exact hh.2
    · by_cases hn : n = name
      · simp only [hn, if_true, List.mem_cons, forall_eq_or_imp, hg]
        constructor
        · intro hd
          rw [hd] at hg
          cases hg
        · intro hh; exact absurd rfl hh.1
      · simp only [hn, if_false, ih, List.mem_cons, forall_eq_or_imp, hg]
        constructor
        · intro hh; exact ⟨fun e' => hn (Except.ok.inj e'), hh⟩
        · intro hh; exact hh.2

/-- A pointer of another name does not change what the lookup finds. -/
theorem lookupName_skip (st : Stations) (name : String) (c : Option Nat)
    (post : List (Option Nat)) (hc : getName st c ≠ .ok name) :
    ∀ pre : List (Option Nat),
      lookupName st name (pre ++ c :: post) = lookupName st name (pre ++ post) := by
  intro pre
  induction pre with
  | nil =>
    rw [List.nil_append, List.nil_append, lookupName]
    rcases hg : getName st c with e | n
    · rfl
    · have hne : n ≠ name := by
        intro e; rw [hg, e] at hc; exact hc rfl
      simp only [hne, if_false]
  | cons d pre ih =>
    rw [List.cons_append, List.cons_append, lookupName, lookupName, ih]

theorem lookupName_congr {st st' : Stations} (hsame : ∀ p, getName st' p = getName st p)
    (name : String) : ∀ ps : List (Option Nat), lookupName st' name ps = lookupName st name ps := by
  intro ps
  induction ps with
  | nil => rfl
  | cons d ps ih => rw [lookupName, lookupName, hsame, ih]

/-- On a registry in good order `findStation` computes the lookup. -/
theorem findStation_eq_lookup {st : Stations} {h : Heap (Option Nat)} {l : LinkedList}
    {cs : List (Nat × Option Nat)} (hc : Chain h l cs) (hv : Listed st cs) (name : String)
    {fuel : Nat} (hf : cs.length ≤ fuel) :
    findStation fuel st h l name = .ok (lookupName st name (cs.map Prod.snd)) := by
  rcases first_split (fun c : Nat × Option Nat => getName st c.2 = .ok name) cs with
    hall | ⟨pre, c, post, hsplit, hpre, hname⟩
  · rw [findStation_miss hc hv hall hf]
    have : lookupName st name (cs.map Prod.snd) = none := by
      rw [lookupName_none]
      intro p hp
      obtain ⟨x, hx, hxp⟩ := List.mem_map.mp hp
      rw [← hxp]; exact hall x hx
    rw [this]
  · subst hsplit
    rw [findStation_hit hc hv hpre hname hf, List.map_append, List.map_cons,
      lookupName_hit st name c.2 _ hname]
    intro p hp
    obtain ⟨x, hx, hxp⟩ := List.mem_map.mp hp
    rw [← hxp]; exact hpre x hx

/-- Replacing a station record by one of the same name changes no name. -/
theorem getName_set {st : Stations} {a : Nat} {s s' : KitchenStation} (hs : st[a]? = some s)
    (hn : s'.name_ = s.name_) (p : Option Nat) : getName (st.set a s') p = getName st p := by
  cases p with
  | none => rfl
  | some b =>
    by_cases hab : a = b
    · subst hab
      rw [getName_live (set_live hs s'), getName_live hs, hn]
    · simp only [getName, List.getElem?_set_ne hab]

theorem Listed.set {st : Stations} {cs : List (Nat × Option Nat)} (hv : Listed st cs) (a : Nat)
    (s' : KitchenStation) : Listed (st.set a s') cs := by
  intro c hc
  obtain ⟨b, s, hcb, hsb⟩ := hv c hc
  by_cases hab : a = b
  · subst hab
    exact ⟨a, s', hcb, set_live hsb s'⟩
  · exact ⟨b, s, hcb, by rw [List.getElem?_set_ne hab]; exact hsb⟩

/-- `removeStation` on a registry that splits at the first station of the
name unlinks exactly that cell. -/
theorem removeStation_hit {st : Stations} {h : Heap (Option Nat)} {l : LinkedList}
    {pre post : List (Nat × Option Nat)} {c : Nat × Option Nat} {name : String}
    (hc : Chain h l (pre ++ c :: post)) (hv : Listed st (pre ++ c :: post))
    (hpre : ∀ d ∈ pre, getName st d.2 ≠ .ok name) (hname : getName st c.2 = .ok name) :
    ∃ h' l', removeStation st h l name = .ok (h', l', true) ∧ Chain h' l' (pre ++ post) := by
  have hcount : l.item_count_.toNat = (pre ++ c :: post).length := by
    rw [hc.2]; exact Int.toNat_ofNat _
  have hrun := removeStationLoop_hit hc hv name c post hname pre 0 (List.drop_zero _) hpre
  have hk : pre.length < (pre ++ c :: post).length := by simp
  obtain ⟨h', l', hrem, hc', _⟩ := remove_chain hc pre.length hk
  refine ⟨h', l', ?_, ?_⟩
  · rw [removeStation, hcount]
    simp only [Nat.cast_zero, Nat.zero_add] at hrun
    rw [hrun, hrem]
  · rw [eraseIdx_split] at hc'; exact hc'

/-- C13 fails as stated. With two stations called "Oven" registered,
`mergeStations("Grill", "Oven")` returns true and `findStation("Oven")` still
finds a station afterwards; and `mergeStations("Grill", "Grill")` returns true
and leaves no station called "Grill" in the registry. -/
theorem mergeStations_leaves_b_or_drops_a :
    (∃ st' h' l', mergeStations 3 demoDishes demoStations demoRegistryHeap demoRegistry
        "Grill" "Oven" = .ok (st', h', l', true) ∧
      findStation 3 st' h' l' "Oven" = .ok (some 2)) ∧
    (∃ st' h' l', mergeStations 3 demoDishes demoStations demoRegistryHeap demoRegistry
        "Grill" "Grill" = .ok (st', h', l', true) ∧
      findStation 3 st' h' l' "Grill" = .ok none) :=
  ⟨⟨_, _, _, rfl, rfl⟩, ⟨_, _, _, rfl, rfl⟩⟩

/-- C13 as amended: on a registry in good order, for names `a ≠ b` that both
name registered stations, `mergeStations(a, b)` returns true and changes only
the record of the first station called `a`: it keeps its name, has a dish of a
given name iff the first station `a` or the first station `b` had one before,
and holds of every ingredient the sum of what the two held before. The first
station called `b` is taken out of the registry, the others stay in order;
afterwards `findStation(a)` still finds the same station, and
`findStation(b)` reports not found exactly when no station after the removed
one is called `b` too. -/
theorem mergeStations_merges_distinct (fuel : Nat) (ds : Dishes) (st : Stations)
    (h : Heap (Option Nat)) (l : LinkedList) (hreg : Registry st h l) (hok : DishesOk ds st)
    (hf : l.getLength ≤ fuel) (a b : String) (hab : a ≠ b) (ha : Named st h l a)
    (hb : Named st h l b) :
    ∃ pa pb sa sb sa' h' l' pre post,
      findStation fuel st h l a = .ok (some pa) ∧ st[pa]? = some sa ∧
      findStation fuel st h l b = .ok (some pb) ∧ st[pb]? = some sb ∧
      mergeStations fuel ds st h l a b = .ok (st.set pa sa', h', l', true) ∧
      sa'.name_ = sa.name_ ∧
      (∀ n, hasDish ds sa'.dishes_ n ↔ (hasDish ds sa.dishes_ n ∨ hasDish ds sb.dishes_ n)) ∧
      (∀ n, stockOf sa'.ingredients_stock_ n =
        stockOf sa.ingredients_stock_ n + stockOf sb.ingredients_stock_ n) ∧
      entries h l = (pre ++ some pb :: post).map Except.ok ∧
      (∀ p ∈ pre, getName st p ≠ .ok b) ∧
      entries h' l' = (pre ++ post).map Except.ok ∧
      findStation fuel (st.set pa sa') h' l' a = .ok (some pa) ∧
      (findStation fuel (st.set pa sa') h' l' b = .ok none ↔
        ∀ p ∈ post, getName st p ≠ .ok b) := by
  obtain ⟨cs, hc, hv'⟩ := hreg
  have hv : Listed st cs := hv'
  have hf' : cs.length ≤ fuel := by
    have : l.getLength = cs.length := hc.2
    rw [this] at hf; exact_mod_cast hf
  -- the first station called `a`
  rcases findStation_cases hc hv a hf' with
    ⟨hall, _⟩ | ⟨_, ca, _, pa, sa, hsplita, _, hcpa, hsa, hnamea, hfinda⟩
  · obtain ⟨c, hcm, hcn⟩ := (named_iff hc a).mp ha
    exact absurd hcn (hall c hcm)
  -- the first station called `b`
  rcases findStation_cases hc hv b hf' with
    ⟨hall, _⟩ | ⟨pre, c, post, pb, sb, hsplit, hpre, hcpb, hsb, hnameb, hfindb⟩
  · obtain ⟨c, hcm, hcn⟩ := (named_iff hc b).mp hb
    exact absurd hcn (hall c hcm)
  have hne : pa ≠ pb := by
    intro e
    rw [e, hsb] at hsa
    cases hsa
    exact hab (hnamea.symm.trans hnameb)
  -- the two loops
  obtain ⟨s1, hassign, hn1, hst1, _, hhas1⟩ := assignAll_live ds pa sb.dishes_ st sa hsa
    (hok.of_get hsa) (hok.of_get hsb)
  have hsb1 : (st.set pa s1)[pb]? = some sb := by rw [List.getElem?_set_ne hne]; exact hsb
  have hrepl := replenishAll_live pa sb.ingredients_stock_ (st.set pa s1) s1 (set_live hsa s1)
  rw [List.set_set] at hrepl
  obtain ⟨hn2, hd2, hstock2⟩ := replenishedWith_fields sb.ingredients_stock_ s1
  have hname' : (replenishedWith s1 sb.ingredients_stock_).name_ = sa.name_ := hn2.trans hn1
  have hsame : ∀ p, getName (st.set pa (replenishedWith s1 sb.ingredients_stock_)) p =
      getName st p := getName_set hsa hname'
  -- the removal
  subst hsplit
  have hcname : getName st c.2 = .ok b := by rw [hcpb, getName_live hsb, hnameb]
  have hv2 : Listed (st.set pa (replenishedWith s1 sb.ingredients_stock_)) (pre ++ c :: post) :=
    hv.set pa _
  obtain ⟨h', l', hrem, hc'⟩ := removeStation_hit hc hv2
    (fun d hd => by rw [hsame]; exact hpre d hd) (by rw [hsame]; exact hcname)
  have hv'' : Listed (st.set pa (replenishedWith s1 sb.ingredients_stock_)) (pre ++ post) := by
    intro x hx
    refine hv2 x ?_
    rcases List.mem_append.mp hx with hx | hx
    · exact List.mem_append_left _ hx
    · exact List.mem_append_right _ (List.mem_cons_of_mem _ hx)
  have hlen' : (pre ++ post).length ≤ fuel := by
    simp only [List.length_append, List.length_cons] at hf' ⊢; omega
  refine ⟨pa, pb, sa, sb, replenishedWith s1 sb.ingredients_stock_, h', l', pre.map Prod.snd,
    post.map Prod.snd, hfinda, hsa, hfindb, hsb, ?_, hname', ?_, ?_, ?_, ?_, ?_, ?_, ?_⟩
  · have hcond : (some pa ≠ none ∧ some pb ≠ none) := ⟨by simp, by simp⟩
    simp only [mergeStations, hfinda, hfindb, ok_bind,
      readStation_live hsb, hassign, readStation_live hsb1, hrepl, hrem, pure_eq_ok]
    rw [if_pos hcond]
  · intro n
    rw [hd2]; exact hhas1 n
  · intro n
    rw [hstock2 n, hst1]
  · rw [entries_chain hc]; simp [hcpb]; rfl
  · intro p hp
    obtain ⟨x, hx, hxp⟩ := List.mem_map.mp hp
    rw [← hxp]; exact hpre x hx
  · rw [entries_chain hc']; simp; rfl
  · rw [findStation_eq_lookup hc' hv'' a hlen', lookupName_congr hsame, List.map_append,
      ← lookupName_skip st a c.2 _ (by rw [hcname]; intro e; exact hab (Except.ok.inj e).symm),
      ← List.map_cons, ← List.map_append, ← findStation_eq_lookup hc hv a hf']
    exact hfinda
  · rw [findStation_eq_lookup hc' hv'' b hlen', lookupName_congr hsame]
    constructor
    · intro hnone p hp
      have := Except.ok.inj hnone
      rw [lookupName_none] at this
      exact this p (by simp only [List.map_append, List.mem_append]; exact Or.inr hp)
    · intro hall
      have : lookupName st b (List.map Prod.snd (pre ++ post)) = none := by
        rw [lookupName_none]
        intro p hp
        simp only [List.map_append, List.mem_append] at hp
        rcases hp with hp | hp
        · obtain ⟨x, hx, hxp⟩ := List.mem_map.mp hp
          rw [← hxp]; exact hpre x hx
        · exact hall p hp
      rw [this]

theorem mergeStations_merges_distinct_witness :
    Registry demoKitchen demoKitchenHeap demoKitchenList ∧ DishesOk demoDishes demoKitchen ∧
    demoKitchenList.getLength ≤ ((2 : Nat) : Int) ∧ "Grill" ≠ "Oven" ∧
    Named demoKitchen demoKitchenHeap demoKitchenList "Grill" ∧
    Named demoKitchen demoKitchenHeap demoKitchenList "Oven" ∧
    ∃ pa pb sa sb sa' h' l' pre post,
      findStation 2 demoKitchen demoKitchenHeap demoKitchenList "Grill" = .ok (some pa) ∧
      demoKitchen[pa]? = some sa ∧
      findStation 2 demoKitchen demoKitchenHeap demoKitchenList "Oven" = .ok (some pb) ∧
      demoKitchen[pb]? = some sb ∧
      mergeStations 2 demoDishes demoKitchen demoKitchenHeap demoKitchenList "Grill" "Oven" =
        .ok (demoKitchen.set pa sa', h', l', true) ∧
      sa'.name_ = sa.name_ ∧
      (∀ n, hasDish demoDishes sa'.dishes_ n ↔
        (hasDish demoDishes sa.dishes_ n ∨ hasDish demoDishes sb.dishes_ n)) ∧
      (∀ n, stockOf sa'.ingredients_stock_ n =
        stockOf sa.ingredients_stock_ n + stockOf sb.ingredients_stock_ n) ∧
      entries demoKitchenHeap demoKitchenList = (pre ++ some pb :: post).map Except.ok ∧
      (∀ p ∈ pre, getName demoKitchen p ≠ .ok "Oven") ∧
      entries h' l' = (pre ++ post).map Except.ok ∧
      findStation 2 (demoKitchen.set pa sa') h' l' "Grill" = .ok (some pa) ∧
      (findStation 2 (demoKitchen.set pa sa') h' l' "Oven" = .ok none ↔
        ∀ p ∈ post, getName demoKitchen p ≠ .ok "Oven") :=
  have hc : Chain demoKitchenHeap demoKitchenList [(0, some 0), (1, some 1)] :=
    ⟨⟨rfl, some 1, rfl, rfl, none, rfl, rfl⟩, rfl⟩
  have hg : Named demoKitchen demoKitchenHeap demoKitchenList "Grill" :=
    @named_of_split demoKitchen demoKitchenHeap demoKitchenList [] [(1, some 1)] (0, some 0)
      "Grill" hc rfl
  have ho : Named demoKitchen demoKitchenHeap demoKitchenList "Oven" :=
    @named_of_split demoKitchen demoKitchenHeap demoKitchenList [(0, some 0)] [] (1, some 1)
      "Oven" hc rfl
  ⟨demo_kitchen, demo_kitchen_dishes, by decide, by decide, hg, ho,
    mergeStations_merges_distinct 2 demoDishes demoKitchen demoKitchenHeap demoKitchenList
      demo_kitchen demo_kitchen_dishes (by decide) "Grill" "Oven" (by decide) hg ho⟩

theorem bind_ok_inv {α β : Type} {x : Exec α} {f : α → Exec β} {y : β}
    (e : (x >>= f) = .ok y) : ∃ a, x = .ok a ∧ f a = .ok y := by
  cases x with
  | error err => cases e
  | ok a => exact ⟨a, rfl, e⟩

theorem addBackupIngredientScan_names (ingredient : Ingredient) :
    ∀ pool : List Ingredient,
      (addBackupIngredientScan pool ingredient).map Ingredient.name =
        if ingredient.name ∈ pool.map Ingredient.name then pool.map Ingredient.name
        else pool.map Ingredient.name ++ [ingredient.name] := by
  intro pool
  induction pool with
  | nil => simp [addBackupIngredientScan]
  | cons e rest ih =>
    by_cases he : e.name = ingredient.name
    · simp [addBackupIngredientScan, he]
    · have hne : ¬ ingredient.name = e.name := fun h => he h.symm
      simp only [addBackupIngredientScan, he, if_false, List.map_cons, ih, List.mem_cons, hne,
        false_or]
      split <;> simp

/-- `addBackupIngredient` keeps the pool free of repeated names. -/
theorem addBackupIngredient_unique (pool : List Ingredient) (ingredient : Ingredient)
    (hu : UniqueNames pool) : UniqueNames (addBackupIngredient pool ingredient).1 := by
  unfold UniqueNames at hu ⊢
  rw [addBackupIngredient, addBackupIngredientScan_names]
  split
  · exact hu
  · next hnot =>
    rw [List.nodup_append]
    refine ⟨hu, List.nodup_singleton _, ?_⟩
    intro x hx hx'
    rw [List.mem_singleton] at hx'
    exact hnot (hx' ▸ hx)

/-- Whatever the scan of the pool returns has its names among the old ones,
in the old order. -/
theorem replenishScan_names (fuel : Nat) (st : Stations) (h : Heap (Option Nat)) (l : LinkedList)
    (sname iname : String) (q : Int) :
    ∀ (pool : List Ingredient) (st' : Stations) (pool' : List Ingredient) (r : Bool),
      replenishScan fuel st h l sname iname q pool = .ok (st', pool', r) →
      (pool'.map Ingredient.name).Sublist (pool.map Ingredient.name) := by
  intro pool
  induction pool with
  | nil =>
    intro st' pool' r hrun
    simp [replenishScan, pure_eq_ok] at hrun
    rw [hrun.2.1]
  | cons e rest ih =>
    intro st' pool' r hrun
    rw [replenishScan] at hrun
    split at hrun
    · obtain ⟨⟨st1, r1⟩, _, hrest⟩ := bind_ok_inv hrun
      simp only at hrest
      split at hrest
      · split at hrest
        · cases hrest
          exact List.Sublist.cons _ (List.Sublist.refl _)
        · cases hrest
          exact List.Sublist.refl _
      · cases hrest
        exact List.Sublist.refl _
    · obtain ⟨⟨st1, rest1, r1⟩, hscan, hrest⟩ := bind_ok_inv hrun
      cases hrest
      exact List.Sublist.cons₂ _ (ih _ _ _ hscan)

/-- `replenishStationIngredientFromBackup` keeps the pool free of repeated
names, whatever the registry and the stations are. -/
theorem replenishFromBackup_unique {fuel : Nat} {st : Stations} {h : Heap (Option Nat)}
    {l : LinkedList} {pool : List Ingredient} {sname iname : String} {q : Int} {st' : Stations}
    {pool' : List Ingredient} {r : Bool}
    (hrun : replenishStationIngredientFromBackup fuel st h l pool sname iname q =
      .ok (st', pool', r)) (hu : UniqueNames pool) : UniqueNames pool' := by
  unfold replenishStationIngredientFromBackup at hrun
  obtain ⟨station, _, hrest⟩ := bind_ok_inv hrun
  split at hrest
  · cases hrest; exact hu
  · exact (replenishScan_names fuel st h l sname iname q pool st' pool' r hrest).nodup hu

/-- The replenishing loop of `processAllDishes` keeps the pool free of
repeated names. -/
theorem replenishLoop_unique (fuel : Nat) (h : Heap (Option Nat)) (l : LinkedList)
    (station : Option Nat) :
    ∀ (ingredients : List Ingredient) (st : Stations) (backup : List Ingredient) (r : Bool)
      (st' : Stations) (backup' : List Ingredient) (r' : Bool),
      replenishLoop fuel h l station ingredients st backup r = .ok (st', backup', r') →
      UniqueNames backup → UniqueNames backup' := by
  intro ingredients
  induction ingredients with
  | nil =>
    intro st backup r st' backup' r' hrun hu
    simp [replenishLoop, pure_eq_ok] at hrun
    rw [← hrun.2.1]; exact hu
  | cons i rest ih =>
    intro st backup r st' backup' r' hrun hu
    rw [replenishLoop] at hrun
    obtain ⟨sname, _, hrest⟩ := bind_ok_inv hrun
    obtain ⟨⟨st1, backup2, r1⟩, hrep, hrest⟩ := bind_ok_inv hrest
    exact ih _ _ _ _ _ _ hrest
      (replenishFromBackup_unique hrep (addBackupIngredient_unique backup i hu))

/-- One station visit of `processAllDishes` keeps the pool free of repeated
names. -/
theorem visitStation_unique {fuel : Nat} {ds : Dishes} {h : Heap (Option Nat)} {l : LinkedList}
    {dish : Option Nat} {j : Int} {w w' : Pass} {b : Bool}
    (hrun : visitStation fuel ds h l dish j w = .ok (w', b)) (hu : UniqueNames w.backup) :
    UniqueNames w'.backup := by
  unfold visitStation at hrun
  obtain ⟨station, _, hrun⟩ := bind_ok_inv hrun
  obtain ⟨sname, _, hrun⟩ := bind_ok_inv hrun
  obtain ⟨dname, _, hrun⟩ := bind_ok_inv hrun
  obtain ⟨s, _, hrun⟩ := bind_ok_inv hrun
  obtain ⟨assigned, _, hrun⟩ := bind_ok_inv hrun
  split at hrun
  · obtain ⟨⟨st1, done⟩, _, hrun⟩ := bind_ok_inv hrun
    simp only at hrun
    split at hrun
    · cases hrun; exact hu
    · obtain ⟨ingredients, _, hrun⟩ := bind_ok_inv hrun
      obtain ⟨⟨st2, backup2, r⟩, hloop, hrun⟩ := bind_ok_inv hrun
      have hu2 : UniqueNames backup2 := replenishLoop_unique fuel h l station _ _ _ _ _ _ _ hloop hu
      simp only at hrun
      split at hrun
      · obtain ⟨⟨st3, done2⟩, _, hrun⟩ := bind_ok_inv hrun
        simp only at hrun
        split at hrun
        · cases hrun; exact hu2
        · cases hrun; exact hu2
      · obtain ⟨⟨st3, done2⟩, _, hrun⟩ := bind_ok_inv hrun
        simp only at hrun
        split at hrun
        · cases hrun; exact hu2
        · cases hrun; exact hu2
  · cases hrun; exact hu

/-- The scan of the stations for one dish keeps the pool free of repeated
names. -/
theorem stationLoop_unique (fuel : Nat) (ds : Dishes) (h : Heap (Option Nat)) (l : LinkedList)
    (dish : Option Nat) :
    ∀ (n : Nat) (j : Int) (w w' : Pass) (b : Bool),
      stationLoop fuel ds h l dish n j w = .ok (w', b) →
      UniqueNames w.backup → UniqueNames w'.backup := by
  intro n
  induction n with
  | zero =>
    intro j w w' b hrun hu
    simp [stationLoop, pure_eq_ok] at hrun
    rw [← hrun.1]; exact hu
  | succ n ih =>
    intro j w w' b hrun hu
    rw [stationLoop] at hrun
    obtain ⟨⟨w1, prepared⟩, hvisit, hrun⟩ := bind_ok_inv hrun
    have hu1 := visitStation_unique hvisit hu
    simp only at hrun
    split at hrun
    · cases hrun; exact hu1
    · exact ih _ _ _ _ hrun hu1

theorem dishLoop_unique (fuel : Nat) (ds : Dishes) (h : Heap (Option Nat)) (l : LinkedList) :
    ∀ (n : Nat) (w w' : Pass), dishLoop fuel ds h l n w = .ok w' →
      UniqueNames w.backup → UniqueNames w'.backup := by
  intro n
  induction n with
  | zero =>
    intro w w' hrun hu
    simp [dishLoop, pure_eq_ok] at hrun
    rw [← hrun]; exact hu
  | succ n ih =>
    intro w w' hrun hu
    rw [dishLoop] at hrun
    split at hrun
    · cases hrun
    · obtain ⟨dname, _, hrun⟩ := bind_ok_inv hrun
      obtain ⟨⟨w1, prepared⟩, hscan, hrun⟩ := bind_ok_inv hrun
      have hu1 : UniqueNames w1.backup := stationLoop_unique fuel ds h l _ _ _ _ _ _ hscan hu
      simp only at hrun
      split at hrun
      · exact ih _ _ hrun hu1
      · obtain ⟨dname', _, hrun⟩ := bind_ok_inv hrun
        exact ih _ _ hrun hu1

/-- `processAllDishes` keeps the pool free of repeated names. -/
theorem processAllDishes_unique {fuel : Nat} {ds : Dishes} {h : Heap (Option Nat)}
    {l : LinkedList} {w w' : Pass} (hrun : processAllDishes fuel ds h l w = .ok w')
    (hu : UniqueNames w.backup) : UniqueNames w'.backup := by
  unfold processAllDishes at hrun
  obtain ⟨w1, hloop, hrun⟩ := bind_ok_inv hrun
  cases hrun
  show UniqueNames w1.backup
  exact dishLoop_unique fuel ds h l _ _ _ hloop hu

/-- C19 fails as stated: `addBackupIngredients` replaces the pool by the list
it is given, so from the empty pool one call with a list that names "Salt"
twice leaves a pool with two entries called "Salt". -/
theorem addBackupIngredients_admits_duplicates :
    ((addBackupIngredients [] [⟨"Salt", 1, 0⟩, ⟨"Salt", 2, 0⟩]).1.map Ingredient.name =
      ["Salt", "Salt"]) ∧
    ¬ UniqueNames (addBackupIngredients [] [⟨"Salt", 1, 0⟩, ⟨"Salt", 2, 0⟩]).1 := by
  refine ⟨rfl, ?_⟩
  simp [UniqueNames, addBackupIngredients]

/-- C19 as amended: starting from the empty pool, no sequence of
`addBackupIngredient`, `replenishStationIngredientFromBackup`,
`clearBackupIngredients`, `processAllDishes` (each in any state of the
stations, registry and queue) and of `addBackupIngredients` called with a list
that has no repeated name produces a pool holding two entries of the same
name. -/
theorem reachable_pool_unique (pool : List Ingredient) (hreach : PoolReachable pool) :
    UniqueNames pool := by
  induction hreach with
  | start => exact List.nodup_nil
  | addOne ingredient _ ih => exact addBackupIngredient_unique _ ingredient ih
  | addMany ingredients hu _ _ => exact hu
  | replenish fuel st h l sname iname q st' pool' r _ hrun ih =>
    exact replenishFromBackup_unique hrun ih
  | clear _ _ => exact List.nodup_nil
  | process fuel ds h l st queue out w' _ hrun ih => exact processAllDishes_unique hrun ih

theorem reachable_pool_unique_witness :
    PoolReachable [⟨"Salt", 3, 0⟩, ⟨"Beef", 2, 0⟩] ∧
    UniqueNames [⟨"Salt", 3, 0⟩, ⟨"Beef", 2, 0⟩] :=
  have hr : PoolReachable [⟨"Salt", 3, 0⟩, ⟨"Beef", 2, 0⟩] :=
    PoolReachable.addOne ⟨"Salt", 2, 0⟩
      (PoolReachable.addOne ⟨"Beef", 2, 0⟩ (PoolReachable.addOne ⟨"Salt", 1, 0⟩ .start))
  ⟨hr, reachable_pool_unique _ hr⟩

/-- C27: on a chain in good order, `insert(p, v)` at a position `0 ≤ p ≤ length`
followed by `remove(p)` both succeed, and afterwards the list object (head
pointer and count) is the original one and its entries are the original
sequence. -/
theorem insert_then_remove_restores {T : Type} (h : Heap T) (l : LinkedList) (hinv : Inv h l)
    (p : Int) (v : T) (h0 : 0 ≤ p) (h1 : p ≤ l.getLength) :
    ∃ h1 l1 h2 l2, LinkedList.insert h l p v = .ok (h1, l1, true) ∧
      LinkedList.remove h1 l1 p = .ok (h2, l2, true) ∧
      entries h2 l2 = entries h l ∧ l2.getLength = l.getLength ∧ l2 = l := by
  obtain ⟨cs, hc⟩ := hinv
  obtain ⟨k, rfl⟩ := Int.eq_ofNat_of_zero_le h0
  have hk : k ≤ cs.length := by
    have : (k : Int) ≤ cs.length := by rw [← hc.2]; exact h1
    exact_mod_cast this
  obtain ⟨ha, la, hins, hca, -, -⟩ := insert_chain hc k hk v
  have hlen : k < (cs.take k ++ (h.length, v) :: cs.drop k).length := by
    rw [length_insertAt]; omega
  obtain ⟨hb, lb, hrem, hcb, -, -, -⟩ := remove_chain hca k hlen
  have hback : (cs.take k ++ (h.length, v) :: cs.drop k).eraseIdx k = cs := by
    have hl : (cs.take k).length = k := List.length_take_of_le hk
    have := eraseIdx_split (cs.take k) (h.length, v) (cs.drop k)
    rw [hl] at this
    rw [this, List.take_append_drop]
  rw [hback] at hcb
  have hl2 : lb = l := by
    have e1 := head_chain hcb
    have e2 := head_chain hc
    have c1 := hcb.2
    have c2 := hc.2
    cases lb; cases l
    simp only at e1 e2 c1 c2
    rw [e1, e2, c1, c2]
  refine ⟨ha, la, hb, lb, hins, hrem, ?_, ?_, hl2⟩
  · rw [entries_chain hcb, entries_chain hc]
  · rw [hl2]

theorem insert_then_remove_restores_witness :
    Inv demoHeap demoList ∧ (0 : Int) ≤ 1 ∧ (1 : Int) ≤ demoList.getLength ∧
    ∃ h1 l1 h2 l2, LinkedList.insert demoHeap demoList 1 15 = .ok (h1, l1, true) ∧
      LinkedList.remove h1 l1 1 = .ok (h2, l2, true) ∧
      entries h2 l2 = entries demoHeap demoList ∧ l2.getLength = demoList.getLength ∧
      l2 = demoList :=
  ⟨demo_inv, by decide, by decide,
    insert_then_remove_restores demoHeap demoList demo_inv 1 15 (by decide) (by decide)⟩

/-- One call of `moveStationToFront` on a registry in good order: the cells
afterwards are a rearrangement of the cells before, still all station pointers,
and a call that returned true left a station called `name` at the head. -/
theorem moveStationToFront_perm {st : Stations} {h : Heap (Option Nat)} {l : LinkedList}
    {cs : List (Nat × Option Nat)} (hc : Chain h l cs) (hv : Listed st cs) (name : String)
    {fuel : Nat} (hf : cs.length ≤ fuel) :
    ∃ h' l' r cs', moveStationToFront fuel st h l name = .ok (h', l', r) ∧ Chain h' l' cs' ∧
      Listed st cs' ∧ (cs'.map Prod.snd).Perm (cs.map Prod.snd) ∧ cs'.length = cs.length ∧
      (r = false → ∀ c ∈ cs', getName st c.2 ≠ .ok name) ∧
      (r = true → ∃ c post, cs' = c :: post ∧ getName st c.2 = .ok name) := by
  rcases moveStationToFront_cases hc hv name hf with
    ⟨hmiss, hrun⟩ | ⟨c, post, hcs, hname, hrun⟩ |
    ⟨d, pre, c, post, h', l', n, hcs, hmiss, hname, hrun, hc'⟩
  · exact ⟨h, l, false, cs, hrun, hc, hv, List.Perm.refl _, rfl, fun _ => hmiss,
      (fun e => by cases e)⟩
  · exact ⟨h, l, true, cs, hrun, hc, hv, List.Perm.refl _, rfl, (fun e => by cases e),
      fun _ => ⟨c, post, hcs, hname⟩⟩
  · refine ⟨h', l', true, _, hrun, hc', ?_, ?_, ?_, (fun e => by cases e),
      fun _ => ⟨(n, c.2), _, rfl, hname⟩⟩
    · intro x hx
      have hvc : ∀ y ∈ (d :: pre) ++ c :: post, ∃ a s, y.2 = some a ∧ st[a]? = some s := by
        rw [← hcs]; exact hv
      simp only [List.cons_append, List.mem_cons, List.mem_append] at hx
      rcases hx with rfl | rfl | hx | hx
      · exact hvc c (by simp)
      · exact hvc x (by simp)
      · exact hvc x (by simp [hx])
      · exact hvc x (by simp [hx])
    · rw [hcs]
      simp only [List.cons_append, List.map_cons, List.map_append]
      exact (@List.perm_middle _ c.2 (d.2 :: pre.map Prod.snd) (post.map Prod.snd)).symm
    · rw [hcs]; simp; omega

/-- C28: on a registry in good order `moveStationToFront(name)` called a second
time returns the same result and leaves the registry exactly as the first call
left it, and a call leaves the registered stations a permutation of the ones
before, with the same length. -/
theorem moveStationToFront_idempotent (fuel : Nat) (st : Stations) (h : Heap (Option Nat))
    (l : LinkedList) (hreg : Registry st h l) (hf : l.getLength ≤ fuel) (name : String) :
    ∃ h' l' r, ∃ xs ys : List (Option Nat),
      moveStationToFront fuel st h l name = .ok (h', l', r) ∧
      moveStationToFront fuel st h' l' name = .ok (h', l', r) ∧
      entries h l = xs.map Except.ok ∧ entries h' l' = ys.map Except.ok ∧
      ys.Perm xs ∧ l'.getLength = l.getLength := by
  obtain ⟨cs, hc, hv'⟩ := hreg
  have hv : Listed st cs := hv'
  have hlen : cs.length ≤ fuel := by
    have : (cs.length : Int) ≤ fuel := by rw [← hc.2]; exact hf
    exact_mod_cast this
  obtain ⟨h', l', r, cs', hrun, hc', hv1, hperm, hl, hfalse, htrue⟩ :=
    moveStationToFront_perm hc hv name hlen
  have hlen' : cs'.length ≤ fuel := by omega
  refine ⟨h', l', r, cs.map Prod.snd, cs'.map Prod.snd, hrun, ?_, ?_, ?_, hperm, ?_⟩
  · rcases moveStationToFront_cases hc' hv1 name hlen' with
      ⟨hmiss, hrun2⟩ | ⟨c, post, hcs, hname, hrun2⟩ |
      ⟨d, pre, c, post, h2, l2, n, hcs, hmiss, hname, hrun2, -⟩
    · cases r with
      | false => exact hrun2
      | true =>
        obtain ⟨c, post, hcs, hname⟩ := htrue rfl
        exact absurd hname (hmiss c (by rw [hcs]; exact List.mem_cons_self _ _))
    · cases r with
      | true => exact hrun2
      | false =>
        exact absurd hname (hfalse rfl c (by rw [hcs]; exact List.mem_cons_self _ _))
    · cases r with
      | false =>
        exact absurd hname (hfalse rfl c (by rw [hcs]; simp))
      | true =>
        obtain ⟨c0, post0, hcs0, hname0⟩ := htrue rfl
        rw [hcs0] at hcs
        simp only [List.cons_append, List.cons.injEq] at hcs
        exact absurd hname0 (by rw [hcs.1]; exact hmiss d (List.mem_cons_self _ _))
  · rw [entries_chain hc, List.map_map]; rfl
  · rw [entries_chain hc', List.map_map]; rfl
  · show l'.item_count_ = l.item_count_
    rw [hc'.2, hc.2, hl]

theorem moveStationToFront_idempotent_witness :
    Registry demoStations demoRegistryHeap demoRegistry ∧
    demoRegistry.getLength ≤ ((3 : Nat) : Int) ∧
    ∃ h' l' r, ∃ xs ys : List (Option Nat),
      moveStationToFront 3 demoStations demoRegistryHeap demoRegistry "Oven" = .ok (h', l', r) ∧
      moveStationToFront 3 demoStations h' l' "Oven" = .ok (h', l', r) ∧
      entries demoRegistryHeap demoRegistry = xs.map Except.ok ∧
      entries h' l' = ys.map Except.ok ∧
      ys.Perm xs ∧ l'.getLength = demoRegistry.getLength :=
  ⟨demo_registry, by decide,
    moveStationToFront_idempotent 3 demoStations demoRegistryHeap demoRegistry demo_registry
      (by decide) "Oven"⟩

theorem shape_live {st st' : Stations} (e : shape st' = shape st) {a : Nat} {s : KitchenStation}
    (hs : st[a]? = some s) :
    ∃ s', st'[a]? = some s' ∧ s'.name_ = s.name_ ∧ s'.dishes_ = s.dishes_ := by
  have h1 : (shape st')[a]? = (shape st)[a]? := by rw [e]
  simp only [shape, List.getElem?_map, hs, Option.map_some'] at h1
  cases hs' : st'[a]? with
  | none => rw [hs'] at h1; cases h1
  | some s' =>
    rw [hs'] at h1
    simp only [Option.map_some', Option.some.injEq, Prod.mk.injEq] at h1
    exact ⟨s', rfl, h1.1, h1.2⟩

theorem shape_set {st : Stations} {a : Nat} {s s' : KitchenStation} (hs : st[a]? = some s)
    (hn : s'.name_ = s.name_) (hd : s'.dishes_ = s.dishes_) : shape (st.set a s') = shape st := by
  apply List.ext_getElem?
  intro i
  simp only [shape, List.getElem?_map, List.getElem?_set]
  by_cases hi : a = i
  · subst hi
    have hlt : a < st.length := by
      rcases Nat.lt_or_ge a st.length with hlt | hge
      · exact hlt
      · rw [List.getElem?_eq_none hge] at hs; cases hs
    simp [hlt, hs, hn, hd]
  · simp [hi]

theorem listed_of_shape {st st' : Stations} {cs : List (Nat × Option Nat)} (hv : Listed st cs)
    (e : shape st' = shape st) : Listed st' cs := by
  intro c hc
  obtain ⟨a, s, hca, hs⟩ := hv c hc
  obtain ⟨s', hs', -, -⟩ := shape_live e hs
  exact ⟨a, s', hca, hs'⟩

theorem dishesOk_of_shape {ds : Dishes} {st st' : Stations} (hok : DishesOk ds st)
    (e : shape st' = shape st) : DishesOk ds st' := by
  intro s' hs' d hd
  obtain ⟨a, ha, hget⟩ := List.getElem_of_mem hs'
  have hs : st'[a]? = some s' := by rw [List.getElem?_eq_getElem ha, hget]
  obtain ⟨s, hs0, -, hdd⟩ := shape_live e.symm hs
  exact hok s (List.getElem?_mem hs0) d (by rw [hdd]; exact hd)

/-- The "assigned dish checker" on valid dish pointers: it finishes, and says
true exactly when a dish of the same name is assigned. -/
theorem assignedLoop_total {ds : Dishes} {dish : Option Nat} {d : Dish}
    (hd : Dish.read ds dish = .ok d) :
    ∀ assigned : List (Option Nat), (∀ x ∈ assigned, ∃ y, Dish.read ds x = .ok y) →
      ∃ b, assignedLoop ds dish assigned = .ok b ∧ (b = true ↔ hasDish ds assigned d.name_) := by
  intro assigned
  induction assigned with
  | nil =>
    intro _
    refine ⟨false, rfl, ?_⟩
    simp [hasDish]
  | cons x rest ih =>
    intro hv
    obtain ⟨y, hy⟩ := hv x (List.mem_cons_self _ _)
    obtain ⟨b, hb, hiff⟩ := ih fun z hz => hv z (List.mem_cons_of_mem _ hz)
    simp only [assignedLoop, dishName_of_read hy, dishName_of_read hd, ok_bind]
    by_cases hn : y.name_ = d.name_
    · refine ⟨true, by rw [if_pos hn]; rfl, ?_⟩
      simp only [true_iff]
      exact ⟨x, List.mem_cons_self _ _, by rw [dishName_of_read hy, hn]⟩
    · refine ⟨b, by rw [if_neg hn]; exact hb, ?_⟩
      rw [hiff]
      constructor
      · rintro ⟨z, hz, hzn⟩
        exact ⟨z, List.mem_cons_of_mem _ hz, hzn⟩
      · rintro ⟨z, hz, hzn⟩
        rcases List.mem_cons.mp hz with rfl | hz
        · rw [dishName_of_read hy] at hzn
          exact absurd (Except.ok.inj hzn) hn
        · exact ⟨z, hz, hzn⟩

/-- The condition "can complete and prepares" on a live station: it finishes
with the value of `canCompleteOrder`, leaves the records as they are when that
is false, and otherwise writes only the stock of this station. -/
theorem tryPrepare_total {ds : Dishes} {st : Stations} {a : Nat} {s : KitchenStation}
    (hs : st[a]? = some s) (hv : ∀ d ∈ s.dishes_, ∃ dish, Dish.read ds d = .ok dish)
    (dname : String) :
    ∃ st' r, tryPrepare ds st (some a) dname = .ok (st', r) ∧
      s.canCompleteOrder ds dname = .ok r ∧ shape st' = shape st ∧ (r = false → st' = st) := by
  obtain ⟨can, hcan⟩ := canCompleteOrder_total ds s dname hv
  cases can with
  | false =>
    refine ⟨st, false, ?_, hcan, rfl, fun _ => rfl⟩
    simp [tryPrepare, readStation_live hs, hcan, ok_bind, pure_eq_ok]
  | true =>
    obtain ⟨s', hprep, hn, hd⟩ := prepareDish_of_can hcan
    refine ⟨st.set a s', true, ?_, hcan, shape_set hs hn hd, fun e => by cases e⟩
    simp [tryPrepare, readStation_live hs, hcan, hprep, ok_bind, pure_eq_ok, writeStation]

/-- One transfer from the backup pool on a registry in good order finishes and
writes no name and no dish assignment. -/
theorem replenishFromBackup_total {st : Stations} {h : Heap (Option Nat)} {l : LinkedList}
    (hreg : Registry st h l) {fuel : Nat} (hf : l.getLength ≤ fuel) (pool : List Ingredient)
    (sname iname : String) (q : Int) :
    ∃ st' pool' r,
      replenishStationIngredientFromBackup fuel st h l pool sname iname q = .ok (st', pool', r) ∧
      shape st' = shape st := by
  rcases replenish_cases hreg hf pool sname iname q with
    ⟨-, hrun⟩ | ⟨-, -, hrun⟩ | ⟨-, a, s, pre, e, post, -, hs, -, -, -, hrun⟩
  · exact ⟨_, _, _, hrun, rfl⟩
  · exact ⟨_, _, _, hrun, rfl⟩
  · exact ⟨_, _, _, hrun, shape_set hs rfl rfl⟩

theorem registry_of_shape {st st' : Stations} {h : Heap (Option Nat)} {l : LinkedList}
    (hreg : Registry st h l) (e : shape st' = shape st) : Registry st' h l := by
  obtain ⟨cs, hc, hv⟩ := hreg
  exact ⟨cs, hc, listed_of_shape hv e⟩

theorem getName_of_shape {st st' : Stations} (e : shape st' = shape st) (p : Option Nat) :
    getName st' p = getName st p := by
  cases p with
  | none => rfl
  | some a =>
    have h1 : (shape st')[a]? = (shape st)[a]? := by rw [e]
    simp only [shape, List.getElem?_map] at h1
    simp only [getName]
    cases h2 : st[a]? <;> cases h3 : st'[a]? <;> rw [h2, h3] at h1 <;> simp at h1 ⊢
    exact h1.1

/-- The replenishing loop of `processAllDishes` for a live station on a
registry in good order finishes and writes no name and no dish assignment. -/
theorem replenishLoop_total {h : Heap (Option Nat)} {l : LinkedList} {fuel : Nat}
    (hf : l.getLength ≤ fuel) (a : Nat) :
    ∀ (ingredients : List Ingredient) (st : Stations) (backup : List Ingredient) (r : Bool)
      (s : KitchenStation), Registry st h l → st[a]? = some s →
      ∃ st' backup' r', replenishLoop fuel h l (some a) ingredients st backup r =
        .ok (st', backup', r') ∧ shape st' = shape st := by
  intro ingredients
  induction ingredients with
  | nil => intro st backup r s _ _; exact ⟨st, backup, r, rfl, rfl⟩
  | cons i rest ih =>
    intro st backup r s hreg hs
    obtain ⟨st1, backup2, r1, hrun, hshape⟩ := replenishFromBackup_total hreg hf
      (addBackupIngredient backup i).1 s.name_ i.name i.required_quantity
    obtain ⟨s1, hs1, -, -⟩ := shape_live hshape hs
    obtain ⟨st', backup', r', hrest, hshape'⟩ := ih st1 backup2 (if r1 then true else r) s1
      (registry_of_shape hreg hshape) hs1
    refine ⟨st', backup', r', ?_, hshape'.trans hshape⟩
    have hname : getName st (some a) = .ok s.name_ := by simp [getName, hs]
    simp only [replenishLoop, hname, ok_bind, hrun]
    exact hrest

/-- A station that does not have the dish assigned is passed over: the visit
writes two lines and nothing else. -/
theorem visitStation_unassigned {fuel : Nat} {ds : Dishes} {h : Heap (Option Nat)}
    {l : LinkedList} {dish : Option Nat} {d : Dish} (hd : Dish.read ds dish = .ok d)
    {j : Int} {a : Nat} {s : KitchenStation} {w : Pass} (hget : getEntry h l j = .ok (some a))
    (hs : w.stations[a]? = some s) (hv : ∀ x ∈ s.dishes_, ∃ y, Dish.read ds x = .ok y)
    (hnot : ¬ hasDish ds s.dishes_ d.name_) :
    visitStation fuel ds h l dish j w =
      .ok ({ w with out := w.out ++ [s.name_ ++ " attempting to prepare " ++ d.name_ ++ "..."]
              ++ [s.name_ ++ ": Dish not available. Moving to next station..."] }, false) := by
  obtain ⟨b, hb, hiff⟩ := assignedLoop_total hd s.dishes_ hv
  have hbf : b = false := by
    cases b with
    | false => rfl
    | true => exact absurd (hiff.mp rfl) hnot
  subst hbf
  have hname : getName w.stations (some a) = .ok s.name_ := by simp [getName, hs]
  simp only [visitStation, hget, hname, dishName_of_read hd, readStation_live hs, hb, ok_bind]
  rfl

/-- One station visit on a registry in good order finishes; it writes no name
and no dish assignment, and it pops the queue exactly when it prepared the
dish. -/
theorem visitStation_total {fuel : Nat} {ds : Dishes} {h : Heap (Option Nat)} {l : LinkedList}
    (hf : l.getLength ≤ fuel) {dish : Option Nat} {d : Dish} (hd : Dish.read ds dish = .ok d)
    {j : Int} {a : Nat} {s : KitchenStation} {w : Pass} (hget : getEntry h l j = .ok (some a))
    (hs : w.stations[a]? = some s) (hreg : Registry w.stations h l)
    (hok : DishesOk ds w.stations) :
    ∃ w' b, visitStation fuel ds h l dish j w = .ok (w', b) ∧
      shape w'.stations = shape w.stations ∧
      w'.queue = (if b then w.queue.tail else w.queue) := by
  have hv := hok.of_get hs
  obtain ⟨b, hb, hiff⟩ := assignedLoop_total hd s.dishes_ hv
  have hname : getName w.stations (some a) = .ok s.name_ := by simp [getName, hs]
  cases b with
  | false =>
    have hnot : ¬ hasDish ds s.dishes_ d.name_ := fun hh => by
      have := hiff.mpr hh
      cases this
    exact ⟨_, false, visitStation_unassigned hd hget hs hv hnot, rfl, rfl⟩
  | true =>
    obtain ⟨st1, done, htry, -, hshape1, hsame⟩ := tryPrepare_total hs hv d.name_
    cases done with
    | true =>
      have hrun : ∃ w', visitStation fuel ds h l dish j w = .ok (w', true) ∧
          w'.stations = st1 ∧ w'.queue = w.queue.tail := by
        simp only [visitStation, hget, hname, dishName_of_read hd, readStation_live hs, hb,
          ok_bind, htry, pure_eq_ok, if_true]
        exact ⟨_, rfl, rfl, rfl⟩
      obtain ⟨w', hrun, h1, h2⟩ := hrun
      exact ⟨w', true, hrun, by rw [h1]; exact hshape1, h2⟩
    | false =>
      have hst1 : st1 = w.stations := hsame rfl
      subst hst1
      have hing : Dish.getIngredients ds dish = .ok d.ingredients_ := by
        simp [Dish.getIngredients, hd, Except.map]
      obtain ⟨st2, backup2, fl, hloop, hshape2⟩ :=
        replenishLoop_total hf a d.ingredients_ w.stations w.backup false s hreg hs
      obtain ⟨s2, hs2, -, hd2⟩ := shape_live hshape2 hs
      have hv2 : ∀ x ∈ s2.dishes_, ∃ y, Dish.read ds x = .ok y := by rw [hd2]; exact hv
      obtain ⟨st3, done2, htry2, -, hshape3, -⟩ := tryPrepare_total hs2 hv2 d.name_
      cases fl with
      | false =>
        have hrun : ∃ w', visitStation fuel ds h l dish j w = .ok (w', false) ∧
            w'.stations = st2 ∧ w'.queue = w.queue := by
          simp only [visitStation, hget, hname, dishName_of_read hd, readStation_live hs, hb,
            ok_bind, htry, hing, hloop, pure_eq_ok, if_true]
          exact ⟨_, rfl, rfl, rfl⟩
        obtain ⟨w', hrun, h1, h2⟩ := hrun
        exact ⟨w', false, hrun, by rw [h1]; exact hshape2, h2⟩
      | true =>
        cases done2 with
        | true =>
          have hrun : ∃ w', visitStation fuel ds h l dish j w = .ok (w', true) ∧
              w'.stations = st3 ∧ w'.queue = w.queue.tail := by
            simp only [visitStation, hget, hname, dishName_of_read hd, readStation_live hs, hb,
              ok_bind, htry, hing, hloop, pure_eq_ok, if_true, htry2]
            exact ⟨_, rfl, rfl, rfl⟩
          obtain ⟨w', hrun, h1, h2⟩ := hrun
          exact ⟨w', true, hrun, by rw [h1]; exact hshape3.trans hshape2, h2⟩
        | false =>
          have hrun : ∃ w', visitStation fuel ds h l dish j w = .ok (w', false) ∧
              w'.stations = st3 ∧ w'.queue = w.queue := by
            simp only [visitStation, hget, hname, dishName_of_read hd, readStation_live hs, hb,
              ok_bind, htry, hing, hloop, pure_eq_ok, if_true, htry2]
            exact ⟨_, rfl, rfl, rfl⟩
          obtain ⟨w', hrun, h1, h2⟩ := hrun
          exact ⟨w', false, hrun, by rw [h1]; exact hshape3.trans hshape2, h2⟩

/-- The scan of the stations for one dish on a registry in good order
finishes; it writes no name and no dish assignment, and it pops the queue
exactly when a station prepared the dish. -/
theorem stationLoop_total {fuel : Nat} {ds : Dishes} {h : Heap (Option Nat)} {l : LinkedList}
    {cs : List (Nat × Option Nat)} (hc : Chain h l cs) (hf : l.getLength ≤ fuel)
    {dish : Option Nat} {d : Dish} (hd : Dish.read ds dish = .ok d) :
    ∀ (suffix : List (Nat × Option Nat)) (i : Nat) (w : Pass), cs.drop i = suffix →
      Listed w.stations cs → DishesOk ds w.stations →
      ∃ w' b, stationLoop fuel ds h l dish suffix.length (i : Int) w = .ok (w', b) ∧
        shape w'.stations = shape w.stations ∧
        w'.queue = (if b then w.queue.tail else w.queue) := by
  intro suffix
  induction suffix with
  | nil => intro i w _ _ _; exact ⟨w, false, rfl, rfl, rfl⟩
  | cons c rest ih =>
    intro i w hdrop hv hok
    obtain ⟨hget, hrest⟩ := getEntry_of_drop hc hdrop
    have hmem : c ∈ cs := List.mem_of_mem_drop (by rw [hdrop]; exact List.mem_cons_self _ _)
    obtain ⟨a, s, hca, hs⟩ := hv c hmem
    rw [hca] at hget
    obtain ⟨w1, b1, hvisit, hshape1, hq1⟩ :=
      visitStation_total hf hd hget hs ⟨cs, hc, hv⟩ hok
    cases b1 with
    | true =>
      refine ⟨w1, true, ?_, hshape1, hq1⟩
      simp only [List.length_cons, stationLoop, hvisit, ok_bind]
      rfl
    | false =>
      obtain ⟨w2, b2, hloop, hshape2, hq2⟩ := ih (i + 1) w1 hrest
        (listed_of_shape hv hshape1) (dishesOk_of_shape hok hshape1)
      refine ⟨w2, b2, ?_, hshape2.trans hshape1, ?_⟩
      · simp only [List.length_cons, stationLoop, hvisit, ok_bind]
        rw [Nat.cast_succ] at hloop
        exact hloop
      · rw [hq2, hq1]; rfl

/-- The scan of stations none of which has the dish assigned writes lines and
nothing else, and reports that the dish was not prepared. -/
theorem stationLoop_unassigned {fuel : Nat} {ds : Dishes} {h : Heap (Option Nat)}
    {l : LinkedList} {cs : List (Nat × Option Nat)} (hc : Chain h l cs)
    {dish : Option Nat} {d : Dish} (hd : Dish.read ds dish = .ok d) {st : Stations}
    (hv : Listed st cs) (hok : DishesOk ds st) :
    ∀ (suffix : List (Nat × Option Nat)) (i : Nat) (w : Pass), cs.drop i = suffix →
      w.stations = st →
      (∀ c ∈ suffix, ∀ a s, c.2 = some a → st[a]? = some s → ¬ hasDish ds s.dishes_ d.name_) →
      ∃ lines, stationLoop fuel ds h l dish suffix.length (i : Int) w =
        .ok ({ w with out := w.out ++ lines }, false) := by
  intro suffix
  induction suffix with
  | nil =>
    intro i w _ _ _
    exact ⟨[], by simp [stationLoop, pure_eq_ok]⟩
  | cons c rest ih =>
    intro i w hdrop hst hnone
    obtain ⟨hget, hrest⟩ := getEntry_of_drop hc hdrop
    have hmem : c ∈ cs := List.mem_of_mem_drop (by rw [hdrop]; exact List.mem_cons_self _ _)
    obtain ⟨a, s, hca, hs⟩ := hv c hmem
    rw [hca] at hget
    have hs' : w.stations[a]? = some s := by rw [hst]; exact hs
    have hvisit := @visitStation_unassigned fuel ds h l dish d hd (i : Int) a s w hget hs'
      (hok.of_get hs) (hnone c (List.mem_cons_self _ _) a s hca hs)
    obtain ⟨lines, hloop⟩ := ih (i + 1)
      { w with out := w.out ++ [s.name_ ++ " attempting to prepare " ++ d.name_ ++ "..."]
          ++ [s.name_ ++ ": Dish not available. Moving to next station..."] }
      hrest hst (fun x hx => hnone x (List.mem_cons_of_mem _ hx))
    refine ⟨[s.name_ ++ " attempting to prepare " ++ d.name_ ++ "..."]
      ++ [s.name_ ++ ": Dish not available. Moving to next station..."] ++ lines, ?_⟩
    simp only [List.length_cons, stationLoop, hvisit, ok_bind]
    rw [Nat.cast_succ] at hloop
    simp only [Bool.false_eq_true, if_false]
    rw [hloop]
    simp [List.append_assoc]

theorem chain_rounds {T : Type} {h : Heap T} {l : LinkedList} {cs : List (Nat × T)}
    (hc : Chain h l cs) : l.getLength.toNat = cs.length := by
  show l.item_count_.toNat = cs.length
  rw [hc.2]; exact Int.toNat_ofNat _

/-- The dish loop of `processAllDishes` on a state in good order whose queue
starts with `dishes`: it finishes, it is the handling of `dishes` in their
order, and it leaves in the queue what followed `dishes`, then the dishes of
`dishes` that no station prepared. -/
theorem dishLoop_trace {fuel : Nat} {ds : Dishes} {h : Heap (Option Nat)} {l : LinkedList}
    {cs : List (Nat × Option Nat)} (hc : Chain h l cs) (hf : l.getLength ≤ fuel) :
    ∀ (dishes : List (Option Nat)) (w : Pass) (later : List (Option Nat)),
      w.queue = dishes ++ later → Listed w.stations cs → DishesOk ds w.stations →
      QueueOk ds dishes →
      ∃ w1 flags, handleInOrder fuel ds h l dishes w = .ok (w1, flags) ∧
        dishLoop fuel ds h l dishes.length w = .ok w1 ∧ flags.length = dishes.length ∧
        w1.queue = later ++ unprepared dishes flags ∧ shape w1.stations = shape w.stations := by
  intro dishes
  induction dishes with
  | nil =>
    intro w later hq _ _ _
    exact ⟨w, [], rfl, rfl, rfl, by simpa [unprepared] using hq, rfl⟩
  | cons dish rest ih =>
    intro w later hq hv hok hqok
    obtain ⟨st, bk, q, o⟩ := w
    simp only at hq hv hok
    subst hq
    obtain ⟨d, hd⟩ := hqok dish (List.mem_cons_self _ _)
    have hname := dishName_of_read hd
    obtain ⟨w2, b, hscan, hshape2, hq2⟩ := stationLoop_total hc hf hd cs 0
      ⟨st, bk, dish :: (rest ++ later), o ++ ["PREPARING DISH: " ++ d.name_]⟩ (List.drop_zero _)
      hv hok
    rw [← chain_rounds hc, Nat.cast_zero] at hscan
    have hqok' : QueueOk ds rest := fun x hx => hqok x (List.mem_cons_of_mem _ hx)
    have hv2 : Listed w2.stations cs := listed_of_shape hv hshape2
    have hok2 : DishesOk ds w2.stations := dishesOk_of_shape hok hshape2
    cases b with
    | true =>
      have hq2' : w2.queue = rest ++ later := by
        rw [hq2]; simp
      obtain ⟨w1, flags, hrun, hloop, hlen, hq1, hshape1⟩ := ih w2 later hq2' hv2 hok2 hqok'
      refine ⟨w1, true :: flags, ?_, ?_, by simp [hlen], ?_, hshape1.trans hshape2⟩
      · simp only [handleInOrder, List.cons_append, hname, ok_bind, hscan, if_true, hrun]
        rfl
      · simp only [List.length_cons, dishLoop, List.cons_append, hname, ok_bind, hscan,
          if_true]
        exact hloop
      · rw [hq1]; simp [unprepared]
    | false =>
      have hq2' : w2.queue.tail ++ [dish] = rest ++ (later ++ [dish]) := by
        rw [hq2]; simp
      obtain ⟨w1, flags, hrun, hloop, hlen, hq1, hshape1⟩ := ih
        { w2 with queue := w2.queue.tail ++ [dish]
                  out := w2.out ++ [d.name_ ++ " was not prepared."] }
        (later ++ [dish]) hq2' hv2 hok2 hqok'
      refine ⟨w1, false :: flags, ?_, ?_, by simp [hlen], ?_, hshape1.trans hshape2⟩
      · simp only [handleInOrder, List.cons_append, hname, ok_bind, hscan, Bool.false_eq_true,
          if_false, hrun]
        rfl
      · simp only [List.length_cons, dishLoop, List.cons_append, hname, ok_bind, hscan,
          Bool.false_eq_true, if_false]
        exact hloop
      · rw [hq1]; simp [unprepared]

theorem unprepared_sublist :
    ∀ (dishes : List (Option Nat)) (flags : List Bool),
      (unprepared dishes flags).Sublist dishes ∧
      (flags.length = dishes.length →
        (unprepared dishes flags).length + flags.count true = dishes.length) := by
  intro dishes
  induction dishes with
  | nil => intro flags; cases flags <;> simp [unprepared]
  | cons d rest ih =>
    intro flags
    cases flags with
    | nil => simp [unprepared]
    | cons b bs =>
      obtain ⟨h1, h2⟩ := ih bs
      cases b with
      | true =>
        refine ⟨by simpa [unprepared] using h1.cons d, fun hl => ?_⟩
        have := h2 (by simpa using hl)
        simp [unprepared]; omega
      | false =>
        refine ⟨by simpa [unprepared] using h1.cons₂ d, fun hl => ?_⟩
        have := h2 (by simpa using hl)
        simp [unprepared]; omega

/-- What a pass does on a state in good order: it finishes, it is the handling
of the dishes of the initial queue in their order, and its queue afterwards
holds the dishes no station prepared. -/
theorem processAllDishes_trace {fuel : Nat} {ds : Dishes} {h : Heap (Option Nat)}
    {l : LinkedList} {w : Pass} (hreg : Registry w.stations h l) (hok : DishesOk ds w.stations)
    (hq : QueueOk ds w.queue) (hf : l.getLength ≤ fuel) :
    ∃ w1 flags, handleInOrder fuel ds h l w.queue w = .ok (w1, flags) ∧
      processAllDishes fuel ds h l w =
        .ok { w1 with out := w1.out ++ ["All dishes have been processed."] } ∧
      flags.length = w.queue.length ∧ w1.queue = unprepared w.queue flags ∧
      shape w1.stations = shape w.stations := by
  obtain ⟨cs, hc, hv⟩ := hreg
  obtain ⟨w1, flags, hrun, hloop, hlen, hq1, hshape⟩ :=
    dishLoop_trace hc hf w.queue w [] (List.append_nil _).symm hv hok hq
  refine ⟨w1, flags, hrun, ?_, hlen, by simpa using hq1, hshape⟩
  simp only [processAllDishes, hloop, ok_bind]
  rfl

theorem demo_queue : QueueOk demoDishes demoPass.queue := by
  intro d hd
  simp only [demoPass, List.mem_cons, List.mem_singleton, List.not_mem_nil, or_false] at hd
  rcases hd with rfl | rfl | rfl | rfl <;> exact ⟨_, rfl⟩

/-- C21: on a state in good order (registry in good order, assigned and queued
dish pointers valid, enough rounds for the station look-ups) `processAllDishes`
finishes, and what it does is the handling, one after the other and in queue
order, of exactly the dishes that were in the queue when the call began, one
"PREPARING DISH" line and one scan of the stations each, followed by the
closing line. A dish that goes back to the queue during the pass is not handled
again. -/
theorem processAllDishes_handles_initial (fuel : Nat) (ds : Dishes) (h : Heap (Option Nat))
    (l : LinkedList) (w : Pass) (hreg : Registry w.stations h l) (hok : DishesOk ds w.stations)
    (hq : QueueOk ds w.queue) (hf : l.getLength ≤ fuel) :
    ∃ w1 flags, handleInOrder fuel ds h l w.queue w = .ok (w1, flags) ∧
      flags.length = w.queue.length ∧
      processAllDishes fuel ds h l w =
        .ok { w1 with out := w1.out ++ ["All dishes have been processed."] } := by
  obtain ⟨w1, flags, hrun, hpass, hlen, -, -⟩ := processAllDishes_trace hreg hok hq hf
  exact ⟨w1, flags, hrun, hlen, hpass⟩

theorem processAllDishes_handles_initial_witness :
    Registry demoPass.stations demoKitchenHeap demoKitchenList ∧
    DishesOk demoDishes demoPass.stations ∧ QueueOk demoDishes demoPass.queue ∧
    demoKitchenList.getLength ≤ ((2 : Nat) : Int) ∧
    (handleInOrder 2 demoDishes demoKitchenHeap demoKitchenList demoPass.queue demoPass).map
        Prod.snd = .ok [true, true, false, true] ∧
    ∃ w1 flags,
      handleInOrder 2 demoDishes demoKitchenHeap demoKitchenList demoPass.queue demoPass =
        .ok (w1, flags) ∧
      flags.length = demoPass.queue.length ∧
      processAllDishes 2 demoDishes demoKitchenHeap demoKitchenList demoPass =
        .ok { w1 with out := w1.out ++ ["All dishes have been processed."] } :=
  ⟨demo_kitchen, demo_kitchen_dishes, demo_queue, by decide, by rfl,
    processAllDishes_handles_initial 2 demoDishes demoKitchenHeap demoKitchenList demoPass
      demo_kitchen demo_kitchen_dishes demo_queue (by decide)⟩

/-- The dish loop over dishes that no registered station has assigned: every
dish goes to the tail of the queue, and only lines are written. -/
theorem dishLoop_unassigned {fuel : Nat} {ds : Dishes} {h : Heap (Option Nat)} {l : LinkedList}
    {cs : List (Nat × Option Nat)} (hc : Chain h l cs) {st : Stations} (hv : Listed st cs)
    (hok : DishesOk ds st) :
    ∀ (dishes : List (Option Nat)) (w : Pass) (later : List (Option Nat)),
      w.queue = dishes ++ later → w.stations = st → QueueOk ds dishes →
      (∀ d ∈ dishes, ∀ name, Dish.getName ds d = .ok name →
        ∀ c ∈ cs, ∀ a s, c.2 = some a → st[a]? = some s → ¬ hasDish ds s.dishes_ name) →
      ∃ lines, dishLoop fuel ds h l dishes.length w =
        .ok { w with queue := later ++ dishes, out := w.out ++ lines } := by
  intro dishes
  induction dishes with
  | nil =>
    intro w later hq _ _ _
    refine ⟨[], ?_⟩
    obtain ⟨st0, bk, q, o⟩ := w
    simp only [List.nil_append] at hq
    subst hq
    simp [dishLoop, pure_eq_ok]
  | cons dish rest ih =>
    intro w later hq hst hqok hnone
    obtain ⟨st0, bk, q, o⟩ := w
    simp only at hq hst
    subst hq hst
    obtain ⟨d, hd⟩ := hqok dish (List.mem_cons_self _ _)
    have hname := dishName_of_read hd
    obtain ⟨lines, hscan⟩ := @stationLoop_unassigned fuel ds h l cs hc dish d hd st0 hv hok cs 0
      ⟨st0, bk, dish :: (rest ++ later), o ++ ["PREPARING DISH: " ++ d.name_]⟩
      (List.drop_zero _) rfl
      (fun c hcm a s hca hs => hnone dish (List.mem_cons_self _ _) d.name_ hname c hcm a s hca hs)
    rw [← chain_rounds hc, Nat.cast_zero] at hscan
    obtain ⟨lines2, hloop⟩ := ih
      ⟨st0, bk, rest ++ (later ++ [dish]),
        o ++ ["PREPARING DISH: " ++ d.name_] ++ lines ++ [d.name_ ++ " was not prepared."]⟩
      (later ++ [dish]) rfl rfl (fun x hx => hqok x (List.mem_cons_of_mem _ hx))
      (fun x hx => hnone x (List.mem_cons_of_mem _ hx))
    refine ⟨["PREPARING DISH: " ++ d.name_] ++ lines ++ [d.name_ ++ " was not prepared."]
      ++ lines2, ?_⟩
    simp only [List.length_cons, dishLoop, List.cons_append, hname, ok_bind, hscan,
      Bool.false_eq_true, if_false, List.tail_cons]
    simp only [List.append_assoc, List.cons_append, List.nil_append] at hloop ⊢
    rw [hloop]

/-- C26: on a state in good order in which no registered station has a dish
assigned that carries the name of a queued dish (an empty registry included),
`processAllDishes` finishes and leaves the queue with the same dishes in the
same order, the backup pool as it was, and every station record, its stock
included, as it was. -/
theorem processAllDishes_unassigned_keeps_state (fuel : Nat) (ds : Dishes)
    (h : Heap (Option Nat)) (l : LinkedList) (w : Pass) (hreg : Registry w.stations h l)
    (hok : DishesOk ds w.stations) (hq : QueueOk ds w.queue)
    (hnone : ∀ d ∈ w.queue, ∀ name, Dish.getName ds d = .ok name →
      ∀ a s, Except.ok (some a) ∈ entries h l → w.stations[a]? = some s →
        ¬ hasDish ds s.dishes_ name) :
    ∃ w', processAllDishes fuel ds h l w = .ok w' ∧ w'.queue = w.queue ∧
      w'.backup = w.backup ∧ w'.stations = w.stations := by
  obtain ⟨cs, hc, hv⟩ := hreg
  obtain ⟨lines, hloop⟩ := @dishLoop_unassigned fuel ds h l cs hc w.stations hv hok w.queue w []
    (List.append_nil _).symm rfl hq
    (fun d hd name hname c hcm a s hca hs => hnone d hd name hname a s
      (by rw [entries_chain hc, ← hca]; exact List.mem_map.mpr ⟨c, hcm, rfl⟩) hs)
  refine ⟨⟨w.stations, w.backup, w.queue,
    w.out ++ lines ++ ["All dishes have been processed."]⟩, ?_, rfl, rfl, rfl⟩
  simp only [processAllDishes, hloop, ok_bind, List.nil_append]
  rfl

theorem processAllDishes_unassigned_keeps_state_witness :
    Registry demoIdlePass.stations demoRegistryHeap demoRegistry ∧
    DishesOk demoDishes demoIdlePass.stations ∧ QueueOk demoDishes demoIdlePass.queue ∧
    (∀ d ∈ demoIdlePass.queue, ∀ name, Dish.getName demoDishes d = .ok name →
      ∀ a s, Except.ok (some a) ∈ entries demoRegistryHeap demoRegistry →
        demoIdlePass.stations[a]? = some s → ¬ hasDish demoDishes s.dishes_ name) ∧
    ∃ w', processAllDishes 3 demoDishes demoRegistryHeap demoRegistry demoIdlePass = .ok w' ∧
      w'.queue = demoIdlePass.queue ∧ w'.backup = demoIdlePass.backup ∧
      w'.stations = demoIdlePass.stations :=
  have hok : DishesOk demoDishes demoIdlePass.stations := by
    intro s hs d hd
    simp only [demoIdlePass, demoStations, List.mem_cons, List.mem_singleton,
      List.not_mem_nil, or_false] at hs
    rcases hs with rfl | rfl | rfl <;> cases hd
  have hq : QueueOk demoDishes demoIdlePass.queue := by
    intro d hd
    simp only [demoIdlePass, List.mem_cons, List.mem_singleton, List.not_mem_nil,
      or_false] at hd
    rcases hd with rfl | rfl <;> exact ⟨_, rfl⟩
  have hnone : ∀ d ∈ demoIdlePass.queue, ∀ name, Dish.getName demoDishes d = .ok name →
      ∀ a s, Except.ok (some a) ∈ entries demoRegistryHeap demoRegistry →
        demoIdlePass.stations[a]? = some s → ¬ hasDish demoDishes s.dishes_ name := by
    intro d _ name _ a s _ hs
    have hmem : s ∈ demoStations := List.getElem?_mem hs
    simp only [demoStations, List.mem_cons, List.mem_singleton, List.not_mem_nil,
      or_false] at hmem
    rcases hmem with rfl | rfl | rfl <;> rintro ⟨x, hx, -⟩ <;> cases hx
  ⟨demo_registry, hok, hq, hnone,
    processAllDishes_unassigned_keeps_state 3 demoDishes demoRegistryHeap demoRegistry
      demoIdlePass demo_registry hok hq hnone⟩

theorem main_setup : mainSetup = .ok (mainHeap, mainList, mainPass) := by rfl

/-- C24: the run of `main` on the scenario it builds, that is the lines the pass
writes, in order, and the queue it leaves. The run departs from the expected
output in one place: Grilled Chicken is prepared at Grill Station after one
replenishment, and Oven Station is not asked for it. Elsewhere it is as
expected: Spaghetti Bolognese is prepared at Pasta Station after one
replenishment, Vegan Salad is prepared directly at Salad Station, Seafood
Paella is not prepared and goes back to the queue, Beef Wellington is available
at no station and goes back to the queue, and the closing line is written
once. -/
theorem main_pass_outcome :
    main.map (fun w => (w.out, w.queue)) = .ok
      (["PREPARING DISH: Spaghetti Bolognese",
        "Pasta Station attempting to prepare Spaghetti Bolognese...",
        "Pasta Station: Insufficient ingredients. Replenishing ingredients...",
        "Pasta Station: Ingredients replenished.",
        "Pasta Station: Successfully prepared Spaghetti Bolognese.",
        "PREPARING DISH: Vegan Salad",
        "Pasta Station attempting to prepare Vegan Salad...",
        "Pasta Station: Dish not available. Moving to next station...",
        "Salad Station attempting to prepare Vegan Salad...",
        "Salad Station: Successfully prepared Vegan Salad.",
        "PREPARING DISH: Seafood Paella",
        "Pasta Station attempting to prepare Seafood Paella...",
        "Pasta Station: Dish not available. Moving to next station...",
        "Salad Station attempting to prepare Seafood Paella...",
        "Salad Station: Dish not available. Moving to next station...",
        "Seafood Station attempting to prepare Seafood Paella...",
        "Seafood Station: Insufficient ingredients. Replenishing ingredients...",
        "Seafood Station: Unable to replenish ingredients. Failed to prepare Seafood Paella.",
        "Grill Station attempting to prepare Seafood Paella...",
        "Grill Station: Dish not available. Moving to next station...",
        "Oven Station attempting to prepare Seafood Paella...",
        "Oven Station: Dish not available. Moving to next station...",
        "Seafood Paella was not prepared.",
        "PREPARING DISH: Grilled Chicken",
        "Pasta Station attempting to prepare Grilled Chicken...",
        "Pasta Station: Dish not available. Moving to next station...",
        "Salad Station attempting to prepare Grilled Chicken...",
        "Salad Station: Dish not available. Moving to next station...",
        "Seafood Station attempting to prepare Grilled Chicken...",
        "Seafood Station: Dish not available. Moving to next station...",
        "Grill Station attempting to prepare Grilled Chicken...",
        "Grill Station: Insufficient ingredients. Replenishing ingredients...",
        "Grill Station: Ingredients replenished.",
        "Grill Station: Successfully prepared Grilled Chicken.",
        "PREPARING DISH: Beef Wellington",
        "Pasta Station attempting to prepare Beef Wellington...",
        "Pasta Station: Dish not available. Moving to next station...",
        "Salad Station attempting to prepare Beef Wellington...",
        "Salad Station: Dish not available. Moving to next station...",
        "Seafood Station attempting to prepare Beef Wellington...",
        "Seafood Station: Dish not available. Moving to next station...",
        "Grill Station attempting to prepare Beef Wellington...",
        "Grill Station: Dish not available. Moving to next station...",
        "Oven Station attempting to prepare Beef Wellington...",
        "Oven Station: Dish not available. Moving to next station...",
        "Beef Wellington was not prepared.",
        "All dishes have been processed."],
       [some 2, some 4]) := by rfl

theorem stockOf_append (xs ys : List Ingredient) (n : String) :
    stockOf (xs ++ ys) n = stockOf xs n + stockOf ys n := by
  simp [stockOf, List.filter_append]

theorem stockOf_cons (e : Ingredient) (xs : List Ingredient) (n : String) :
    stockOf (e :: xs) n = (if e.name = n then e.quantity else 0) + stockOf xs n := by
  by_cases hn : e.name = n <;> simp [stockOf, List.filter_cons, hn]

/-- Adding an ingredient to the pool raises the pool's quantity of its name by
its quantity, and no other, when the sum it forms is an `int`. -/
theorem stockOf_addBackup (i : Ingredient) (n : String) (pool : List Ingredient)
    (hsum : ∀ e ∈ pool, e.name = i.name → InInt (e.quantity + i.quantity)) :
    stockOf (addBackupIngredientScan pool i) n =
      stockOf pool n + if i.name = n then i.quantity else 0 := by
  rcases first_split (fun d : Ingredient => d.name = i.name) pool with
    hall | ⟨pre, e, post, hsplit, hpre, he⟩
  · rw [addBackupIngredientScan_miss i pool hall, stockOf_append, stockOf_cons]
    simp [stockOf]
  · have hin := hsum e (by rw [hsplit]; simp) he
    rw [hsplit, addBackupIngredientScan_hit i e post he pre hpre, wrapInt_of_inInt hin,
      stockOf_append, stockOf_append, stockOf_cons, stockOf_cons]
    simp only [he]
    by_cases hn : i.name = n
    · rw [if_pos hn, if_pos hn, if_pos hn]; ring
    · rw [if_neg hn, if_neg hn, if_neg hn]; ring

/-- What the replenishing loop of `processAllDishes` does, on a registry in
good order, for a scanned station called `nm`: the transfers that succeed all
go to the first registered station called `nm`, whose record gets the
transferred ingredients merged in, in order; the flag is set once a transfer
has succeeded. -/
theorem replenishLoop_effect {h : Heap (Option Nat)} {l : LinkedList} {fuel : Nat}
    {pre post : List (Nat × Option Nat)} {c : Nat × Option Nat}
    (hc : Chain h l (pre ++ c :: post)) (hf : (pre ++ c :: post).length ≤ fuel) {a : Nat}
    (hca : c.2 = some a) (a0 : Nat) (nm : String) :
    ∀ (ingredients : List Ingredient) (st : Stations) (backup : List Ingredient) (fl : Bool)
      (s : KitchenStation), Listed st (pre ++ c :: post) → st[a]? = some s → s.name_ = nm →
      (∀ d ∈ pre, getName st d.2 ≠ .ok nm) → getName st (some a0) = .ok nm →
      ∃ moved backup' fl', replenishLoop fuel h l (some a0) ingredients st backup fl =
          .ok (st.set a (replenishedWith s (moved.map transferOf)), backup', fl') ∧
        moved.Sublist ingredients ∧ (fl' = true ↔ fl = true ∨ moved ≠ []) := by
  intro ingredients
  induction ingredients with
  | nil =>
    intro st backup fl s _ hs _ _ _
    refine ⟨[], backup, fl, ?_, List.Sublist.refl _, by simp⟩
    simp only [List.map_nil, replenishedWith, List.foldl_nil, set_same hs]
    rfl
  | cons i rest ih =>
    intro st backup fl s hv hs hsn hmiss hscanned
    have hname : getName st c.2 = .ok nm := by rw [hca]; simp [getName, hs, hsn]
    have hfind : findStation fuel st h l nm = .ok (some a) := by
      rw [← hca]; exact findStation_hit hc hv hmiss hname hf
    have hrep : ∀ pool, replenishStationIngredientFromBackup fuel st h l pool nm i.name
        i.required_quantity = replenishScan fuel st h l nm i.name i.required_quantity pool := by
      intro pool
      simp [replenishStationIngredientFromBackup, hfind, ok_bind]
    rcases first_split (fun d : Ingredient => d.name = i.name ∧ d.quantity ≥ i.required_quantity)
      (addBackupIngredientScan backup i) with hall | ⟨pre1, e, post1, hsplit, hpre1, he⟩
    · obtain ⟨moved, backup', fl', hrun, hsub, hfl⟩ :=
        ih st (addBackupIngredientScan backup i) fl s hv hs hsn hmiss hscanned
      refine ⟨moved, backup', fl', ?_, hsub.cons i, hfl⟩
      simp only [replenishLoop, addBackupIngredient, hscanned, ok_bind, hrep,
        replenishScan_miss fuel st h l nm i.name i.required_quantity _ hall]
      exact hrun
    · have hs1 := set_live hs (s.replenishStationIngredients (transferOf i))
      obtain ⟨moved, backup', fl', hrun, hsub, hfl⟩ :=
        ih (st.set a (s.replenishStationIngredients (transferOf i)))
          (pre1 ++ (if wrapInt (e.quantity - i.required_quantity) ≤ 0 then post1
            else { e with quantity := wrapInt (e.quantity - i.required_quantity) } :: post1))
          true
          (s.replenishStationIngredients (transferOf i)) (hv.set a _) hs1 hsn
          (fun d hd => by
            rw [@getName_set st a s (s.replenishStationIngredients (transferOf i)) hs rfl]
            exact hmiss d hd)
          (by
            rw [@getName_set st a s (s.replenishStationIngredients (transferOf i)) hs rfl]
            exact hscanned)
      refine ⟨i :: moved, backup', fl', ?_, hsub.cons₂ i, ?_⟩
      · simp only [replenishLoop, addBackupIngredient, hscanned, ok_bind, hrep, hsplit,
          replenishScan_hit hfind hs e post1 he pre1 hpre1, if_true]
        rw [List.set_set] at hrun
        exact hrun
      · have : fl' = true := hfl.mpr (Or.inl rfl)
        simp [this]

theorem first_split_unique {α : Type} (P : α → Prop) {x x0 : α} {post post0 : List α} :
    ∀ (pre pre0 : List α), pre ++ x :: post = pre0 ++ x0 :: post0 →
      (∀ p ∈ pre, ¬ P p) → P x → (∀ p ∈ pre0, ¬ P p) → P x0 → x = x0 := by
  intro pre
  induction pre with
  | nil =>
    intro pre0 e _ hx h0 _
    cases pre0 with
    | nil => simp only [List.nil_append, List.cons.injEq] at e; exact e.1
    | cons y t =>
      simp only [List.nil_append, List.cons_append, List.cons.injEq] at e
      exact absurd (e.1 ▸ hx) (h0 y (List.mem_cons_self _ _))
  | cons y t ih =>
    intro pre0 e hpre hx h0 hx0
    cases pre0 with
    | nil =>
      simp only [List.nil_append, List.cons_append, List.cons.injEq] at e
      exact absurd (e.1 ▸ hx0) (hpre y (List.mem_cons_self _ _))
    | cons y0 t0 =>
      simp only [List.cons_append, List.cons.injEq] at e
      exact ih t0 e.2 (fun p hp => hpre p (List.mem_cons_of_mem _ hp)) hx
        (fun p hp => h0 p (List.mem_cons_of_mem _ hp)) hx0

/-- C25, a transfer made while scanning one station reaches another: of two
stations called "Grill" only the second has the steak assigned; the pass scans
it, finds it short of beef and replenishes, and the beef arrives at the first
"Grill", while the scanned station is left without stock. -/
theorem processAllDishes_replenishes_namesake :
    (processAllDishes 2 demoDishes demoKitchenHeap demoKitchenList
        ⟨demoTwins, demoPool, [some 0], []⟩).map Pass.stations =
      .ok [{ name_ := "Grill", ingredients_stock_ := [⟨"Beef", 2, 0⟩] },
           { name_ := "Grill", dishes_ := [some 0] }] ∧
    replenishLoop 2 demoKitchenHeap demoKitchenList (some 1) [⟨"Beef", 0, 2⟩] demoTwins demoPool
        false =
      .ok ([{ name_ := "Grill", ingredients_stock_ := [⟨"Beef", 2, 0⟩] },
            { name_ := "Grill", dishes_ := [some 0] }],
           [⟨"Beef", 3, 0⟩, ⟨"Salt", 1, 0⟩], true) :=
  ⟨by rfl, by rfl⟩

/-- The replenishing loop of `processAllDishes` on a registry in good order,
for the scanned station `some a0`: where the transfers go, and what the loop
does to the station records. -/
theorem replenishLoop_on_registry (fuel : Nat) (st : Stations) (h : Heap (Option Nat))
    (l : LinkedList) (hreg : Registry st h l) (hf : l.getLength ≤ fuel)
    (pre0 : List (Option Nat)) (a0 : Nat) (post0 : List (Option Nat))
    (hscan : entries h l = (pre0 ++ some a0 :: post0).map Except.ok)
    (ingredients backup : List Ingredient) (fl : Bool) :
    ∃ nm pre a post s s' moved backup' fl',
      getName st (some a0) = .ok nm ∧
      entries h l = (pre ++ some a :: post).map Except.ok ∧
      (∀ p ∈ pre, getName st p ≠ .ok nm) ∧ st[a]? = some s ∧ s.name_ = nm ∧
      ((∀ p ∈ pre0, getName st p ≠ .ok nm) → a = a0) ∧
      replenishLoop fuel h l (some a0) ingredients st backup fl =
        .ok (st.set a s', backup', fl') ∧
      moved.Sublist ingredients ∧ (fl' = true ↔ fl = true ∨ moved ≠ []) ∧
      s' = replenishedWith s (moved.map transferOf) ∧
      (∀ n, stockOf s'.ingredients_stock_ n =
        stockOf s.ingredients_stock_ n + stockOf (moved.map transferOf) n) ∧
      ∀ b, b ≠ a → (st.set a s')[b]? = st[b]? := by
  obtain ⟨cs, hc, hv'⟩ := hreg
  have hv : Listed st cs := hv'
  have hlen : cs.length ≤ fuel := by
    have : (cs.length : Int) ≤ fuel := by rw [← hc.2]; exact hf
    exact_mod_cast this
  have hsnd : cs.map Prod.snd = pre0 ++ some a0 :: post0 := by
    have e := entries_chain hc
    rw [hscan] at e
    have e2 : (pre0 ++ some a0 :: post0).map (Except.ok : Option Nat → Exec (Option Nat)) =
        (cs.map Prod.snd).map Except.ok := by rw [e, List.map_map]; rfl
    exact (List.map_injective_iff.mpr (fun x y hxy => Except.ok.inj hxy) e2).symm
  have hmem0 : some a0 ∈ cs.map Prod.snd := by rw [hsnd]; simp
  obtain ⟨c0, hc0, hc0a⟩ := List.mem_map.mp hmem0
  obtain ⟨a0', s0, hca0, hs0⟩ := hv c0 hc0
  have ha0 : a0' = a0 := by rw [hc0a] at hca0; exact (Option.some.inj hca0).symm
  subst ha0
  have hscanned : getName st (some a0') = .ok s0.name_ := by simp [getName, hs0]
  rcases first_named st s0.name_ cs with hall | ⟨pre, c, post, hcs, hmiss, hname⟩
  · exact absurd (by rw [hc0a]; exact hscanned) (hall c0 hc0)
  · obtain ⟨a, s, hca, hs⟩ := hv c (by rw [hcs]; simp)
    have hsn : s.name_ = s0.name_ := by
      rw [hca] at hname
      simp only [getName, hs] at hname
      exact Except.ok.inj hname
    subst hcs
    obtain ⟨moved, backup', fl', hrun, hsub, hfl⟩ :=
      replenishLoop_effect hc hlen hca a0' s0.name_ ingredients st backup fl s hv hs hsn hmiss
        hscanned
    have hent : entries h l = (pre.map Prod.snd ++ some a :: post.map Prod.snd).map Except.ok := by
      rw [entries_chain hc]
      simp only [List.map_append, List.map_cons, List.map_map, hca]
      rfl
    refine ⟨s0.name_, pre.map Prod.snd, a, post.map Prod.snd, s, _, moved, backup', fl',
      hscanned, hent, ?_, hs, hsn, ?_, hrun, hsub, hfl, rfl,
      (replenishedWith_fields _ s).2.2, ?_⟩
    · intro p hp
      obtain ⟨d, hd, rfl⟩ := List.mem_map.mp hp
      exact hmiss d hd
    · intro h0
      have e : pre.map Prod.snd ++ some a :: post.map Prod.snd = pre0 ++ some a0' :: post0 := by
        rw [← hsnd]; simp [hca]
      have := first_split_unique (fun p => getName st p = .ok s0.name_) _ _ e
        (fun p hp => by
          obtain ⟨d, hd, rfl⟩ := List.mem_map.mp hp
          exact hmiss d hd)
        (by rw [← hca]; exact hname) h0 hscanned
      exact Option.some.inj this
    · intro b hb
      rw [List.getElem?_set]
      simp [Ne.symm hb]

/-- C25 as amended: on a registry in good order, the transfers the replenishing
loop of `processAllDishes` makes while the station at some registry index is
being scanned all go to the first registered station that carries the scanned
station's name, which is the scanned station itself when no station before it
in the registry has that name. That station's stock rises by the transferred
quantities, and no other station record changes. -/
theorem replenishLoop_feeds_first_named (fuel : Nat) (st : Stations) (h : Heap (Option Nat))
    (l : LinkedList) (hreg : Registry st h l) (hf : l.getLength ≤ fuel)
    (pre0 : List (Option Nat)) (a0 : Nat) (post0 : List (Option Nat))
    (hscan : entries h l = (pre0 ++ some a0 :: post0).map Except.ok)
    (ingredients backup : List Ingredient) (fl : Bool) :
    ∃ nm pre a post s s' moved backup' fl',
      getName st (some a0) = .ok nm ∧
      entries h l = (pre ++ some a :: post).map Except.ok ∧
      (∀ p ∈ pre, getName st p ≠ .ok nm) ∧ st[a]? = some s ∧ s.name_ = nm ∧
      ((∀ p ∈ pre0, getName st p ≠ .ok nm) → a = a0) ∧
      replenishLoop fuel h l (some a0) ingredients st backup fl =
        .ok (st.set a s', backup', fl') ∧
      moved.Sublist ingredients ∧ (fl' = true ↔ fl = true ∨ moved ≠ []) ∧
      s' = replenishedWith s (moved.map transferOf) ∧
      (∀ n, stockOf s'.ingredients_stock_ n =
        stockOf s.ingredients_stock_ n + stockOf (moved.map transferOf) n) ∧
      ∀ b, b ≠ a → (st.set a s')[b]? = st[b]? := by
  obtain ⟨nm, pre, a, post, s, s', moved, backup', fl', h1, h2, h3, h4, h5, h6, h7, h8, h9, h10,
    h11, h12⟩ := replenishLoop_on_registry fuel st h l hreg hf pre0 a0 post0 hscan ingredients
      backup fl
  exact ⟨nm, pre, a, post, s, s', moved, backup', fl', h1, h2, h3, h4, h5, h6, h7, h8, h9, h10,
    h11, h12⟩

theorem replenishLoop_feeds_first_named_witness :
    Registry demoTwins demoKitchenHeap demoKitchenList ∧
    demoKitchenList.getLength ≤ ((2 : Nat) : Int) ∧
    entries demoKitchenHeap demoKitchenList = ([some 0] ++ some 1 :: []).map Except.ok ∧
    ∃ nm pre a post s s' moved backup' fl',
      getName demoTwins (some 1) = .ok nm ∧
      entries demoKitchenHeap demoKitchenList = (pre ++ some a :: post).map Except.ok ∧
      (∀ p ∈ pre, getName demoTwins p ≠ .ok nm) ∧ demoTwins[a]? = some s ∧ s.name_ = nm ∧
      ((∀ p ∈ [some 0], getName demoTwins p ≠ .ok nm) → a = 1) ∧
      replenishLoop 2 demoKitchenHeap demoKitchenList (some 1) [⟨"Beef", 0, 2⟩] demoTwins
          demoPool false = .ok (demoTwins.set a s', backup', fl') ∧
      moved.Sublist [⟨"Beef", 0, 2⟩] ∧ (fl' = true ↔ false = true ∨ moved ≠ []) ∧
      s' = replenishedWith s (moved.map transferOf) ∧
      (∀ n, stockOf s'.ingredients_stock_ n =
        stockOf s.ingredients_stock_ n + stockOf (moved.map transferOf) n) ∧
      ∀ b, b ≠ a → (demoTwins.set a s')[b]? = demoTwins[b]? :=
  have hreg : Registry demoTwins demoKitchenHeap demoKitchenList :=
    ⟨[(0, some 0), (1, some 1)], ⟨⟨rfl, some 1, rfl, rfl, none, rfl, rfl⟩, rfl⟩, by
      intro c hc
      simp only [List.mem_cons, List.mem_singleton, List.not_mem_nil, or_false] at hc
      rcases hc with rfl | rfl
      · exact ⟨0, _, rfl, rfl⟩
      · exact ⟨1, _, rfl, rfl⟩⟩
  ⟨hreg, by decide, by rfl,
    replenishLoop_feeds_first_named 2 demoTwins demoKitchenHeap demoKitchenList hreg (by decide)
      [some 0] 1 [] (by rfl) [⟨"Beef", 0, 2⟩] demoPool false⟩

theorem getEntry_of_entries {h : Heap (Option Nat)} {l : LinkedList} (hinv : Inv h l)
    {pre0 post0 : List (Option Nat)} {p : Option Nat}
    (hscan : entries h l = (pre0 ++ p :: post0).map Except.ok) :
    getEntry h l (pre0.length : Int) = .ok p := by
  obtain ⟨cs, hc⟩ := hinv
  have hsnd : cs.map Prod.snd = pre0 ++ p :: post0 := by
    have e := entries_chain hc
    rw [hscan] at e
    have e2 : (pre0 ++ p :: post0).map (Except.ok : Option Nat → Exec (Option Nat)) =
        (cs.map Prod.snd).map Except.ok := by rw [e, List.map_map]; rfl
    exact (List.map_injective_iff.mpr (fun x y hxy => Except.ok.inj hxy) e2).symm
  have hlen : pre0.length < cs.length := by
    have := congrArg List.length hsnd
    simp at this
    omega
  rw [getEntry_chain hc pre0.length hlen]
  have h1 : (cs.map Prod.snd)[pre0.length]? = some p := by
    rw [hsnd, List.getElem?_append_right (Nat.le_refl _)]; simp
  rw [List.getElem?_map, List.getElem?_eq_getElem hlen] at h1
  simp only [Option.map_some', Option.some.injEq] at h1
  rw [h1]

/-- C23, the pool grows by the ingredient's own quantity, not by its required
quantity: in the state `main` builds, Seafood Station has Seafood Paella
assigned and no stock, the dish requires 2 of seafood and its ingredient record
holds the quantity 1. The visit leaves 1 of seafood in the pool, which held
none, and the transfer of 2 has failed: no station record has changed. -/
theorem visitStation_pushes_quantity_only :
    Dish.getIngredients mainDishes (some 2) = .ok [⟨"Seafood", 1, 2⟩] ∧
    stockOf mainPass.backup "Seafood" = 0 ∧
    ∃ w', visitStation 5 mainDishes mainHeap mainList (some 2) 2 mainPass = .ok (w', false) ∧
      stockOf w'.backup "Seafood" = 1 ∧ w'.stations = mainPass.stations :=
  ⟨rfl, by decide, _, rfl, by decide, rfl⟩

theorem main_registry : Registry mainPass.stations mainHeap mainList := by
  refine ⟨[(0, some 0), (1, some 1), (2, some 2), (3, some 3), (4, some 4)],
    ⟨⟨rfl, some 1, rfl, rfl, some 2, rfl, rfl, some 3, rfl, rfl, some 4, rfl, rfl, none, rfl, rfl⟩,
      rfl⟩, ?_⟩
  intro c hc
  simp only [List.mem_cons, List.mem_singleton, List.not_mem_nil, or_false] at hc
  rcases hc with rfl | rfl | rfl | rfl | rfl
  · exact ⟨0, _, rfl, rfl⟩
  · exact ⟨1, _, rfl, rfl⟩
  · exact ⟨2, _, rfl, rfl⟩
  · exact ⟨3, _, rfl, rfl⟩
  · exact ⟨4, _, rfl, rfl⟩

theorem main_dishes : DishesOk mainDishes mainPass.stations := by
  intro s hs d hd
  simp only [mainPass, List.mem_cons, List.mem_singleton, List.not_mem_nil, or_false] at hs
  rcases hs with rfl | rfl | rfl | rfl | rfl <;>
    simp only [List.mem_singleton] at hd <;> subst hd <;> exact ⟨_, rfl⟩

/-- C23 as amended: on a state in good order, when the scanned station has the
dish assigned but cannot complete it, the visit runs the replenishing loop over
the ingredients of the dish, from the station records and the pool as they
are, and the pool afterwards is the pool that loop leaves. In every round of
the loop the ingredient is first added to the pool, which raises the pool's
quantity of that ingredient by the quantity the ingredient record carries (not
by its required quantity), whether or not the pool had an entry of that name,
and then one transfer of the required quantity from the pool so raised is
attempted. The sum the pool forms is a sum of `int`s and is taken to be an
`int` itself. -/
theorem visitStation_pushes_then_transfers (fuel : Nat) (ds : Dishes) (h : Heap (Option Nat))
    (l : LinkedList) (w : Pass) (hreg : Registry w.stations h l) (hok : DishesOk ds w.stations)
    (hf : l.getLength ≤ fuel) (dish : Option Nat) (d : Dish) (hd : Dish.read ds dish = .ok d)
    (pre0 : List (Option Nat)) (a : Nat) (post0 : List (Option Nat))
    (hscan : entries h l = (pre0 ++ some a :: post0).map Except.ok) (s : KitchenStation)
    (hs : w.stations[a]? = some s) (hassigned : hasDish ds s.dishes_ d.name_)
    (hcannot : s.canCompleteOrder ds d.name_ = .ok false) :
    (∃ st2 backup2 fl w' b,
      replenishLoop fuel h l (some a) d.ingredients_ w.stations w.backup false =
        .ok (st2, backup2, fl) ∧
      visitStation fuel ds h l dish (pre0.length : Int) w = .ok (w', b) ∧
      w'.backup = backup2) ∧
    ∀ (i : Ingredient) (rest : List Ingredient) (st : Stations) (backup : List Ingredient)
      (r : Bool) (sname : String), getName st (some a) = .ok sname →
      ((∀ e ∈ backup, e.name = i.name → InInt (e.quantity + i.quantity)) →
        ∀ n, stockOf (addBackupIngredient backup i).1 n =
          stockOf backup n + if i.name = n then i.quantity else 0) ∧
      replenishLoop fuel h l (some a) (i :: rest) st backup r =
        (replenishStationIngredientFromBackup fuel st h l (addBackupIngredient backup i).1
            sname i.name i.required_quantity >>= fun res =>
          replenishLoop fuel h l (some a) rest res.1 res.2.1 (if res.2.2 then true else r)) := by
  constructor
  · have hget := getEntry_of_entries ⟨_, hreg.choose_spec.1⟩ hscan
    have hv := hok.of_get hs
    obtain ⟨b0, hb, hiff⟩ := assignedLoop_total hd s.dishes_ hv
    have hb1 : b0 = true := hiff.mpr hassigned
    subst hb1
    have hname : getName w.stations (some a) = .ok s.name_ := by simp [getName, hs]
    obtain ⟨st1, done, htry, hcan, -, hsame⟩ := tryPrepare_total hs hv d.name_
    have hdone : done = false := by
      rw [hcannot] at hcan
      exact (Except.ok.inj hcan).symm
    subst hdone
    have hst1 : st1 = w.stations := hsame rfl
    subst hst1
    have hing : Dish.getIngredients ds dish = .ok d.ingredients_ := by
      simp [Dish.getIngredients, hd, Except.map]
    obtain ⟨nm, pre, a1, post, s1, s', moved, backup2, fl, -, -, -, hs1, -, -, hloop, -, -,
      hs', -, -⟩ := replenishLoop_on_registry fuel w.stations h l hreg hf pre0 a post0
        hscan d.ingredients_ w.backup false
    have hshape2 : shape (w.stations.set a1 s') = shape w.stations := by
      have hf2 := replenishedWith_fields (moved.map transferOf) s1
      exact shape_set hs1 (by rw [hs']; exact hf2.1) (by rw [hs']; exact hf2.2.1)
    obtain ⟨s2, hs2, -, hd2⟩ := shape_live hshape2 hs
    have hv2 : ∀ x ∈ s2.dishes_, ∃ y, Dish.read ds x = .ok y := by rw [hd2]; exact hv
    obtain ⟨st3, done2, htry2, -, -, -⟩ := tryPrepare_total hs2 hv2 d.name_
    have hrun : ∃ w' b, visitStation fuel ds h l dish (pre0.length : Int) w = .ok (w', b) ∧
        w'.backup = backup2 := by
      cases fl with
      | false =>
        simp only [visitStation, hget, hname, dishName_of_read hd, readStation_live hs, hb,
          ok_bind, htry, hing, hloop, pure_eq_ok, if_true]
        exact ⟨_, _, rfl, rfl⟩
      | true =>
        cases done2 with
        | true =>
          simp only [visitStation, hget, hname, dishName_of_read hd, readStation_live hs, hb,
            ok_bind, htry, hing, hloop, pure_eq_ok, if_true, htry2]
          exact ⟨_, _, rfl, rfl⟩
        | false =>
          simp only [visitStation, hget, hname, dishName_of_read hd, readStation_live hs, hb,
            ok_bind, htry, hing, hloop, pure_eq_ok, if_true, htry2]
          exact ⟨_, _, rfl, rfl⟩
    obtain ⟨w', b, hvisit, hbk⟩ := hrun
    exact ⟨_, backup2, fl, w', b, hloop, hvisit, hbk⟩
  · intro i rest st backup r sname hname
    refine ⟨fun hsum n => stockOf_addBackup i n backup hsum, ?_⟩
    simp only [replenishLoop, hname, ok_bind]

theorem visitStation_pushes_then_transfers_witness :
    Registry mainPass.stations mainHeap mainList ∧ DishesOk mainDishes mainPass.stations ∧
    mainList.getLength ≤ ((5 : Nat) : Int) ∧
    Dish.read mainDishes (some 2) = .ok ⟨"Seafood Paella", [⟨"Seafood", 1, 2⟩]⟩ ∧
    entries mainHeap mainList = ([some 0, some 1] ++ some 2 :: [some 3, some 4]).map Except.ok ∧
    mainPass.stations[2]? = some { name_ := "Seafood Station", dishes_ := [some 2] } ∧
    hasDish mainDishes [some 2] "Seafood Paella" ∧
    KitchenStation.canCompleteOrder mainDishes
      { name_ := "Seafood Station", dishes_ := [some 2] } "Seafood Paella" = .ok false ∧
    (∃ st2 backup2 fl w' b,
      replenishLoop 5 mainHeap mainList (some 2) [⟨"Seafood", 1, 2⟩] mainPass.stations
          mainPass.backup false = .ok (st2, backup2, fl) ∧
      visitStation 5 mainDishes mainHeap mainList (some 2)
          (([some 0, some 1] : List (Option Nat)).length : Int) mainPass = .ok (w', b) ∧
      w'.backup = backup2) ∧
    ∀ (i : Ingredient) (rest : List Ingredient) (st : Stations) (backup : List Ingredient)
      (r : Bool) (sname : String), getName st (some 2) = .ok sname →
      ((∀ e ∈ backup, e.name = i.name → InInt (e.quantity + i.quantity)) →
        ∀ n, stockOf (addBackupIngredient backup i).1 n =
          stockOf backup n + if i.name = n then i.quantity else 0) ∧
      replenishLoop 5 mainHeap mainList (some 2) (i :: rest) st backup r =
        (replenishStationIngredientFromBackup 5 st mainHeap mainList
            (addBackupIngredient backup i).1 sname i.name i.required_quantity >>= fun res =>
          replenishLoop 5 mainHeap mainList (some 2) rest res.1 res.2.1
            (if res.2.2 then true else r)) :=
  ⟨main_registry, main_dishes, by decide, rfl, by rfl, rfl, ⟨some 2, by simp, rfl⟩, rfl,
    visitStation_pushes_then_transfers 5 mainDishes mainHeap mainList mainPass main_registry
      main_dishes (by decide) (some 2) ⟨"Seafood Paella", [⟨"Seafood", 1, 2⟩]⟩ rfl
      [some 0, some 1] 2 [some 3, some 4] (by rfl)
      { name_ := "Seafood Station", dishes_ := [some 2] } rfl ⟨some 2, by simp, rfl⟩ rfl⟩

theorem prepareDish_true_can {ds : Dishes} {s s' : KitchenStation} {name : String}
    (hp : s.prepareDish ds name = .ok (s', true)) : s.canCompleteOrder ds name = .ok true := by
  unfold KitchenStation.prepareDish at hp
  obtain ⟨can, hcan, hrest⟩ := bind_ok_inv hp
  cases can with
  | true => exact hcan
  | false => simp [pure_eq_ok] at hrest

/-- The scan the spec describes has one outcome. -/
theorem scans_deterministic {fuel : Nat} {ds : Dishes} {h : Heap (Option Nat)} {l : LinkedList}
    {dname : String} {ingredients : List Ingredient} {ps : List (Option Nat)}
    {st st1 : Stations} {pool pool1 : List Ingredient} {b1 : Bool}
    (h1 : Scans fuel ds h l dname ingredients ps st pool st1 pool1 b1) :
    ∀ {st2 : Stations} {pool2 : List Ingredient} {b2 : Bool},
      Scans fuel ds h l dname ingredients ps st pool st2 pool2 b2 →
      st1 = st2 ∧ pool1 = pool2 ∧ b1 = b2 := by
  induction h1 with
  | none_left => intro st2 pool2 b2 h2; cases h2; exact ⟨rfl, rfl, rfl⟩
  | unassigned hs hnot _ ih =>
    intro st2 pool2 b2 h2
    cases h2 with
    | unassigned _ _ hrest => exact ih hrest
    | prepared hs' hhas _ => rw [hs] at hs'; cases hs'; exact absurd hhas hnot
    | replenished hs' hhas _ _ _ _ => rw [hs] at hs'; cases hs'; exact absurd hhas hnot
    | still_short hs' hhas _ _ _ _ => rw [hs] at hs'; cases hs'; exact absurd hhas hnot
  | prepared hs hhas hprep =>
    intro st2 pool2 b2 h2
    have hcan := prepareDish_true_can hprep
    cases h2 with
    | unassigned hs' hnot _ => rw [hs] at hs'; cases hs'; exact absurd hhas hnot
    | prepared hs' _ hprep' =>
      rw [hs] at hs'; cases hs'
      rw [hprep] at hprep'; cases hprep'
      exact ⟨rfl, rfl, rfl⟩
    | replenished hs' _ hcan' _ _ _ =>
      rw [hs] at hs'; cases hs'; rw [hcan] at hcan'; cases hcan'
    | still_short hs' _ hcan' _ _ _ =>
      rw [hs] at hs'; cases hs'; rw [hcan] at hcan'; cases hcan'
  | replenished hs hhas hcan hloop hs2 hprep =>
    intro st2 pool2 b2 h2
    cases h2 with
    | unassigned hs' hnot _ => rw [hs] at hs'; cases hs'; exact absurd hhas hnot
    | prepared hs' _ hprep' =>
      rw [hs] at hs'; cases hs'
      have := prepareDish_true_can hprep'
      rw [hcan] at this; cases this
    | replenished hs' _ _ hloop' hs2' hprep' =>
      rw [hloop] at hloop'; cases hloop'
      rw [hs2] at hs2'; cases hs2'
      rw [hprep] at hprep'; cases hprep'
      exact ⟨rfl, rfl, rfl⟩
    | still_short hs' _ _ hloop' hshort _ =>
      rw [hloop] at hloop'; cases hloop'
      obtain ⟨s2x, hs2x, hcanx⟩ := hshort rfl
      rw [hs2] at hs2x; cases hs2x
      have := prepareDish_true_can hprep
      rw [hcanx] at this; cases this
  | still_short hs hhas hcan hloop hshort _ ih =>
    intro st2 pool2 b2 h2
    cases h2 with
    | unassigned hs' hnot _ => rw [hs] at hs'; cases hs'; exact absurd hhas hnot
    | prepared hs' _ hprep' =>
      rw [hs] at hs'; cases hs'
      have := prepareDish_true_can hprep'
      rw [hcan] at this; cases this
    | replenished hs' _ _ hloop' hs2' hprep' =>
      rw [hloop] at hloop'; cases hloop'
      obtain ⟨s2x, hs2x, hcanx⟩ := hshort rfl
      rw [hs2'] at hs2x; cases hs2x
      have := prepareDish_true_can hprep'
      rw [hcanx] at this; cases this
    | still_short _ _ _ hloop' _ hrest =>
      rw [hloop] at hloop'; cases hloop'
      exact ih hrest

/-- The pass the spec describes has one outcome: the flags, the records and the
pool it ends with are determined. -/
theorem handles_deterministic {fuel : Nat} {ds : Dishes} {h : Heap (Option Nat)} {l : LinkedList}
    {ps dishes : List (Option Nat)} {st st1 : Stations} {pool pool1 : List Ingredient}
    {flags1 : List Bool}
    (h1 : Handles fuel ds h l ps dishes st pool flags1 st1 pool1) :
    ∀ {flags2 : List Bool} {st2 : Stations} {pool2 : List Ingredient},
      Handles fuel ds h l ps dishes st pool flags2 st2 pool2 →
      flags1 = flags2 ∧ st1 = st2 ∧ pool1 = pool2 := by
  induction h1 with
  | nil => intro flags2 st2 pool2 h2; cases h2; exact ⟨rfl, rfl, rfl⟩
  | cons hd hscan _ ih =>
    intro flags2 st2 pool2 h2
    cases h2 with
    | cons hd' hscan' hrest =>
      rw [hd] at hd'; cases hd'
      obtain ⟨e1, e2, e3⟩ := scans_deterministic hscan hscan'
      subst e1 e2 e3
      obtain ⟨f1, f2, f3⟩ := ih hrest
      exact ⟨by rw [f1], f2, f3⟩

/-- The condition "can complete and prepares" at a station that can complete
the dish: `prepareDish` succeeds, and its record is written back. -/
theorem tryPrepare_can {ds : Dishes} {st : Stations} {a : Nat} {s : KitchenStation}
    (hs : st[a]? = some s) {dname : String} (hcan : s.canCompleteOrder ds dname = .ok true) :
    ∃ s', s.prepareDish ds dname = .ok (s', true) ∧
      tryPrepare ds st (some a) dname = .ok (st.set a s', true) := by
  obtain ⟨s', hprep, -, -⟩ := prepareDish_of_can hcan
  refine ⟨s', hprep, ?_⟩
  simp [tryPrepare, readStation_live hs, hcan, hprep, ok_bind, pure_eq_ok, writeStation]

theorem tryPrepare_cannot {ds : Dishes} {st : Stations} {a : Nat} {s : KitchenStation}
    (hs : st[a]? = some s) {dname : String} (hcan : s.canCompleteOrder ds dname = .ok false) :
    tryPrepare ds st (some a) dname = .ok (st, false) := by
  simp [tryPrepare, readStation_live hs, hcan, ok_bind, pure_eq_ok]

/-- One station visit of `processAllDishes` on a registry in good order, set
against the scan the spec describes: the visit finishes; when it reports the
dish prepared, the scan stops here with the records and the pool the visit
leaves; when it does not, the scan goes on from the records and the pool the
visit leaves. -/
theorem visitStation_outcome {fuel : Nat} {ds : Dishes} {h : Heap (Option Nat)}
    {l : LinkedList} (hf : l.getLength ≤ fuel) {dish : Option Nat} {d : Dish}
    (hd : Dish.read ds dish = .ok d) {j : Int} {a : Nat} {s : KitchenStation} {w : Pass}
    (hget : getEntry h l j = .ok (some a)) (hs : w.stations[a]? = some s)
    (hreg : Registry w.stations h l) (hok : DishesOk ds w.stations) :
    ∃ w' b, visitStation fuel ds h l dish j w = .ok (w', b) ∧
      (b = true → ∀ ps, Scans fuel ds h l d.name_ d.ingredients_ (some a :: ps)
        w.stations w.backup w'.stations w'.backup true) ∧
      (b = false → ∀ ps st' pool' b',
        Scans fuel ds h l d.name_ d.ingredients_ ps w'.stations w'.backup st' pool' b' →
        Scans fuel ds h l d.name_ d.ingredients_ (some a :: ps) w.stations w.backup
          st' pool' b') := by
  have hv := hok.of_get hs
  obtain ⟨b0, hb, hiff⟩ := assignedLoop_total hd s.dishes_ hv
  have hname : getName w.stations (some a) = .ok s.name_ := by simp [getName, hs]
  cases b0 with
  | false =>
    have hnot : ¬ hasDish ds s.dishes_ d.name_ := fun hh => by
      have := hiff.mpr hh
      cases this
    refine ⟨_, false, visitStation_unassigned hd hget hs hv hnot, (fun e => by cases e), ?_⟩
    intro _ ps st' pool' b' hrest
    exact Scans.unassigned hs hnot hrest
  | true =>
    have hhas : hasDish ds s.dishes_ d.name_ := hiff.mp rfl
    obtain ⟨can, hcan⟩ := canCompleteOrder_total ds s d.name_ hv
    cases can with
    | true =>
      obtain ⟨s', hprep, htry⟩ := tryPrepare_can hs hcan
      have hrun : ∃ w', visitStation fuel ds h l dish j w = .ok (w', true) ∧
          w'.stations = w.stations.set a s' ∧ w'.backup = w.backup := by
        simp only [visitStation, hget, hname, dishName_of_read hd, readStation_live hs, hb,
          ok_bind, htry, pure_eq_ok, if_true]
        exact ⟨_, rfl, rfl, rfl⟩
      obtain ⟨w', hrun, h1, h2⟩ := hrun
      refine ⟨w', true, hrun, ?_, (fun e => by cases e)⟩
      intro _ ps
      rw [h1, h2]
      exact Scans.prepared hs hhas hprep
    | false =>
      have htry := tryPrepare_cannot hs hcan
      have hing : Dish.getIngredients ds dish = .ok d.ingredients_ := by
        simp [Dish.getIngredients, hd, Except.map]
      obtain ⟨st2, backup2, fl, hloop, hshape2⟩ :=
        replenishLoop_total hf a d.ingredients_ w.stations w.backup false s hreg hs
      obtain ⟨s2, hs2, -, hd2⟩ := shape_live hshape2 hs
      have hv2 : ∀ x ∈ s2.dishes_, ∃ y, Dish.read ds x = .ok y := by rw [hd2]; exact hv
      cases fl with
      | false =>
        have hrun : ∃ w', visitStation fuel ds h l dish j w = .ok (w', false) ∧
            w'.stations = st2 ∧ w'.backup = backup2 := by
          simp only [visitStation, hget, hname, dishName_of_read hd, readStation_live hs, hb,
            ok_bind, htry, hing, hloop, pure_eq_ok, if_true]
          exact ⟨_, rfl, rfl, rfl⟩
        obtain ⟨w', hrun, h1, h2⟩ := hrun
        refine ⟨w', false, hrun, (fun e => by cases e), ?_⟩
        intro _ ps st' pool' b' hrest
        rw [h1, h2] at hrest
        exact Scans.still_short hs hhas hcan hloop (fun e => by cases e) hrest
      | true =>
        obtain ⟨can2, hcan2⟩ := canCompleteOrder_total ds s2 d.name_ hv2
        cases can2 with
        | true =>
          obtain ⟨s2', hprep2, htry2⟩ := tryPrepare_can hs2 hcan2
          have hrun : ∃ w', visitStation fuel ds h l dish j w = .ok (w', true) ∧
              w'.stations = st2.set a s2' ∧ w'.backup = backup2 := by
            simp only [visitStation, hget, hname, dishName_of_read hd, readStation_live hs, hb,
              ok_bind, htry, hing, hloop, pure_eq_ok, if_true, htry2]
            exact ⟨_, rfl, rfl, rfl⟩
          obtain ⟨w', hrun, h1, h2⟩ := hrun
          refine ⟨w', true, hrun, ?_, (fun e => by cases e)⟩
          intro _ ps
          rw [h1, h2]
          exact Scans.replenished hs hhas hcan hloop hs2 hprep2
        | false =>
          have htry2 := tryPrepare_cannot hs2 hcan2
          have hrun : ∃ w', visitStation fuel ds h l dish j w = .ok (w', false) ∧
              w'.stations = st2 ∧ w'.backup = backup2 := by
            simp only [visitStation, hget, hname, dishName_of_read hd, readStation_live hs, hb,
              ok_bind, htry, hing, hloop, pure_eq_ok, if_true, htry2]
            exact ⟨_, rfl, rfl, rfl⟩
          obtain ⟨w', hrun, h1, h2⟩ := hrun
          refine ⟨w', false, hrun, (fun e => by cases e), ?_⟩
          intro _ ps st' pool' b' hrest
          rw [h1, h2] at hrest
          exact Scans.still_short hs hhas hcan hloop (fun _ => ⟨s2, hs2, hcan2⟩) hrest

/-- The scan of the stations for one dish by `processAllDishes` on a registry
in good order is the scan the spec describes: it finishes, and its result, the
records and the pool it leaves are those of that scan over the stations from
the loop variable on. -/
theorem stationLoop_scans {fuel : Nat} {ds : Dishes} {h : Heap (Option Nat)} {l : LinkedList}
    {cs : List (Nat × Option Nat)} (hc : Chain h l cs) (hf : l.getLength ≤ fuel)
    {dish : Option Nat} {d : Dish} (hd : Dish.read ds dish = .ok d) :
    ∀ (suffix : List (Nat × Option Nat)) (i : Nat) (w : Pass), cs.drop i = suffix →
      Listed w.stations cs → DishesOk ds w.stations →
      ∃ w' b, stationLoop fuel ds h l dish suffix.length (i : Int) w = .ok (w', b) ∧
        Scans fuel ds h l d.name_ d.ingredients_ (suffix.map Prod.snd)
          w.stations w.backup w'.stations w'.backup b := by
  intro suffix
  induction suffix with
  | nil => intro i w _ _ _; exact ⟨w, false, rfl, Scans.none_left⟩
  | cons c rest ih =>
    intro i w hdrop hv hok
    obtain ⟨hget, hrest⟩ := getEntry_of_drop hc hdrop
    have hmem : c ∈ cs := List.mem_of_mem_drop (by rw [hdrop]; exact List.mem_cons_self _ _)
    obtain ⟨a, s, hca, hs⟩ := hv c hmem
    rw [hca] at hget
    obtain ⟨w1, b1, hvisit, htrue, hfalse⟩ :=
      visitStation_outcome hf hd hget hs ⟨cs, hc, hv⟩ hok
    obtain ⟨w1', b1', hvisit', hshape1, -⟩ :=
      visitStation_total hf hd hget hs ⟨cs, hc, hv⟩ hok
    rw [hvisit] at hvisit'
    cases hvisit'
    cases b1 with
    | true =>
      refine ⟨w1, true, ?_, ?_⟩
      · simp only [List.length_cons, stationLoop, hvisit, ok_bind]
        rfl
      · rw [List.map_cons, hca]
        exact htrue rfl _
    | false =>
      obtain ⟨w2, b2, hloop, hscan⟩ := ih (i + 1) w1 hrest
        (listed_of_shape hv hshape1) (dishesOk_of_shape hok hshape1)
      refine ⟨w2, b2, ?_, ?_⟩
      · simp only [List.length_cons, stationLoop, hvisit, ok_bind]
        rw [Nat.cast_succ] at hloop
        exact hloop
      · rw [List.map_cons, hca]
        exact hfalse rfl _ _ _ _ hscan

/-- The dish loop of `processAllDishes` on a state in good order whose queue
starts with `dishes`, set against the pass the spec describes: it finishes,
the station records and the pool it leaves are those of that pass over
`dishes`, and it leaves in the queue what followed `dishes`, then the dishes of
`dishes` that no station prepared. -/
theorem dishLoop_handles {fuel : Nat} {ds : Dishes} {h : Heap (Option Nat)} {l : LinkedList}
    {cs : List (Nat × Option Nat)} (hc : Chain h l cs) (hf : l.getLength ≤ fuel) :
    ∀ (dishes : List (Option Nat)) (w : Pass) (later : List (Option Nat)),
      w.queue = dishes ++ later → Listed w.stations cs → DishesOk ds w.stations →
      QueueOk ds dishes →
      ∃ w1 flags, dishLoop fuel ds h l dishes.length w = .ok w1 ∧
        Handles fuel ds h l (cs.map Prod.snd) dishes w.stations w.backup flags
          w1.stations w1.backup ∧
        flags.length = dishes.length ∧ w1.queue = later ++ unprepared dishes flags := by
  intro dishes
  induction dishes with
  | nil =>
    intro w later hq _ _ _
    exact ⟨w, [], rfl, Handles.nil, rfl, by simpa [unprepared] using hq⟩
  | cons dish rest ih =>
    intro w later hq hv hok hqok
    obtain ⟨st, bk, q, o⟩ := w
    simp only at hq hv hok
    subst hq
    obtain ⟨d, hd⟩ := hqok dish (List.mem_cons_self _ _)
    have hname := dishName_of_read hd
    obtain ⟨w2, b, hscan, hspec⟩ := stationLoop_scans hc hf hd cs 0
      ⟨st, bk, dish :: (rest ++ later), o ++ ["PREPARING DISH: " ++ d.name_]⟩ (List.drop_zero _)
      hv hok
    obtain ⟨w2', b', hscan', hshape2, hq2⟩ := stationLoop_total hc hf hd cs 0
      ⟨st, bk, dish :: (rest ++ later), o ++ ["PREPARING DISH: " ++ d.name_]⟩ (List.drop_zero _)
      hv hok
    rw [hscan] at hscan'
    cases hscan'
    rw [← chain_rounds hc, Nat.cast_zero] at hscan
    have hqok' : QueueOk ds rest := fun x hx => hqok x (List.mem_cons_of_mem _ hx)
    have hv2 : Listed w2.stations cs := listed_of_shape hv hshape2
    have hok2 : DishesOk ds w2.stations := dishesOk_of_shape hok hshape2
    cases b with
    | true =>
      have hq2' : w2.queue = rest ++ later := by
        rw [hq2]; simp
      obtain ⟨w1, flags, hloop, hrest, hlen, hq1⟩ := ih w2 later hq2' hv2 hok2 hqok'
      refine ⟨w1, true :: flags, ?_, Handles.cons hd hspec hrest, by simp [hlen], ?_⟩
      · simp only [List.length_cons, dishLoop, List.cons_append, hname, ok_bind, hscan,
          if_true]
        exact hloop
      · rw [hq1]; simp [unprepared]
    | false =>
      have hq2' : w2.queue.tail ++ [dish] = rest ++ (later ++ [dish]) := by
        rw [hq2]; simp
      obtain ⟨w1, flags, hloop, hrest, hlen, hq1⟩ := ih
        { w2 with queue := w2.queue.tail ++ [dish]
                  out := w2.out ++ [d.name_ ++ " was not prepared."] }
        (later ++ [dish]) hq2' hv2 hok2 hqok'
      refine ⟨w1, false :: flags, ?_, Handles.cons hd hspec hrest, by simp [hlen], ?_⟩
      · simp only [List.length_cons, dishLoop, List.cons_append, hname, ok_bind, hscan,
          Bool.false_eq_true, if_false]
        exact hloop
      · rw [hq1]; simp [unprepared]

/-- C22: on a state in good order `processAllDishes` finishes, and the station
records and the pool it leaves are those of the pass the spec describes over
the initial queue, whose flags say, dish by dish, whether a station prepared
the dish (its `prepareDish` succeeded and its record was written back); those
flags are determined. The queue afterwards holds exactly the dishes of the
initial queue that no station prepared, in their order in the initial queue,
and its length is the initial length less the number of dishes prepared. -/
theorem processAllDishes_requeues_unprepared (fuel : Nat) (ds : Dishes)
    (h : Heap (Option Nat)) (l : LinkedList) (w : Pass) (hreg : Registry w.stations h l)
    (hok : DishesOk ds w.stations) (hq : QueueOk ds w.queue) (hf : l.getLength ≤ fuel) :
    ∃ w' ps flags, processAllDishes fuel ds h l w = .ok w' ∧
      entries h l = ps.map Except.ok ∧
      Handles fuel ds h l ps w.queue w.stations w.backup flags w'.stations w'.backup ∧
      (∀ flags2 st2 pool2,
        Handles fuel ds h l ps w.queue w.stations w.backup flags2 st2 pool2 →
        flags2 = flags) ∧
      flags.length = w.queue.length ∧
      w'.queue = unprepared w.queue flags ∧ w'.queue.Sublist w.queue ∧
      w'.queue.length + flags.count true = w.queue.length := by
  obtain ⟨cs, hc, hv⟩ := hreg
  obtain ⟨w1, flags, hloop, hspec, hlen, hq1⟩ :=
    dishLoop_handles hc hf w.queue w [] (List.append_nil _).symm hv hok hq
  have hq1' : w1.queue = unprepared w.queue flags := by simpa using hq1
  have hsub := unprepared_sublist w.queue flags
  refine ⟨{ w1 with out := w1.out ++ ["All dishes have been processed."] }, cs.map Prod.snd,
    flags, ?_, ?_, hspec, ?_, hlen, hq1', ?_, ?_⟩
  · simp only [processAllDishes, hloop, ok_bind]
    rfl
  · rw [entries_chain hc, List.map_map]; rfl
  · intro flags2 st2 pool2 h2
    exact (handles_deterministic h2 hspec).1
  · show w1.queue.Sublist w.queue
    rw [hq1']; exact hsub.1
  · show w1.queue.length + flags.count true = w.queue.length
    rw [hq1']; exact hsub.2 hlen

theorem processAllDishes_requeues_unprepared_witness :
    Registry demoPass.stations demoKitchenHeap demoKitchenList ∧
    DishesOk demoDishes demoPass.stations ∧ QueueOk demoDishes demoPass.queue ∧
    demoKitchenList.getLength ≤ ((2 : Nat) : Int) ∧
    (processAllDishes 2 demoDishes demoKitchenHeap demoKitchenList demoPass).map Pass.queue =
      .ok [some 1] ∧
    ∃ w' ps flags,
      processAllDishes 2 demoDishes demoKitchenHeap demoKitchenList demoPass = .ok w' ∧
      entries demoKitchenHeap demoKitchenList = ps.map Except.ok ∧
      Handles 2 demoDishes demoKitchenHeap demoKitchenList ps demoPass.queue demoPass.stations
        demoPass.backup flags w'.stations w'.backup ∧
      (∀ flags2 st2 pool2,
        Handles 2 demoDishes demoKitchenHeap demoKitchenList ps demoPass.queue
          demoPass.stations demoPass.backup flags2 st2 pool2 →
        flags2 = flags) ∧
      flags.length = demoPass.queue.length ∧
      w'.queue = unprepared demoPass.queue flags ∧ w'.queue.Sublist demoPass.queue ∧
      w'.queue.length + flags.count true = demoPass.queue.length :=
  ⟨demo_kitchen, demo_kitchen_dishes, demo_queue, by decide, by rfl,
    processAllDishes_requeues_unprepared 2 demoDishes demoKitchenHeap demoKitchenList demoPass
      demo_kitchen demo_kitchen_dishes demo_queue (by decide)⟩

end ManagerLemmas

end Bistro
